import Mathlib

/-!
Verification of the folder synchronizer (`synchronizer.py`).

The program mirrors a source directory tree onto a replica directory tree:
`copy_files_and_dirs` walks the source top-down (`os.walk`) and creates or
overwrites replica entries, `remove_files_and_dirs` walks the replica
bottom-up (`os.walk` with `topdown=False`) and removes entries absent from
the source.  We embed the filesystem as a finite labelled tree, each
`os`/`shutil` call as a function on that tree, and each pass as a fold over
the walk's `(root, dirs, files)` triples.  Python exceptions are modelled by
`Option` results of the primitive calls; an uncaught exception sets the
`errored` flag of the pass state, after which every remaining step is a
no-op (the real pass aborts).
-/

namespace FolderSync

/-- A path relative to a root, as a list of name components
(`os.path.relpath` / `os.path.join` of components). -/
abbrev Path := List String

/-- A filesystem tree: a file carries a modification timestamp
(`st_mtime`), a creation timestamp (`st_ctime`) and its content; a
directory carries its two timestamps and an ordered list of named
children (the `os.scandir` listing order). -/
inductive FsTree where
  | file (mtime ctime : Int) (content : String)
  | dir (mtime ctime : Int) (children : List (String × FsTree))

mutual
def FsTree.decEq : (a b : FsTree) → Decidable (a = b)
  | .file m c s, .file m' c' s' =>
    if h1 : m = m' then
      if h2 : c = c' then
        if h3 : s = s' then .isTrue (by rw [h1, h2, h3])
        else .isFalse (by intro h; injection h; contradiction)
      else .isFalse (by intro h; injection h; contradiction)
    else .isFalse (by intro h; injection h; contradiction)
  | .file _ _ _, .dir _ _ _ => .isFalse (fun h => FsTree.noConfusion h)
  | .dir _ _ _, .file _ _ _ => .isFalse (fun h => FsTree.noConfusion h)
  | .dir m c cs, .dir m' c' cs' =>
    if h1 : m = m' then
      if h2 : c = c' then
        match FsTree.decEqKids cs cs' with
        | .isTrue h3 => .isTrue (by rw [h1, h2, h3])
        | .isFalse h3 => .isFalse (by intro h; injection h; contradiction)
      else .isFalse (by intro h; injection h; contradiction)
    else .isFalse (by intro h; injection h; contradiction)

def FsTree.decEqKids : (cs ds : List (String × FsTree)) → Decidable (cs = ds)
  | [], [] => .isTrue rfl
  | [], _ :: _ => .isFalse (fun h => List.noConfusion h)
  | _ :: _, [] => .isFalse (fun h => List.noConfusion h)
  | (n, t) :: r, (n', t') :: r' =>
    if h1 : n = n' then
      match FsTree.decEq t t' with
      | .isTrue h2 =>
        match FsTree.decEqKids r r' with
        | .isTrue h3 => .isTrue (by rw [h1, h2, h3])
        | .isFalse h3 => .isFalse (by intro h; injection h; contradiction)
      | .isFalse h2 =>
        .isFalse (by
          intro h
          injection h with hp ht
          exact h2 (congrArg Prod.snd hp))
    else
      .isFalse (by
        intro h
        injection h with hp ht
        exact h1 (congrArg Prod.fst hp))
end

instance : DecidableEq FsTree := FsTree.decEq

/-- The view of a single node without its children: what `os.stat` sees. -/
inductive LocalNode where
  | fileL (mtime ctime : Int) (content : String)
  | dirL (mtime ctime : Int)
deriving DecidableEq

def isDirNode : FsTree → Bool
  | .dir _ _ _ => true
  | .file _ _ _ => false

/-- First child with the given name, as `readdir` resolution would find it. -/
def childGet (cs : List (String × FsTree)) (n : String) : Option FsTree :=
  match cs with
  | [] => none
  | (m, t) :: rest => if m = n then some t else childGet rest n

/-- Replace the first child with the given name, or append a new one. -/
def childSet (cs : List (String × FsTree)) (n : String) (t : FsTree) :
    List (String × FsTree) :=
  match cs with
  | [] => [(n, t)]
  | (m, u) :: rest => if m = n then (n, t) :: rest else (m, u) :: childSet rest n t

/-- Remove the first child with the given name. -/
def childRemove (cs : List (String × FsTree)) (n : String) :
    List (String × FsTree) :=
  match cs with
  | [] => []
  | (m, u) :: rest => if m = n then rest else (m, u) :: childRemove rest n

/-- Resolve a relative path inside a tree. -/
def treeLookup : FsTree → Path → Option FsTree
  | t, [] => some t
  | .file _ _ _, _ :: _ => none
  | .dir _ _ cs, n :: p =>
    match childGet cs n with
    | none => none
    | some u => treeLookup u p

/-- Names in a directory, as `os.listdir` returns them; `none` when the
path is not a directory (the call raises). -/
def treeListdir (t : FsTree) (p : Path) : Option (List String) :=
  match treeLookup t p with
  | some (.dir _ _ cs) => some (cs.map (·.1))
  | _ => none

/-- Write a file node at a path: the parent must exist and be a directory
and the target must not be a directory (`shutil.copy2` onto a directory
raises `IsADirectoryError`, into a missing directory `FileNotFoundError`). -/
def treeWriteFile : FsTree → Path → Int → Int → String → Option FsTree
  | _, [], _, _, _ => none
  | .file _ _ _, _ :: _, _, _, _ => none
  | .dir dm dc cs, [n], mt, ct, c =>
    match childGet cs n with
    | some (.dir _ _ _) => none
    | _ => some (.dir dm dc (childSet cs n (.file mt ct c)))
  | .dir dm dc cs, n :: p :: ps, mt, ct, c =>
    match childGet cs n with
    | none => none
    | some u => (treeWriteFile u (p :: ps) mt ct c).map
        (fun u' => .dir dm dc (childSet cs n u'))

/-- Model of `os.makedirs` (with `exist_ok=False`): creates every missing
directory along the path; raises if the final target already exists or a
component resolves to a file. -/
def treeMakedirs : FsTree → Path → Int → Option FsTree
  | _, [], _ => none
  | .file _ _ _, _ :: _, _ => none
  | .dir dm dc cs, [n], now =>
    match childGet cs n with
    | some _ => none
    | none => some (.dir dm dc (childSet cs n (.dir now now [])))
  | .dir dm dc cs, n :: p :: ps, now =>
    match childGet cs n with
    | some u => (treeMakedirs u (p :: ps) now).map
        (fun u' => .dir dm dc (childSet cs n u'))
    | none => (treeMakedirs (.dir now now []) (p :: ps) now).map
        (fun u' => .dir dm dc (childSet cs n u'))

/-- Model of `os.remove`: the target must exist and be a file. -/
def treeRemoveFile : FsTree → Path → Option FsTree
  | _, [] => none
  | .file _ _ _, _ :: _ => none
  | .dir dm dc cs, [n] =>
    match childGet cs n with
    | some (.file _ _ _) => some (.dir dm dc (childRemove cs n))
    | _ => none
  | .dir dm dc cs, n :: p :: ps =>
    match childGet cs n with
    | none => none
    | some u => (treeRemoveFile u (p :: ps)).map
        (fun u' => .dir dm dc (childSet cs n u'))

/-- Model of `os.rmdir`: the target must exist and be an empty directory. -/
def treeRmdir : FsTree → Path → Option FsTree
  | _, [] => none
  | .file _ _ _, _ :: _ => none
  | .dir dm dc cs, [n] =>
    match childGet cs n with
    | some (.dir _ _ []) => some (.dir dm dc (childRemove cs n))
    | _ => none
  | .dir dm dc cs, n :: p :: ps =>
    match childGet cs n with
    | none => none
    | some u => (treeRmdir u (p :: ps)).map
        (fun u' => .dir dm dc (childSet cs n u'))

/-- The two folder roots the program joins paths against:
`folder_source` and `folder_replica`. -/
inductive Root where
  | source
  | replica
deriving DecidableEq

/-- The filesystem as the program sees it: the source tree (created by the
driver before the first pass, hence always present) and the replica tree
(possibly absent). -/
structure SyncFs where
  src : FsTree
  repl : Option FsTree
deriving DecidableEq

/-- Resolve a path in an optional tree (absent root: nothing resolves). -/
def lookupR (r : Option FsTree) (p : Path) : Option FsTree :=
  match r with
  | none => none
  | some t => treeLookup t p

/-- `os.makedirs` on the replica side: when the replica root itself is
missing, it is created as an intermediate directory of the call. -/
def replMakedirs (r : Option FsTree) (p : Path) (now : Int) : Option FsTree :=
  match r with
  | some t => treeMakedirs t p now
  | none =>
    match p with
    | [] => some (.dir now now [])
    | _ :: _ => treeMakedirs (.dir now now []) p now

def SyncFs.lookup (fs : SyncFs) : Root → Path → Option FsTree
  | .source, p => treeLookup fs.src p
  | .replica, p => lookupR fs.repl p

/-- Model of `os.path.exists` on a joined path. -/
def SyncFs.existsP (fs : SyncFs) (r : Root) (p : Path) : Bool :=
  (fs.lookup r p).isSome

/-- Model of `os.stat(...).st_mtime` (works on files and directories). -/
def SyncFs.statMtime (fs : SyncFs) (r : Root) (p : Path) : Option Int :=
  match fs.lookup r p with
  | some (.file mt _ _) => some mt
  | some (.dir mt _ _) => some mt
  | none => none

/-- Model of `os.stat(...).st_ctime` / `os.path.getctime`. -/
def SyncFs.statCtime (fs : SyncFs) (r : Root) (p : Path) : Option Int :=
  match fs.lookup r p with
  | some (.file _ ct _) => some ct
  | some (.dir _ ct _) => some ct
  | none => none

/-- Model of `os.listdir`. -/
def SyncFs.listdir (fs : SyncFs) (r : Root) (p : Path) : Option (List String) :=
  match fs.lookup r p with
  | some (.dir _ _ cs) => some (cs.map (·.1))
  | _ => none

def SyncFs.makedirs (fs : SyncFs) (r : Root) (p : Path) (now : Int) :
    Option SyncFs :=
  match r with
  | .source => (treeMakedirs fs.src p now).map (fun t => { fs with src := t })
  | .replica => (replMakedirs fs.repl p now).map (fun t => { fs with repl := some t })

def SyncFs.writeFile (fs : SyncFs) (r : Root) (p : Path) (mt ct : Int)
    (c : String) : Option SyncFs :=
  match r with
  | .source => (treeWriteFile fs.src p mt ct c).map (fun t => { fs with src := t })
  | .replica =>
    match fs.repl with
    | none => none
    | some t => (treeWriteFile t p mt ct c).map (fun t' => { fs with repl := some t' })

/-- Model of `shutil.copy2`: reads the source file and writes its content
to the destination, preserving the modification timestamp; the copy's
creation timestamp is the current instant. -/
def SyncFs.copy2 (fs : SyncFs) (sr : Root) (sp : Path) (dr : Root) (dp : Path)
    (now : Int) : Option SyncFs :=
  match fs.lookup sr sp with
  | some (.file mt _ c) => fs.writeFile dr dp mt now c
  | _ => none

def SyncFs.removeFile (fs : SyncFs) (r : Root) (p : Path) : Option SyncFs :=
  match r with
  | .source => (treeRemoveFile fs.src p).map (fun t => { fs with src := t })
  | .replica =>
    match fs.repl with
    | none => none
    | some t => (treeRemoveFile t p).map (fun t' => { fs with repl := some t' })

def SyncFs.rmdir (fs : SyncFs) (r : Root) (p : Path) : Option SyncFs :=
  match r with
  | .source => (treeRmdir fs.src p).map (fun t => { fs with src := t })
  | .replica =>
    match fs.repl with
    | none => none
    | some t => (treeRmdir t p).map (fun t' => { fs with repl := some t' })

/-- Kinds of log lines `log_and_print` receives. -/
inductive EKind where
  | created_file
  | modified_file
  | created_dir
  | deleted_file
  | deleted_dir
deriving DecidableEq

/-- One structured log line: which message template, under which folder
root the message's path was joined, the relative path, and the timestamp
formatted into the message. -/
structure Event where
  kind : EKind
  root : Root
  path : Path
  time : Int
deriving DecidableEq

/-- State threaded through a pass: the filesystem, the log lines so far,
how many appends the sink has performed, which appends fail (the log file
write raising), whether an uncaught exception has aborted the pass, and
whether `os.rmdir` itself ever failed. -/
structure PassSt where
  fs : SyncFs
  events : List Event
  logCount : Nat
  sinkFails : Nat → Bool
  errored : Bool
  rmdirFailed : Bool

def PassSt.init (fs : SyncFs) (sink : Nat → Bool) : PassSt :=
  ⟨fs, [], 0, sink, false, false⟩

/-- A sink whose appends never fail (a writable log file). -/
def reliableSink : Nat → Bool := fun _ => false

/-- Model of `log_and_print`: appends the message to the log file and
prints it; it installs no handler, so a failing append raises out of the
caller. -/
def log_and_print (st : PassSt) (e : Event) : PassSt :=
  if st.sinkFails st.logCount then { st with errored := true }
  else { st with events := st.events ++ [e], logCount := st.logCount + 1 }

/-- One `(root, dirs, files)` triple of `os.walk`, with the root as a path
relative to the walked folder. -/
abbrev Triple := Path × List String × List String

def dirNames (cs : List (String × FsTree)) : List String :=
  (cs.filter (fun e => isDirNode e.2)).map (·.1)

def fileNames (cs : List (String × FsTree)) : List String :=
  (cs.filter (fun e => !isDirNode e.2)).map (·.1)

mutual
/-- Triples of `os.walk(folder, topdown=True)` over a static tree, in
yield order: the directory itself, then each subdirectory's walk in
listing order. -/
def walkTopDown : Path → FsTree → List Triple
  | _, .file _ _ _ => []
  | p, .dir _ _ cs => (p, dirNames cs, fileNames cs) :: walkTopDownKids p cs

def walkTopDownKids : Path → List (String × FsTree) → List Triple
  | _, [] => []
  | p, (n, t) :: rest => walkTopDown (p ++ [n]) t ++ walkTopDownKids p rest
end

mutual
/-- Triples of `os.walk(folder, topdown=False)`: each subdirectory's walk
first, then the directory itself (post-order). -/
def walkBottomUp : Path → FsTree → List Triple
  | _, .file _ _ _ => []
  | p, .dir _ _ cs => walkBottomUpKids p cs ++ [(p, dirNames cs, fileNames cs)]

def walkBottomUpKids : Path → List (String × FsTree) → List Triple
  | _, [] => []
  | p, (n, t) :: rest => walkBottomUp (p ++ [n]) t ++ walkBottomUpKids p rest
end

/-- Lines 65-67 of `copy_files_and_dirs`: create the replica directory for
the currently visited source directory if it does not exist.  No log line
is emitted here. -/
def copyDirEnsure (now : Int) (rel : Path) (st : PassSt) : PassSt :=
  if st.errored then st
  else if st.fs.existsP .replica rel then st
  else
    match st.fs.makedirs .replica rel now with
    | some fs' => { st with fs := fs' }
    | none => { st with errored := true }

/-- Lines 70-90: create the replica file when absent (logging a creation
line with the source file's `st_ctime`), otherwise overwrite it when the
two modification timestamps differ (logging a modification line with the
source file's `st_mtime`). -/
def copyFileStep (now : Int) (rel : Path) (st : PassSt) (f : String) : PassSt :=
  if st.errored then st
  else
    let p := rel ++ [f]
    if !(st.fs.existsP .replica p) then
      match st.fs.copy2 .source p .replica p now with
      | none => { st with errored := true }
      | some fs' =>
        match fs'.statCtime .source p with
        | none => { st with errored := true }
        | some t => log_and_print { st with fs := fs' } ⟨.created_file, .source, p, t⟩
    else
      match st.fs.statMtime .source p, st.fs.statMtime .replica p with
      | some smt, some rmt =>
        if smt ≠ rmt then
          match st.fs.copy2 .source p .replica p now with
          | none => { st with errored := true }
          | some fs' =>
            match fs'.statMtime .source p with
            | none => { st with errored := true }
            | some t => log_and_print { st with fs := fs' } ⟨.modified_file, .source, p, t⟩
        else st
      | _, _ => { st with errored := true }

/-- Lines 93-101: create the replica directory for each subdirectory of
the visited source directory when absent, logging a creation line with the
new directory's `getctime`. -/
def copyDirStep (now : Int) (rel : Path) (st : PassSt) (d : String) : PassSt :=
  if st.errored then st
  else
    let p := rel ++ [d]
    if st.fs.existsP .source p && !(st.fs.existsP .replica p) then
      match st.fs.makedirs .replica p now with
      | none => { st with errored := true }
      | some fs' =>
        match fs'.statCtime .replica p with
        | none => { st with errored := true }
        | some t => log_and_print { st with fs := fs' } ⟨.created_dir, .replica, p, t⟩
    else st

/-- The body of the `for source_root, source_dirs, source_files in
os.walk(folder_source)` loop. -/
def copyTriple (now : Int) (st : PassSt) (tr : Triple) : PassSt :=
  let st1 := copyDirEnsure now tr.1 st
  let st2 := tr.2.2.foldl (copyFileStep now tr.1) st1
  tr.2.1.foldl (copyDirStep now tr.1) st2

/-- Model of `copy_files_and_dirs`: the source tree is never mutated by
the pass, so the walk triples are those of the static source tree. -/
def copy_files_and_dirs (now : Int) (st : PassSt) : PassSt :=
  (walkTopDown [] st.fs.src).foldl (copyTriple now) st

/-- Lines 119-126 of `remove_files_and_dirs`: delete a replica file whose
source counterpart does not exist; the log line names the source-side path
and the current time. -/
def pruneFileStep (now : Int) (rel : Path) (st : PassSt) (f : String) : PassSt :=
  if st.errored then st
  else
    let p := rel ++ [f]
    if !(st.fs.existsP .source p) then
      match st.fs.removeFile .replica p with
      | none => { st with errored := true }
      | some fs' => log_and_print { st with fs := fs' } ⟨.deleted_file, .source, p, now⟩
    else st

/-- Lines 129-135: remove a replica subdirectory when `os.listdir` finds
it empty and its source counterpart does not exist.  A failure of the
`os.rmdir` call itself is recorded in `rmdirFailed`. -/
def pruneDirStep (now : Int) (rel : Path) (st : PassSt) (d : String) : PassSt :=
  if st.errored then st
  else
    let p := rel ++ [d]
    match st.fs.listdir .replica p with
    | none => { st with errored := true }
    | some l =>
      if l.isEmpty && !(st.fs.existsP .source p) then
        match st.fs.rmdir .replica p with
        | none => { st with errored := true, rmdirFailed := true }
        | some fs' => log_and_print { st with fs := fs' } ⟨.deleted_dir, .replica, p, now⟩
      else st

/-- The body of the `for replica_root, replica_dirs, replica_files in
os.walk(folder_replica, topdown=False)` loop: the file loop runs before
the directory loop. -/
def pruneTriple (now : Int) (st : PassSt) (tr : Triple) : PassSt :=
  let st1 := tr.2.2.foldl (pruneFileStep now tr.1) st
  tr.2.1.foldl (pruneDirStep now tr.1) st1

/-- Model of `remove_files_and_dirs`.  The walk triples are computed from
the replica as it stands when the pass starts: the generator scans each
directory before any entry beneath it is processed, and the pass only
deletes inside already-yielded subtrees, so every listing it yields equals
the listing in the entry state. -/
def remove_files_and_dirs (now : Int) (st : PassSt) : PassSt :=
  (match st.fs.repl with
   | none => []
   | some t => walkBottomUp [] t).foldl (pruneTriple now) st

/-- One complete pass, as the body of the `while True` loop runs it:
`copy_files_and_dirs` then `remove_files_and_dirs`.  An exception in the
copy pass aborts the whole pass (every later step is a no-op on an
errored state). -/
def one_pass (now : Int) (st : PassSt) : PassSt :=
  remove_files_and_dirs now (copy_files_and_dirs now st)

/-- Result of `getting_args`: either the parsed tuple or a process exit
(`sys.exit()` with no argument exits with status 0) after printing a
message. -/
inductive ArgsResult where
  | ok (folder_source folder_replica : String) (sync_interval : Int) (log_file : String)
  | exited (message : String) (code : Nat)
deriving DecidableEq

def usage_message : String :=
  "You must enter four arguments. For instance 'python synchronizer.py source replica 10 logfile'"

def integer_message : String := "The third argument must be an integer number"

def digitsVal (l : List Char) : Option Nat :=
  if l = [] then none
  else if l.all (·.isDigit) then
    some (l.foldl (fun a c => a * 10 + (c.toNat - 48)) 0)
  else none

/-- Model of Python's `int(str)`: surrounding whitespace is tolerated, an
optional sign precedes one or more digits; anything else raises
`ValueError`. -/
def pyInt (s : String) : Option Int :=
  match ((s.toList.dropWhile Char.isWhitespace).reverse.dropWhile
      Char.isWhitespace).reverse with
  | '-' :: rest => (digitsVal rest).map (fun n => -(n : Int))
  | '+' :: rest => (digitsVal rest).map (fun n => (n : Int))
  | l => (digitsVal l).map (fun n => (n : Int))

/-- Model of `getting_args` over `sys.argv` (element 0 is the program
name).  The accesses happen in source order: `sys.argv[1]`, `sys.argv[2]`,
`int(sys.argv[3])`, `sys.argv[4]`; `IndexError` prints the usage message,
`ValueError` the integer message, and both exit via `sys.exit()`, i.e.
with status 0. -/
def getting_args (argv : List String) : ArgsResult :=
  match argv[1]? with
  | none => .exited usage_message 0
  | some a1 =>
    match argv[2]? with
    | none => .exited usage_message 0
    | some a2 =>
      match argv[3]? with
      | none => .exited usage_message 0
      | some a3 =>
        match pyInt a3 with
        | none => .exited integer_message 0
        | some n =>
          match argv[4]? with
          | none => .exited usage_message 0
          | some a4 => .ok a1 a2 n (a4 ++ ".log")

/-- The configuration with which `sync_folders` enters its infinite loop
(lines 146-157): `none` when the process exited during argument parsing,
otherwise the tuple whose interval is handed unvalidated to
`time.sleep`. -/
def sync_folders_config (argv : List String) :
    Option (String × String × Int × String) :=
  match getting_args argv with
  | .exited _ _ => none
  | .ok a b n l => some (a, b, n, l)

/-- A sink whose very first append fails (an unwritable log file). -/
def failingSink : Nat → Bool := fun _ => true

/-- Boolean test that path `p` is an ancestor-or-self of path `q`. -/
def underB : Path → Path → Bool
  | [], _ => true
  | _ :: _, [] => false
  | a :: p, b :: q => a == b && underB p q

def isDirO : Option FsTree → Bool
  | some (.dir _ _ _) => true
  | _ => false

def isFileO : Option FsTree → Bool
  | some (.file _ _ _) => true
  | _ => false

/-- The stat view of the node at a path of an optional tree. -/
def localAt (r : Option FsTree) (p : Path) : Option LocalNode :=
  match lookupR r p with
  | some (.file mt ct c) => some (.fileL mt ct c)
  | some (.dir mt ct _) => some (.dirL mt ct)
  | none => none

/-- `os.listdir` against an optional tree. -/
def listdirR (r : Option FsTree) (p : Path) : Option (List String) :=
  match r with
  | none => none
  | some t => treeListdir t p

def isDirL : Option LocalNode → Bool
  | some (.dirL _ _) => true
  | _ => false

def isFileL : Option LocalNode → Bool
  | some (.fileL _ _ _) => true
  | _ => false

def nodupB : List String → Bool
  | [] => true
  | a :: l => !(l.contains a) && nodupB l

mutual
/-- Well-formedness of a tree as a real directory listing: no directory
contains two children with the same name. -/
def wfB : FsTree → Bool
  | .file _ _ _ => true
  | .dir _ _ cs => nodupB (cs.map (·.1)) && wfKidsB cs

def wfKidsB : List (String × FsTree) → Bool
  | [] => true
  | (_, t) :: r => wfB t && wfKidsB r
end

def wfO : Option FsTree → Bool
  | none => true
  | some t => wfB t

mutual
/-- Kind compatibility of a replica tree against a source tree: no path
resolves to a directory in one tree and to a file in the other. -/
def kindCompatB : FsTree → FsTree → Bool
  | .file _ _ _, .file _ _ _ => true
  | .dir _ _ cs, .dir _ _ ds => kindCompatKidsB cs ds
  | _, _ => false

def kindCompatKidsB : List (String × FsTree) → List (String × FsTree) → Bool
  | _, [] => true
  | cs, (n, u) :: ds =>
    (match childGet cs n with
     | none => true
     | some v => kindCompatB v u) && kindCompatKidsB cs ds
end

def kindCompatO (s : FsTree) : Option FsTree → Bool
  | none => true
  | some t => kindCompatB s t

/-- Pointwise kind compatibility at one path. -/
def compatAt (s : FsTree) (r : Option FsTree) (x : Path) : Prop :=
  (isDirO (treeLookup s x) = true → isFileO (lookupR r x) = false) ∧
  (isFileO (treeLookup s x) = true → isDirO (lookupR r x) = false)

/-- Pointwise well-formedness: every listing of the optional tree is
duplicate-free. -/
def wfP (r : Option FsTree) : Prop :=
  ∀ x l, listdirR r x = some l → l.Nodup

def existsSB (s : FsTree) (x : Path) : Bool := (treeLookup s x).isSome

/-- The stat view a completed copy pass leaves at one path, as a function
of the source tree and the stat view the pass found there at entry. -/
def copyLocal (s : FsTree) (now : Int) (old : Option LocalNode) (x : Path) :
    Option LocalNode :=
  match treeLookup s x with
  | some (.dir _ _ _) =>
    match old with
    | none => some (.dirL now now)
    | some o => some o
  | some (.file mt _ c) =>
    match old with
    | none => some (.fileL mt now c)
    | some (.fileL mt' ct' c') =>
      if mt' = mt then some (.fileL mt' ct' c') else some (.fileL mt now c)
    | some (.dirL a b) => some (.dirL a b)
  | none => old

/-- Log lines produced by the file loop of one copy-pass triple, given the
replica stat view `ro` at entry. -/
def copyFileEvts (ro : Path → Option LocalNode) (p : Path) :
    List (String × FsTree) → List Event
  | [] => []
  | (n, .file mt ct _) :: rest =>
    (match ro (p ++ [n]) with
     | none => [⟨.created_file, .source, p ++ [n], ct⟩]
     | some (.fileL mt' _ _) =>
       if mt ≠ mt' then [⟨.modified_file, .source, p ++ [n], mt⟩] else []
     | some (.dirL _ _) => []) ++ copyFileEvts ro p rest
  | (_, .dir _ _ _) :: rest => copyFileEvts ro p rest

/-- Log lines produced by the directory loop of one copy-pass triple. -/
def copyDirEvts (ro : Path → Option LocalNode) (now : Int) (p : Path) :
    List (String × FsTree) → List Event
  | [] => []
  | (n, .dir _ _ _) :: rest =>
    (match ro (p ++ [n]) with
     | none => [⟨.created_dir, .replica, p ++ [n], now⟩]
     | some _ => []) ++ copyDirEvts ro now p rest
  | (_, .file _ _ _) :: rest => copyDirEvts ro now p rest

mutual
/-- All log lines of the copy pass over the source subtree rooted at `p`,
given the replica stat view at entry. -/
def copyEvts (ro : Path → Option LocalNode) (now : Int) : Path → FsTree → List Event
  | _, .file _ _ _ => []
  | p, .dir _ _ cs =>
    copyFileEvts ro p cs ++ copyDirEvts ro now p cs ++ copyEvtsKids ro now p cs

def copyEvtsKids (ro : Path → Option LocalNode) (now : Int) :
    Path → List (String × FsTree) → List Event
  | _, [] => []
  | p, (n, t) :: rest => copyEvts ro now (p ++ [n]) t ++ copyEvtsKids ro now p rest
end

/-- Log lines of the file loop of one prune-pass triple, given the test
`es` for existence on the source side. -/
def pruneFileEvts (es : Path → Bool) (now : Int) (p : Path) :
    List (String × FsTree) → List Event
  | [] => []
  | (n, .file _ _ _) :: rest =>
    (if es (p ++ [n]) then [] else [⟨.deleted_file, .source, p ++ [n], now⟩])
      ++ pruneFileEvts es now p rest
  | (_, .dir _ _ _) :: rest => pruneFileEvts es now p rest

/-- Log lines of the directory loop of one prune-pass triple. -/
def pruneDirEvts (es : Path → Bool) (now : Int) (p : Path) :
    List (String × FsTree) → List Event
  | [] => []
  | (n, .dir _ _ _) :: rest =>
    (if es (p ++ [n]) then [] else [⟨.deleted_dir, .replica, p ++ [n], now⟩])
      ++ pruneDirEvts es now p rest
  | (_, .file _ _ _) :: rest => pruneDirEvts es now p rest

mutual
/-- All log lines of the prune pass over the replica subtree rooted at
`p` (the subtree's own deletion line, if any, belongs to the parent). -/
def pruneEvts (es : Path → Bool) (now : Int) : Path → FsTree → List Event
  | _, .file _ _ _ => []
  | p, .dir _ _ cs =>
    pruneEvtsKids es now p cs ++ pruneFileEvts es now p cs ++ pruneDirEvts es now p cs

def pruneEvtsKids (es : Path → Bool) (now : Int) :
    Path → List (String × FsTree) → List Event
  | _, [] => []
  | p, (n, t) :: rest => pruneEvts es now (p ++ [n]) t ++ pruneEvtsKids es now p rest
end

/-- A replica stat view is synchronized with the source at one path:
same kind there, and for files the same modification timestamp.  This is
exactly what `copyLocal` leaves at every source path, and what makes
every step of a later pass a no-op. -/
def SyncedAt (S : FsTree) (r : Option FsTree) (x : Path) : Prop :=
  match treeLookup S x with
  | some (.file mt _ _) => ∃ ct' c', localAt r x = some (.fileL mt ct' c')
  | some (.dir _ _ _) => isDirL (localAt r x) = true
  | none => localAt r x = none

/-- The log lines a copy pass emits for one particular path strictly below
the walk root, as a function of the source node there and the replica stat
view at entry. -/
def copyEvtAt (s : FsTree) (ro : Path → Option LocalNode) (now : Int) (x : Path) :
    List Event :=
  match treeLookup s x with
  | some (.file mt ct _) =>
    (match ro x with
     | none => [⟨.created_file, .source, x, ct⟩]
     | some (.fileL mt' _ _) =>
       if mt ≠ mt' then [⟨.modified_file, .source, x, mt⟩] else []
     | some (.dirL _ _) => [])
  | some (.dir _ _ _) =>
    (match ro x with
     | none => [⟨.created_dir, .replica, x, now⟩]
     | some _ => [])
  | none => []

/-! Basic lemmas about paths and lookups. -/

theorem treeLookup_append (p : Path) :
    ∀ (t : FsTree) (q : Path),
      treeLookup t (p ++ q) = (treeLookup t p).bind (fun u => treeLookup u q) := by
  induction p with
  | nil => intro t q; simp [treeLookup]
  | cons n p ih =>
    intro t q
    cases t with
    | file mt ct c => simp [treeLookup]
    | dir mt ct cs =>
      simp only [List.cons_append, treeLookup]
      cases childGet cs n with
      | none => simp
      | some u => simpa using ih u q

theorem lookupR_append (r : Option FsTree) (p q : Path) :
    lookupR r (p ++ q) = (lookupR r p).bind (fun u => treeLookup u q) := by
  cases r with
  | none => simp [lookupR]
  | some t => simpa [lookupR] using treeLookup_append p t q

theorem underB_append (p r : Path) : underB p (p ++ r) = true := by
  induction p with
  | nil => simp [underB]
  | cons a p ih => simpa [underB] using ih

theorem underB_iff (p q : Path) : underB p q = true ↔ ∃ r, q = p ++ r := by
  constructor
  · intro h
    induction p generalizing q with
    | nil => exact ⟨q, rfl⟩
    | cons a p ih =>
      cases q with
      | nil => simp [underB] at h
      | cons b q =>
        simp only [underB, Bool.and_eq_true, beq_iff_eq] at h
        obtain ⟨rfl, h2⟩ := h
        obtain ⟨r, rfl⟩ := ih q h2
        exact ⟨r, rfl⟩
  · rintro ⟨r, rfl⟩
    exact underB_append p r

theorem underB_refl (p : Path) : underB p p = true := by
  simpa using underB_append p []

theorem not_underB_nil_iff (q : Path) : underB q [] = true ↔ q = [] := by
  cases q <;> simp [underB]

theorem localAt_none_iff (r : Option FsTree) (x : Path) :
    localAt r x = none ↔ lookupR r x = none := by
  unfold localAt
  cases h : lookupR r x with
  | none => simp
  | some u => cases u <;> simp

theorem localAt_fileL_iff (r : Option FsTree) (x : Path) (mt ct : Int) (c : String) :
    localAt r x = some (.fileL mt ct c) ↔ lookupR r x = some (.file mt ct c) := by
  unfold localAt
  cases h : lookupR r x with
  | none => simp
  | some u => cases u <;> simp [LocalNode.fileL.injEq, FsTree.file.injEq, and_assoc]

theorem localAt_dirL_iff (r : Option FsTree) (x : Path) (mt ct : Int) :
    localAt r x = some (.dirL mt ct) ↔ ∃ cs, lookupR r x = some (.dir mt ct cs) := by
  unfold localAt
  cases h : lookupR r x with
  | none => simp
  | some u => cases u <;> simp [FsTree.dir.injEq, and_assoc]

theorem localAt_isSome (r : Option FsTree) (x : Path) :
    (localAt r x).isSome = (lookupR r x).isSome := by
  unfold localAt
  cases h : lookupR r x with
  | none => simp
  | some u => cases u <;> simp

/-! State-component preservation lemmas for the pass steps. -/

theorem log_and_print_fs (st : PassSt) (e : Event) :
    (log_and_print st e).fs = st.fs := by
  unfold log_and_print; split <;> rfl

theorem log_and_print_rmdirFailed (st : PassSt) (e : Event) :
    (log_and_print st e).rmdirFailed = st.rmdirFailed := by
  unfold log_and_print; split <;> rfl

theorem log_and_print_sinkFails (st : PassSt) (e : Event) :
    (log_and_print st e).sinkFails = st.sinkFails := by
  unfold log_and_print; split <;> rfl

theorem makedirs_replica_src {fs fs' : SyncFs} {p : Path} {n : Int}
    (h : fs.makedirs .replica p n = some fs') : fs'.src = fs.src := by
  unfold SyncFs.makedirs at h
  cases hm : replMakedirs fs.repl p n with
  | none => rw [hm] at h; simp at h
  | some t => rw [hm] at h; simp at h; rw [← h]

theorem writeFile_replica_src {fs fs' : SyncFs} {p : Path} {mt ct : Int} {c : String}
    (h : fs.writeFile .replica p mt ct c = some fs') : fs'.src = fs.src := by
  unfold SyncFs.writeFile at h
  cases hr : fs.repl with
  | none => simp [hr] at h
  | some t =>
    simp only [hr] at h
    simp at h
    obtain ⟨t', hw, rfl⟩ := h
    rfl

theorem copy2_replica_src {fs fs' : SyncFs} {sr : Root} {sp dp : Path} {n : Int}
    (h : fs.copy2 sr sp .replica dp n = some fs') : fs'.src = fs.src := by
  unfold SyncFs.copy2 at h
  cases hl : fs.lookup sr sp with
  | none => rw [hl] at h; simp at h
  | some u =>
    rw [hl] at h
    cases u with
    | file mt ct c => exact writeFile_replica_src h
    | dir mt ct cs => simp at h

theorem removeFile_replica_src {fs fs' : SyncFs} {p : Path}
    (h : fs.removeFile .replica p = some fs') : fs'.src = fs.src := by
  unfold SyncFs.removeFile at h
  cases hr : fs.repl with
  | none => simp [hr] at h
  | some t =>
    simp only [hr] at h
    simp at h
    obtain ⟨t', hw, rfl⟩ := h
    rfl

theorem rmdir_replica_src {fs fs' : SyncFs} {p : Path}
    (h : fs.rmdir .replica p = some fs') : fs'.src = fs.src := by
  unfold SyncFs.rmdir at h
  cases hr : fs.repl with
  | none => simp [hr] at h
  | some t =>
    simp only [hr] at h
    simp at h
    obtain ⟨t', hw, rfl⟩ := h
    rfl

theorem copyDirEnsure_src (now : Int) (rel : Path) (st : PassSt) :
    (copyDirEnsure now rel st).fs.src = st.fs.src := by
  unfold copyDirEnsure
  split
  · rfl
  split
  · rfl
  · split
    · next fs' hm => exact makedirs_replica_src hm
    · rfl

theorem copyFileStep_src (now : Int) (rel : Path) (st : PassSt) (f : String) :
    (copyFileStep now rel st f).fs.src = st.fs.src := by
  unfold copyFileStep
  split
  · rfl
  dsimp only
  split
  · split
    · rfl
    · next fs' hm =>
      split
      · rfl
      · rw [log_and_print_fs]; exact copy2_replica_src hm
  · split
    · split
      · split
        · rfl
        · next fs' hm =>
          split
          · rfl
          · rw [log_and_print_fs]; exact copy2_replica_src hm
      · rfl
    · rfl

theorem copyDirStep_src (now : Int) (rel : Path) (st : PassSt) (d : String) :
    (copyDirStep now rel st d).fs.src = st.fs.src := by
  unfold copyDirStep
  split
  · rfl
  dsimp only
  split
  · split
    · rfl
    · next fs' hm =>
      split
      · rfl
      · rw [log_and_print_fs]; exact makedirs_replica_src hm
  · rfl

theorem pruneFileStep_src (now : Int) (rel : Path) (st : PassSt) (f : String) :
    (pruneFileStep now rel st f).fs.src = st.fs.src := by
  unfold pruneFileStep
  split
  · rfl
  dsimp only
  split
  · split
    · rfl
    · next fs' hm => rw [log_and_print_fs]; exact removeFile_replica_src hm
  · rfl

theorem pruneDirStep_src (now : Int) (rel : Path) (st : PassSt) (d : String) :
    (pruneDirStep now rel st d).fs.src = st.fs.src := by
  unfold pruneDirStep
  split
  · rfl
  dsimp only
  split
  · rfl
  · split
    · split
      · rfl
      · next fs' hm => rw [log_and_print_fs]; exact rmdir_replica_src hm
    · rfl

theorem foldl_preserves_src {α : Type} (g : PassSt → α → PassSt)
    (hg : ∀ st a, (g st a).fs.src = st.fs.src) :
    ∀ (l : List α) (st : PassSt), (l.foldl g st).fs.src = st.fs.src := by
  intro l
  induction l with
  | nil => intro st; rfl
  | cons a l ih => intro st; rw [List.foldl_cons, ih, hg]

theorem copyTriple_src (now : Int) (st : PassSt) (tr : Triple) :
    (copyTriple now st tr).fs.src = st.fs.src := by
  unfold copyTriple
  rw [foldl_preserves_src _ (copyDirStep_src now tr.1),
    foldl_preserves_src _ (copyFileStep_src now tr.1), copyDirEnsure_src]

theorem pruneTriple_src (now : Int) (st : PassSt) (tr : Triple) :
    (pruneTriple now st tr).fs.src = st.fs.src := by
  unfold pruneTriple
  rw [foldl_preserves_src _ (pruneDirStep_src now tr.1),
    foldl_preserves_src _ (pruneFileStep_src now tr.1)]

theorem copy_files_and_dirs_src (now : Int) (st : PassSt) :
    (copy_files_and_dirs now st).fs.src = st.fs.src := by
  unfold copy_files_and_dirs
  exact foldl_preserves_src _ (copyTriple_src now) _ st

theorem remove_files_and_dirs_src (now : Int) (st : PassSt) :
    (remove_files_and_dirs now st).fs.src = st.fs.src := by
  unfold remove_files_and_dirs
  exact foldl_preserves_src _ (pruneTriple_src now) _ st

/-! Child-list lemmas. -/

theorem childGet_childSet (cs : List (String × FsTree)) (n m : String) (t : FsTree) :
    childGet (childSet cs n t) m = if m = n then some t else childGet cs m := by
  induction cs with
  | nil =>
    simp only [childSet, childGet]
    by_cases h : m = n
    · rw [if_pos (h ▸ rfl), if_pos h]
    · rw [if_neg (fun hh => h hh.symm), if_neg h]
  | cons c rest ih =>
    obtain ⟨a, u⟩ := c
    simp only [childSet]
    by_cases h1 : a = n
    · subst h1
      simp only [if_pos rfl, childGet]
      by_cases h2 : a = m
      · rw [if_pos h2, if_pos h2, if_pos h2.symm]
      · rw [if_neg h2, if_neg h2, if_neg (fun hh => h2 hh.symm)]
    · rw [if_neg h1]
      simp only [childGet]
      by_cases h2 : a = m
      · rw [if_pos h2, if_pos h2, if_neg (fun hh : m = n => h1 (h2.trans hh))]
      · rw [if_neg h2, if_neg h2, ih]

theorem childGet_childRemove_ne (cs : List (String × FsTree)) (n m : String)
    (h : m ≠ n) : childGet (childRemove cs n) m = childGet cs m := by
  induction cs with
  | nil => rfl
  | cons c rest ih =>
    obtain ⟨a, u⟩ := c
    simp only [childRemove]
    by_cases h1 : a = n
    · rw [if_pos h1]
      simp only [childGet]
      rw [if_neg (fun hh : a = m => h (hh.symm.trans h1))]
    · rw [if_neg h1]
      simp only [childGet]
      by_cases h2 : a = m
      · rw [if_pos h2, if_pos h2]
      · rw [if_neg h2, if_neg h2, ih]

theorem childGet_eq_none_iff (cs : List (String × FsTree)) (n : String) :
    childGet cs n = none ↔ n ∉ cs.map (·.1) := by
  induction cs with
  | nil => simp [childGet]
  | cons c rest ih =>
    obtain ⟨a, u⟩ := c
    simp only [childGet, List.map_cons, List.mem_cons]
    by_cases h : a = n
    · subst h
      simp
    · rw [if_neg h, ih]
      constructor
      · intro hn hmem
        rcases hmem with h1 | h2
        · exact h h1.symm
        · exact hn h2
      · exact fun hn hmem => hn (Or.inr hmem)

theorem map_fst_childSet_mem {cs : List (String × FsTree)} {n : String}
    {u : FsTree} (h : childGet cs n = some u) (t : FsTree) :
    (childSet cs n t).map (·.1) = cs.map (·.1) := by
  induction cs with
  | nil => simp [childGet] at h
  | cons c rest ih =>
    obtain ⟨a, v⟩ := c
    by_cases h1 : a = n
    · subst h1; simp [childSet]
    · simp only [childGet, if_neg h1] at h
      simp [childSet, h1, ih h]

theorem map_fst_childSet_not_mem {cs : List (String × FsTree)} {n : String}
    (h : childGet cs n = none) (t : FsTree) :
    (childSet cs n t).map (·.1) = cs.map (·.1) ++ [n] := by
  induction cs with
  | nil => simp [childSet]
  | cons c rest ih =>
    obtain ⟨a, v⟩ := c
    by_cases h1 : a = n
    · subst h1; simp [childGet] at h
    · simp only [childGet, if_neg h1] at h
      simp [childSet, h1, ih h]

theorem map_fst_childRemove (cs : List (String × FsTree)) (n : String) :
    (childRemove cs n).map (·.1) = (cs.map (·.1)).erase n := by
  induction cs with
  | nil => simp [childRemove]
  | cons c rest ih =>
    obtain ⟨a, u⟩ := c
    by_cases h1 : a = n
    · subst h1; simp [childRemove, List.erase_cons_head]
    · simp [childRemove, h1, List.erase_cons_tail, ih]

theorem treeLookup_nil (t : FsTree) : treeLookup t [] = some t := by
  cases t <;> rfl

theorem treeLookup_dir_cons (dm dc : Int) (cs : List (String × FsTree))
    (m : String) (xs : Path) :
    treeLookup (.dir dm dc cs) (m :: xs) =
      match childGet cs m with
      | none => none
      | some u => treeLookup u xs := rfl

theorem treeLookup_dir_cons_none {cs : List (String × FsTree)} {m : String}
    (dm dc : Int) (xs : Path) (hc : childGet cs m = none) :
    treeLookup (.dir dm dc cs) (m :: xs) = none := by
  rw [treeLookup_dir_cons]
  simp only [hc]

theorem treeLookup_dir_cons_some {cs : List (String × FsTree)} {m : String}
    {u : FsTree} (dm dc : Int) (xs : Path) (hc : childGet cs m = some u) :
    treeLookup (.dir dm dc cs) (m :: xs) = treeLookup u xs := by
  rw [treeLookup_dir_cons]
  simp only [hc]

theorem localAt_some (t : FsTree) (x : Path) :
    localAt (some t) x =
      match treeLookup t x with
      | some (.file mt ct c) => some (.fileL mt ct c)
      | some (.dir mt ct _) => some (.dirL mt ct)
      | none => none := rfl

theorem localAt_nil_dir (dm dc : Int) (cs : List (String × FsTree)) :
    localAt (some (.dir dm dc cs)) [] = some (.dirL dm dc) := rfl

theorem localAt_nil_file (mt ct : Int) (c : String) :
    localAt (some (.file mt ct c)) [] = some (.fileL mt ct c) := rfl

theorem localAt_cons_file (mt ct : Int) (c : String) (m : String) (xs : Path) :
    localAt (some (.file mt ct c)) (m :: xs) = none := rfl

theorem localAt_dir_cons_none {cs : List (String × FsTree)} {m : String}
    (dm dc : Int) (xs : Path) (hc : childGet cs m = none) :
    localAt (some (.dir dm dc cs)) (m :: xs) = none := by
  rw [localAt_some, treeLookup_dir_cons_none dm dc xs hc]

theorem localAt_dir_cons_some {cs : List (String × FsTree)} {m : String}
    {u : FsTree} (dm dc : Int) (xs : Path) (hc : childGet cs m = some u) :
    localAt (some (.dir dm dc cs)) (m :: xs) = localAt (some u) xs := by
  rw [localAt_some, treeLookup_dir_cons_some dm dc xs hc]
  rfl

theorem treeListdir_nil_dir (dm dc : Int) (cs : List (String × FsTree)) :
    treeListdir (.dir dm dc cs) [] = some (cs.map (·.1)) := rfl

theorem treeListdir_file (mt ct : Int) (c : String) (xs : Path) :
    treeListdir (.file mt ct c) xs = none := by
  cases xs <;> rfl

theorem treeListdir_dir_cons_none {cs : List (String × FsTree)} {m : String}
    (dm dc : Int) (xs : Path) (hc : childGet cs m = none) :
    treeListdir (.dir dm dc cs) (m :: xs) = none := by
  unfold treeListdir
  rw [treeLookup_dir_cons_none dm dc xs hc]

theorem treeListdir_dir_cons_some {cs : List (String × FsTree)} {m : String}
    {u : FsTree} (dm dc : Int) (xs : Path) (hc : childGet cs m = some u) :
    treeListdir (.dir dm dc cs) (m :: xs) = treeListdir u xs := by
  unfold treeListdir
  rw [treeLookup_dir_cons_some dm dc xs hc]

theorem isDirO_iff (o : Option FsTree) :
    isDirO o = true ↔ ∃ dm dc cs, o = some (.dir dm dc cs) := by
  cases o with
  | none => simp [isDirO]
  | some u => cases u <;> simp [isDirO]

/-! Characterizations of the tree mutations used by the passes. -/

theorem treeWriteFile_spec :
    ∀ (q : Path) (t : FsTree) (n : String) (mt ct : Int) (c : String),
      isDirO (treeLookup t q) = true →
      isDirO (treeLookup t (q ++ [n])) = false →
      ∃ t', treeWriteFile t (q ++ [n]) mt ct c = some t' ∧
        (∀ x, localAt (some t') x =
          if x = q ++ [n] then some (.fileL mt ct c) else localAt (some t) x) ∧
        (∀ x, treeListdir t' x =
          if x = q ∧ treeLookup t (q ++ [n]) = none
          then (treeListdir t x).map (fun l => l ++ [n])
          else treeListdir t x) := by
  intro q
  induction q with
  | nil =>
    intro t n mt ct c hq hn
    rw [isDirO_iff] at hq
    obtain ⟨dm, dc, cs, ht⟩ := hq
    rw [treeLookup_nil] at ht
    injection ht with ht
    subst ht
    simp only [List.nil_append] at hn ⊢
    have hnd : ∀ u, childGet cs n = some u → ∃ fm fc fs, u = .file fm fc fs := by
      intro u hc
      cases u with
      | file fm fc fs => exact ⟨fm, fc, fs, rfl⟩
      | dir a b ds =>
        rw [treeLookup_dir_cons_some dm dc [] hc] at hn
        simp [treeLookup, isDirO] at hn
    have hwrite : treeWriteFile (.dir dm dc cs) [n] mt ct c =
        some (.dir dm dc (childSet cs n (.file mt ct c))) := by
      unfold treeWriteFile
      cases hc : childGet cs n with
      | none => simp
      | some u =>
        obtain ⟨fm, fc, fs, rfl⟩ := hnd u hc
        simp
    have e1 : childGet (childSet cs n (.file mt ct c)) n = some (.file mt ct c) := by
      rw [childGet_childSet, if_pos rfl]
    refine ⟨_, hwrite, ?_, ?_⟩
    · intro x
      cases x with
      | nil => rw [localAt_nil_dir, if_neg (by simp), localAt_nil_dir]
      | cons m xs =>
        by_cases hm : m = n
        · subst hm
          rw [localAt_dir_cons_some dm dc xs e1]
          cases xs with
          | nil => rw [localAt_nil_file, if_pos rfl]
          | cons y ys =>
            rw [localAt_cons_file, if_neg (by simp)]
            cases hc : childGet cs m with
            | none => rw [localAt_dir_cons_none dm dc _ hc]
            | some u =>
              obtain ⟨fm, fc, fs, rfl⟩ := hnd u hc
              rw [localAt_dir_cons_some dm dc _ hc, localAt_cons_file]
        · have e2 : childGet (childSet cs n (.file mt ct c)) m = childGet cs m := by
            rw [childGet_childSet, if_neg hm]
          rw [if_neg (by simp [hm])]
          cases hc : childGet cs m with
          | none =>
            rw [localAt_dir_cons_none dm dc _ (e2.trans hc),
              localAt_dir_cons_none dm dc _ hc]
          | some v =>
            rw [localAt_dir_cons_some dm dc _ (e2.trans hc),
              localAt_dir_cons_some dm dc _ hc]
    · intro x
      cases x with
      | nil =>
        rw [treeListdir_nil_dir, treeListdir_nil_dir]
        cases hc : childGet cs n with
        | none =>
          rw [if_pos ⟨rfl, treeLookup_dir_cons_none dm dc [] hc⟩,
            map_fst_childSet_not_mem hc]
          rfl
        | some u =>
          rw [if_neg ?_, map_fst_childSet_mem hc]
          intro hcond
          rw [treeLookup_dir_cons_some dm dc [] hc, treeLookup_nil] at hcond
          exact Option.noConfusion hcond.2
      | cons m xs =>
        rw [if_neg (by simp)]
        by_cases hm : m = n
        · subst hm
          rw [treeListdir_dir_cons_some dm dc xs e1, treeListdir_file]
          cases hc : childGet cs m with
          | none => rw [treeListdir_dir_cons_none dm dc _ hc]
          | some u =>
            obtain ⟨fm, fc, fs, rfl⟩ := hnd u hc
            rw [treeListdir_dir_cons_some dm dc _ hc, treeListdir_file]
        · have e2 : childGet (childSet cs n (.file mt ct c)) m = childGet cs m := by
            rw [childGet_childSet, if_neg hm]
          cases hc : childGet cs m with
          | none =>
            rw [treeListdir_dir_cons_none dm dc _ (e2.trans hc),
              treeListdir_dir_cons_none dm dc _ hc]
          | some v =>
            rw [treeListdir_dir_cons_some dm dc _ (e2.trans hc),
              treeListdir_dir_cons_some dm dc _ hc]
  | cons a q' ih =>
    intro t n mt ct c hq hn
    cases t with
    | file _ _ _ => simp [treeLookup, isDirO] at hq
    | dir dm dc cs =>
      have hchild : ∃ u, childGet cs a = some u := by
        cases hc : childGet cs a with
        | none => rw [treeLookup_dir_cons_none dm dc q' hc] at hq; simp [isDirO] at hq
        | some u => exact ⟨u, rfl⟩
      obtain ⟨u, hc⟩ := hchild
      have hq' : isDirO (treeLookup u q') = true := by
        rwa [treeLookup_dir_cons_some dm dc q' hc] at hq
      have hn' : isDirO (treeLookup u (q' ++ [n])) = false := by
        rw [show (a :: q') ++ [n] = a :: (q' ++ [n]) from rfl] at hn
        rwa [treeLookup_dir_cons_some dm dc _ hc] at hn
      obtain ⟨u', hu', hloc, hls⟩ := ih u n mt ct c hq' hn'
      have hwrite : treeWriteFile (.dir dm dc cs) ((a :: q') ++ [n]) mt ct c =
          some (.dir dm dc (childSet cs a u')) := by
        cases hql : q' ++ [n] with
        | nil => exact absurd hql (by simp)
        | cons y ys =>
          rw [show (a :: q') ++ [n] = a :: (q' ++ [n]) from rfl, hql]
          rw [hql] at hu'
          simp [treeWriteFile, hc, hu']
      have e1 : childGet (childSet cs a u') a = some u' := by
        rw [childGet_childSet, if_pos rfl]
      refine ⟨_, hwrite, ?_, ?_⟩
      · intro x
        cases x with
        | nil => rw [localAt_nil_dir, if_neg (by simp), localAt_nil_dir]
        | cons m xs =>
          by_cases hm : m = a
          · subst hm
            rw [localAt_dir_cons_some dm dc xs e1, hloc xs,
              localAt_dir_cons_some dm dc xs hc]
            by_cases hxs : xs = q' ++ [n]
            · rw [if_pos hxs, if_pos (by rw [hxs]; rfl)]
            · rw [if_neg hxs, if_neg (by simp [hxs])]
          · rw [if_neg (by simp [hm])]
            cases hcm : childGet cs m with
            | none =>
              have e2 : childGet (childSet cs a u') m = none := by
                rw [childGet_childSet, if_neg hm, hcm]
              rw [localAt_dir_cons_none dm dc _ e2, localAt_dir_cons_none dm dc _ hcm]
            | some v =>
              have e2 : childGet (childSet cs a u') m = some v := by
                rw [childGet_childSet, if_neg hm, hcm]
              rw [localAt_dir_cons_some dm dc _ e2, localAt_dir_cons_some dm dc _ hcm]
      · intro x
        cases x with
        | nil =>
          rw [if_neg (by simp), treeListdir_nil_dir, treeListdir_nil_dir,
            map_fst_childSet_mem hc]
        | cons m xs =>
          by_cases hm : m = a
          · subst hm
            rw [treeListdir_dir_cons_some dm dc xs e1, hls xs,
              treeListdir_dir_cons_some dm dc xs hc]
            have hlkm : treeLookup (.dir dm dc cs) ((m :: q') ++ [n]) =
                treeLookup u (q' ++ [n]) := by
              rw [show (m :: q') ++ [n] = m :: (q' ++ [n]) from rfl]
              exact treeLookup_dir_cons_some dm dc _ hc
            by_cases hxs : xs = q'
            · subst hxs
              by_cases he : treeLookup u (xs ++ [n]) = none
              · rw [if_pos ⟨rfl, he⟩, if_pos ⟨rfl, by rw [hlkm]; exact he⟩]
              · rw [if_neg (by simp [he]), if_neg (by rw [hlkm]; simp [he])]
            · rw [if_neg (by simp [hxs]), if_neg (by simp [hxs])]
          · rw [if_neg (by simp [hm])]
            cases hcm : childGet cs m with
            | none =>
              have e2 : childGet (childSet cs a u') m = none := by
                rw [childGet_childSet, if_neg hm, hcm]
              rw [treeListdir_dir_cons_none dm dc _ e2,
                treeListdir_dir_cons_none dm dc _ hcm]
            | some v =>
              have e2 : childGet (childSet cs a u') m = some v := by
                rw [childGet_childSet, if_neg hm, hcm]
              rw [treeListdir_dir_cons_some dm dc _ e2,
                treeListdir_dir_cons_some dm dc _ hcm]

theorem underB_nil_left (q : Path) : underB [] q = true := rfl

theorem underB_cons_nil (a : String) (p : Path) : underB (a :: p) [] = false := rfl

theorem underB_cons_cons_same (a : String) (p q : Path) :
    underB (a :: p) (a :: q) = underB p q := by simp [underB]

theorem underB_cons_cons_ne {a b : String} (h : a ≠ b) (p q : Path) :
    underB (a :: p) (b :: q) = false := by simp [underB, h]

theorem treeMakedirs_spec :
    ∀ (q : Path) (t : FsTree) (n : String) (now : Int),
      isDirO (treeLookup t q) = true →
      treeLookup t (q ++ [n]) = none →
      ∃ t', treeMakedirs t (q ++ [n]) now = some t' ∧
        (∀ x, localAt (some t') x =
          if x = q ++ [n] then some (.dirL now now) else localAt (some t) x) ∧
        (∀ x, treeListdir t' x =
          if x = q ++ [n] then some []
          else if x = q then (treeListdir t x).map (fun l => l ++ [n])
          else treeListdir t x) := by
  intro q
  induction q with
  | nil =>
    intro t n now hq hn
    rw [isDirO_iff] at hq
    obtain ⟨dm, dc, cs, ht⟩ := hq
    rw [treeLookup_nil] at ht
    injection ht with ht
    subst ht
    simp only [List.nil_append] at hn ⊢
    have hc : childGet cs n = none := by
      cases hc : childGet cs n with
      | none => rfl
      | some u =>
        rw [treeLookup_dir_cons_some dm dc [] hc, treeLookup_nil] at hn
        cases hn
    have hmk : treeMakedirs (.dir dm dc cs) [n] now =
        some (.dir dm dc (childSet cs n (.dir now now []))) := by
      unfold treeMakedirs
      simp [hc]
    have e1 : childGet (childSet cs n (.dir now now [])) n = some (.dir now now []) := by
      rw [childGet_childSet, if_pos rfl]
    refine ⟨_, hmk, ?_, ?_⟩
    · intro x
      cases x with
      | nil => rw [localAt_nil_dir, if_neg (by simp), localAt_nil_dir]
      | cons m xs =>
        by_cases hm : m = n
        · subst hm
          rw [localAt_dir_cons_some dm dc xs e1]
          cases xs with
          | nil => rw [localAt_nil_dir, if_pos rfl]
          | cons y ys =>
            rw [localAt_dir_cons_none now now ys (by rfl), if_neg (by simp),
              localAt_dir_cons_none dm dc _ hc]
        · have e2 : childGet (childSet cs n (.dir now now [])) m = childGet cs m := by
            rw [childGet_childSet, if_neg hm]
          rw [if_neg (by simp [hm])]
          cases hcm : childGet cs m with
          | none =>
            rw [localAt_dir_cons_none dm dc _ (e2.trans hcm),
              localAt_dir_cons_none dm dc _ hcm]
          | some v =>
            rw [localAt_dir_cons_some dm dc _ (e2.trans hcm),
              localAt_dir_cons_some dm dc _ hcm]
    · intro x
      cases x with
      | nil =>
        rw [if_neg (by simp), if_pos rfl, treeListdir_nil_dir, treeListdir_nil_dir,
          map_fst_childSet_not_mem hc]
        rfl
      | cons m xs =>
        by_cases hm : m = n
        · subst hm
          rw [treeListdir_dir_cons_some dm dc xs e1]
          cases xs with
          | nil => rw [if_pos rfl, treeListdir_nil_dir]; rfl
          | cons y ys =>
            rw [treeListdir_dir_cons_none now now ys (by rfl), if_neg (by simp),
              if_neg (by simp), treeListdir_dir_cons_none dm dc _ hc]
        · have e2 : childGet (childSet cs n (.dir now now [])) m = childGet cs m := by
            rw [childGet_childSet, if_neg hm]
          rw [if_neg (by simp [hm]), if_neg (by simp)]
          cases hcm : childGet cs m with
          | none =>
            rw [treeListdir_dir_cons_none dm dc _ (e2.trans hcm),
              treeListdir_dir_cons_none dm dc _ hcm]
          | some v =>
            rw [treeListdir_dir_cons_some dm dc _ (e2.trans hcm),
              treeListdir_dir_cons_some dm dc _ hcm]
  | cons a q' ih =>
    intro t n now hq hn
    cases t with
    | file _ _ _ => simp [treeLookup, isDirO] at hq
    | dir dm dc cs =>
      have hchild : ∃ u, childGet cs a = some u := by
        cases hc : childGet cs a with
        | none => rw [treeLookup_dir_cons_none dm dc q' hc] at hq; simp [isDirO] at hq
        | some u => exact ⟨u, rfl⟩
      obtain ⟨u, hc⟩ := hchild
      have hq' : isDirO (treeLookup u q') = true := by
        rwa [treeLookup_dir_cons_some dm dc q' hc] at hq
      have hn' : treeLookup u (q' ++ [n]) = none := by
        rw [show (a :: q') ++ [n] = a :: (q' ++ [n]) from rfl] at hn
        rwa [treeLookup_dir_cons_some dm dc _ hc] at hn
      obtain ⟨u', hu', hloc, hls⟩ := ih u n now hq' hn'
      have hmk : treeMakedirs (.dir dm dc cs) ((a :: q') ++ [n]) now =
          some (.dir dm dc (childSet cs a u')) := by
        cases hql : q' ++ [n] with
        | nil => exact absurd hql (by simp)
        | cons y ys =>
          rw [show (a :: q') ++ [n] = a :: (q' ++ [n]) from rfl, hql]
          rw [hql] at hu'
          simp [treeMakedirs, hc, hu']
      have e1 : childGet (childSet cs a u') a = some u' := by
        rw [childGet_childSet, if_pos rfl]
      refine ⟨_, hmk, ?_, ?_⟩
      · intro x
        cases x with
        | nil => rw [localAt_nil_dir, if_neg (by simp), localAt_nil_dir]
        | cons m xs =>
          by_cases hm : m = a
          · subst hm
            rw [localAt_dir_cons_some dm dc xs e1, hloc xs,
              localAt_dir_cons_some dm dc xs hc]
            by_cases hxs : xs = q' ++ [n]
            · rw [if_pos hxs, if_pos (by rw [hxs]; rfl)]
            · rw [if_neg hxs, if_neg (by simp [hxs])]
          · rw [if_neg (by simp [hm])]
            cases hcm : childGet cs m with
            | none =>
              have e2 : childGet (childSet cs a u') m = none := by
                rw [childGet_childSet, if_neg hm, hcm]
              rw [localAt_dir_cons_none dm dc _ e2, localAt_dir_cons_none dm dc _ hcm]
            | some v =>
              have e2 : childGet (childSet cs a u') m = some v := by
                rw [childGet_childSet, if_neg hm, hcm]
              rw [localAt_dir_cons_some dm dc _ e2, localAt_dir_cons_some dm dc _ hcm]
      · intro x
        cases x with
        | nil =>
          rw [if_neg (by simp), if_neg (by simp), treeListdir_nil_dir,
            treeListdir_nil_dir, map_fst_childSet_mem hc]
        | cons m xs =>
          by_cases hm : m = a
          · subst hm
            rw [treeListdir_dir_cons_some dm dc xs e1, hls xs,
              treeListdir_dir_cons_some dm dc xs hc]
            simp only [List.cons_append, List.cons.injEq, eq_self_iff_true, true_and]
          · rw [if_neg (by simp [hm]), if_neg (by simp [hm])]
            cases hcm : childGet cs m with
            | none =>
              have e2 : childGet (childSet cs a u') m = none := by
                rw [childGet_childSet, if_neg hm, hcm]
              rw [treeListdir_dir_cons_none dm dc _ e2,
                treeListdir_dir_cons_none dm dc _ hcm]
            | some v =>
              have e2 : childGet (childSet cs a u') m = some v := by
                rw [childGet_childSet, if_neg hm, hcm]
              rw [treeListdir_dir_cons_some dm dc _ e2,
                treeListdir_dir_cons_some dm dc _ hcm]

theorem treeRemoveFile_spec :
    ∀ (q : Path) (t : FsTree) (n : String) (mt ct : Int) (c : String),
      treeLookup t (q ++ [n]) = some (.file mt ct c) →
      (∀ l, treeListdir t q = some l → l.Nodup) →
      ∃ t', treeRemoveFile t (q ++ [n]) = some t' ∧
        (∀ x, localAt (some t') x =
          if underB (q ++ [n]) x then none else localAt (some t) x) ∧
        (∀ x, treeListdir t' x =
          if underB (q ++ [n]) x then none
          else if x = q then (treeListdir t x).map (fun l => l.erase n)
          else treeListdir t x) := by
  intro q
  induction q with
  | nil =>
    intro t n mt ct c hl hnd
    simp only [List.nil_append] at hl ⊢
    cases t with
    | file _ _ _ => rw [show treeLookup (FsTree.file _ _ _) [n] = none from rfl] at hl; cases hl
    | dir dm dc cs =>
      have hc : childGet cs n = some (.file mt ct c) := by
        cases hc : childGet cs n with
        | none => rw [treeLookup_dir_cons_none dm dc [] hc] at hl; cases hl
        | some u =>
          rw [treeLookup_dir_cons_some dm dc [] hc, treeLookup_nil] at hl
          injection hl with hl
          rw [hl]
      have hnod : (cs.map (·.1)).Nodup := hnd _ (treeListdir_nil_dir dm dc cs)
      have hrem : treeRemoveFile (.dir dm dc cs) [n] =
          some (.dir dm dc (childRemove cs n)) := by
        unfold treeRemoveFile
        simp [hc]
      have e0 : childGet (childRemove cs n) n = none := by
        rw [childGet_eq_none_iff, map_fst_childRemove]
        exact hnod.not_mem_erase
      refine ⟨_, hrem, ?_, ?_⟩
      · intro x
        cases x with
        | nil => rw [if_neg (by simp [underB]), localAt_nil_dir, localAt_nil_dir]
        | cons m xs =>
          by_cases hm : m = n
          · subst hm
            rw [if_pos (by simp [underB]), localAt_dir_cons_none dm dc xs e0]
          · rw [if_neg (by rw [underB_cons_cons_ne (fun hh => hm hh.symm)]; simp)]
            cases hcm : childGet cs m with
            | none =>
              rw [localAt_dir_cons_none dm dc _
                  ((childGet_childRemove_ne cs n m hm).trans hcm),
                localAt_dir_cons_none dm dc _ hcm]
            | some v =>
              rw [localAt_dir_cons_some dm dc _
                  ((childGet_childRemove_ne cs n m hm).trans hcm),
                localAt_dir_cons_some dm dc _ hcm]
      · intro x
        cases x with
        | nil =>
          rw [if_neg (by simp [underB]), if_pos rfl, treeListdir_nil_dir,
            treeListdir_nil_dir, map_fst_childRemove]
          rfl
        | cons m xs =>
          by_cases hm : m = n
          · subst hm
            rw [if_pos (by simp [underB]), treeListdir_dir_cons_none dm dc xs e0]
          · rw [if_neg (by rw [underB_cons_cons_ne (fun hh => hm hh.symm)]; simp),
              if_neg (by simp)]
            cases hcm : childGet cs m with
            | none =>
              rw [treeListdir_dir_cons_none dm dc _
                  ((childGet_childRemove_ne cs n m hm).trans hcm),
                treeListdir_dir_cons_none dm dc _ hcm]
            | some v =>
              rw [treeListdir_dir_cons_some dm dc _
                  ((childGet_childRemove_ne cs n m hm).trans hcm),
                treeListdir_dir_cons_some dm dc _ hcm]
  | cons a q' ih =>
    intro t n mt ct c hl hnd
    simp only [List.cons_append] at hl ⊢
    cases t with
    | file _ _ _ => rw [show treeLookup (FsTree.file _ _ _) (a :: (q' ++ [n])) = none from rfl] at hl; cases hl
    | dir dm dc cs =>
      have hchild : ∃ u, childGet cs a = some u := by
        cases hc : childGet cs a with
        | none => rw [treeLookup_dir_cons_none dm dc _ hc] at hl; cases hl
        | some u => exact ⟨u, rfl⟩
      obtain ⟨u, hc⟩ := hchild
      have hl' : treeLookup u (q' ++ [n]) = some (.file mt ct c) := by
        rwa [treeLookup_dir_cons_some dm dc _ hc] at hl
      have hnd' : ∀ l, treeListdir u q' = some l → l.Nodup := by
        intro l hld
        exact hnd l (by rw [treeListdir_dir_cons_some dm dc q' hc]; exact hld)
      obtain ⟨u', hu', hloc, hls⟩ := ih u n mt ct c hl' hnd'
      have hrem : treeRemoveFile (.dir dm dc cs) (a :: (q' ++ [n])) =
          some (.dir dm dc (childSet cs a u')) := by
        cases hql : q' ++ [n] with
        | nil => exact absurd hql (by simp)
        | cons y ys =>
          rw [hql] at hu'
          simp [treeRemoveFile, hc, hu']
      have e1 : childGet (childSet cs a u') a = some u' := by
        rw [childGet_childSet, if_pos rfl]
      refine ⟨_, hrem, ?_, ?_⟩
      · intro x
        cases x with
        | nil => rw [if_neg (by simp [underB]), localAt_nil_dir, localAt_nil_dir]
        | cons m xs =>
          by_cases hm : m = a
          · subst hm
            rw [localAt_dir_cons_some dm dc xs e1, hloc xs,
              localAt_dir_cons_some dm dc xs hc]
            simp only [underB_cons_cons_same]
          · rw [if_neg (by rw [underB_cons_cons_ne (fun hh => hm hh.symm)]; simp)]
            cases hcm : childGet cs m with
            | none =>
              have e2 : childGet (childSet cs a u') m = none := by
                rw [childGet_childSet, if_neg hm, hcm]
              rw [localAt_dir_cons_none dm dc _ e2, localAt_dir_cons_none dm dc _ hcm]
            | some v =>
              have e2 : childGet (childSet cs a u') m = some v := by
                rw [childGet_childSet, if_neg hm, hcm]
              rw [localAt_dir_cons_some dm dc _ e2, localAt_dir_cons_some dm dc _ hcm]
      · intro x
        cases x with
        | nil =>
          rw [if_neg (by simp [underB]), if_neg (by simp), treeListdir_nil_dir,
            treeListdir_nil_dir, map_fst_childSet_mem hc]
        | cons m xs =>
          by_cases hm : m = a
          · subst hm
            rw [treeListdir_dir_cons_some dm dc xs e1, hls xs,
              treeListdir_dir_cons_some dm dc xs hc]
            simp only [underB_cons_cons_same, List.cons.injEq, eq_self_iff_true,
              true_and]
          · rw [if_neg (by rw [underB_cons_cons_ne (fun hh => hm hh.symm)]; simp),
              if_neg (by simp [hm])]
            cases hcm : childGet cs m with
            | none =>
              have e2 : childGet (childSet cs a u') m = none := by
                rw [childGet_childSet, if_neg hm, hcm]
              rw [treeListdir_dir_cons_none dm dc _ e2,
                treeListdir_dir_cons_none dm dc _ hcm]
            | some v =>
              have e2 : childGet (childSet cs a u') m = some v := by
                rw [childGet_childSet, if_neg hm, hcm]
              rw [treeListdir_dir_cons_some dm dc _ e2,
                treeListdir_dir_cons_some dm dc _ hcm]

theorem treeRmdir_spec :
    ∀ (q : Path) (t : FsTree) (n : String) (dm2 dc2 : Int),
      treeLookup t (q ++ [n]) = some (.dir dm2 dc2 []) →
      (∀ l, treeListdir t q = some l → l.Nodup) →
      ∃ t', treeRmdir t (q ++ [n]) = some t' ∧
        (∀ x, localAt (some t') x =
          if underB (q ++ [n]) x then none else localAt (some t) x) ∧
        (∀ x, treeListdir t' x =
          if underB (q ++ [n]) x then none
          else if x = q then (treeListdir t x).map (fun l => l.erase n)
          else treeListdir t x) := by
  intro q
  induction q with
  | nil =>
    intro t n dm2 dc2 hl hnd
    simp only [List.nil_append] at hl ⊢
    cases t with
    | file _ _ _ => rw [show treeLookup (FsTree.file _ _ _) [n] = none from rfl] at hl; cases hl
    | dir dm dc cs =>
      have hc : childGet cs n = some (.dir dm2 dc2 []) := by
        cases hc : childGet cs n with
        | none => rw [treeLookup_dir_cons_none dm dc [] hc] at hl; cases hl
        | some u =>
          rw [treeLookup_dir_cons_some dm dc [] hc, treeLookup_nil] at hl
          injection hl with hl
          rw [hl]
      have hnod : (cs.map (·.1)).Nodup := hnd _ (treeListdir_nil_dir dm dc cs)
      have hrem : treeRmdir (.dir dm dc cs) [n] =
          some (.dir dm dc (childRemove cs n)) := by
        unfold treeRmdir
        simp [hc]
      have e0 : childGet (childRemove cs n) n = none := by
        rw [childGet_eq_none_iff, map_fst_childRemove]
        exact hnod.not_mem_erase
      refine ⟨_, hrem, ?_, ?_⟩
      · intro x
        cases x with
        | nil => rw [if_neg (by simp [underB]), localAt_nil_dir, localAt_nil_dir]
        | cons m xs =>
          by_cases hm : m = n
          · subst hm
            rw [if_pos (by simp [underB]), localAt_dir_cons_none dm dc xs e0]
          · rw [if_neg (by rw [underB_cons_cons_ne (fun hh => hm hh.symm)]; simp)]
            cases hcm : childGet cs m with
            | none =>
              rw [localAt_dir_cons_none dm dc _
                  ((childGet_childRemove_ne cs n m hm).trans hcm),
                localAt_dir_cons_none dm dc _ hcm]
            | some v =>
              rw [localAt_dir_cons_some dm dc _
                  ((childGet_childRemove_ne cs n m hm).trans hcm),
                localAt_dir_cons_some dm dc _ hcm]
      · intro x
        cases x with
        | nil =>
          rw [if_neg (by simp [underB]), if_pos rfl, treeListdir_nil_dir,
            treeListdir_nil_dir, map_fst_childRemove]
          rfl
        | cons m xs =>
          by_cases hm : m = n
          · subst hm
            rw [if_pos (by simp [underB]), treeListdir_dir_cons_none dm dc xs e0]
          · rw [if_neg (by rw [underB_cons_cons_ne (fun hh => hm hh.symm)]; simp),
              if_neg (by simp)]
            cases hcm : childGet cs m with
            | none =>
              rw [treeListdir_dir_cons_none dm dc _
                  ((childGet_childRemove_ne cs n m hm).trans hcm),
                treeListdir_dir_cons_none dm dc _ hcm]
            | some v =>
              rw [treeListdir_dir_cons_some dm dc _
                  ((childGet_childRemove_ne cs n m hm).trans hcm),
                treeListdir_dir_cons_some dm dc _ hcm]
  | cons a q' ih =>
    intro t n dm2 dc2 hl hnd
    simp only [List.cons_append] at hl ⊢
    cases t with
    | file _ _ _ => rw [show treeLookup (FsTree.file _ _ _) (a :: (q' ++ [n])) = none from rfl] at hl; cases hl
    | dir dm dc cs =>
      have hchild : ∃ u, childGet cs a = some u := by
        cases hc : childGet cs a with
        | none => rw [treeLookup_dir_cons_none dm dc _ hc] at hl; cases hl
        | some u => exact ⟨u, rfl⟩
      obtain ⟨u, hc⟩ := hchild
      have hl' : treeLookup u (q' ++ [n]) = some (.dir dm2 dc2 []) := by
        rwa [treeLookup_dir_cons_some dm dc _ hc] at hl
      have hnd' : ∀ l, treeListdir u q' = some l → l.Nodup := by
        intro l hld
        exact hnd l (by rw [treeListdir_dir_cons_some dm dc q' hc]; exact hld)
      obtain ⟨u', hu', hloc, hls⟩ := ih u n dm2 dc2 hl' hnd'
      have hrem : treeRmdir (.dir dm dc cs) (a :: (q' ++ [n])) =
          some (.dir dm dc (childSet cs a u')) := by
        cases hql : q' ++ [n] with
        | nil => exact absurd hql (by simp)
        | cons y ys =>
          rw [hql] at hu'
          simp [treeRmdir, hc, hu']
      have e1 : childGet (childSet cs a u') a = some u' := by
        rw [childGet_childSet, if_pos rfl]
      refine ⟨_, hrem, ?_, ?_⟩
      · intro x
        cases x with
        | nil => rw [if_neg (by simp [underB]), localAt_nil_dir, localAt_nil_dir]
        | cons m xs =>
          by_cases hm : m = a
          · subst hm
            rw [localAt_dir_cons_some dm dc xs e1, hloc xs,
              localAt_dir_cons_some dm dc xs hc]
            simp only [underB_cons_cons_same]
          · rw [if_neg (by rw [underB_cons_cons_ne (fun hh => hm hh.symm)]; simp)]
            cases hcm : childGet cs m with
            | none =>
              have e2 : childGet (childSet cs a u') m = none := by
                rw [childGet_childSet, if_neg hm, hcm]
              rw [localAt_dir_cons_none dm dc _ e2, localAt_dir_cons_none dm dc _ hcm]
            | some v =>
              have e2 : childGet (childSet cs a u') m = some v := by
                rw [childGet_childSet, if_neg hm, hcm]
              rw [localAt_dir_cons_some dm dc _ e2, localAt_dir_cons_some dm dc _ hcm]
      · intro x
        cases x with
        | nil =>
          rw [if_neg (by simp [underB]), if_neg (by simp), treeListdir_nil_dir,
            treeListdir_nil_dir, map_fst_childSet_mem hc]
        | cons m xs =>
          by_cases hm : m = a
          · subst hm
            rw [treeListdir_dir_cons_some dm dc xs e1, hls xs,
              treeListdir_dir_cons_some dm dc xs hc]
            simp only [underB_cons_cons_same, List.cons.injEq, eq_self_iff_true,
              true_and]
          · rw [if_neg (by rw [underB_cons_cons_ne (fun hh => hm hh.symm)]; simp),
              if_neg (by simp [hm])]
            cases hcm : childGet cs m with
            | none =>
              have e2 : childGet (childSet cs a u') m = none := by
                rw [childGet_childSet, if_neg hm, hcm]
              rw [treeListdir_dir_cons_none dm dc _ e2,
                treeListdir_dir_cons_none dm dc _ hcm]
            | some v =>
              have e2 : childGet (childSet cs a u') m = some v := by
                rw [childGet_childSet, if_neg hm, hcm]
              rw [treeListdir_dir_cons_some dm dc _ e2,
                treeListdir_dir_cons_some dm dc _ hcm]

theorem lookupR_some (t : FsTree) (p : Path) : lookupR (some t) p = treeLookup t p := rfl

theorem lookupR_none (p : Path) : lookupR none p = none := rfl

theorem listdirR_some (t : FsTree) (p : Path) : listdirR (some t) p = treeListdir t p := rfl

theorem listdirR_none (p : Path) : listdirR none p = none := rfl

theorem localAt_none (p : Path) : localAt none p = none := rfl

theorem copy2_replica_spec (fs : SyncFs) (q : Path) (n : String) (mt ct : Int)
    (c : String) (now : Int)
    (hsrc : treeLookup fs.src (q ++ [n]) = some (.file mt ct c))
    (hq : isDirO (lookupR fs.repl q) = true)
    (hn : isDirO (lookupR fs.repl (q ++ [n])) = false) :
    ∃ fs', fs.copy2 .source (q ++ [n]) .replica (q ++ [n]) now = some fs' ∧
      fs'.src = fs.src ∧
      (∀ x, localAt fs'.repl x =
        if x = q ++ [n] then some (.fileL mt now c) else localAt fs.repl x) ∧
      (∀ x, listdirR fs'.repl x =
        if x = q ∧ lookupR fs.repl (q ++ [n]) = none
        then (listdirR fs.repl x).map (fun l => l ++ [n])
        else listdirR fs.repl x) := by
  cases hr : fs.repl with
  | none => rw [hr, lookupR_none] at hq; simp [isDirO] at hq
  | some t =>
    rw [hr, lookupR_some] at hq hn
    obtain ⟨t', hw, hloc, hls⟩ := treeWriteFile_spec q t n mt now c hq hn
    refine ⟨{fs with repl := some t'}, ?_, rfl, ?_, ?_⟩
    · unfold SyncFs.copy2
      rw [show fs.lookup .source (q ++ [n]) = treeLookup fs.src (q ++ [n]) from rfl,
        hsrc]
      simp [SyncFs.writeFile, hr, hw]
    · intro x
      simp only [hr]
      exact hloc x
    · intro x
      simp only [hr, listdirR_some, lookupR_some]
      exact hls x

theorem makedirs_replica_spec (fs : SyncFs) (q : Path) (n : String) (now : Int)
    (hq : isDirO (lookupR fs.repl q) = true)
    (hn : lookupR fs.repl (q ++ [n]) = none) :
    ∃ fs', fs.makedirs .replica (q ++ [n]) now = some fs' ∧ fs'.src = fs.src ∧
      (∀ x, localAt fs'.repl x =
        if x = q ++ [n] then some (.dirL now now) else localAt fs.repl x) ∧
      (∀ x, listdirR fs'.repl x =
        if x = q ++ [n] then some []
        else if x = q then (listdirR fs.repl x).map (fun l => l ++ [n])
        else listdirR fs.repl x) := by
  cases hr : fs.repl with
  | none => rw [hr, lookupR_none] at hq; simp [isDirO] at hq
  | some t =>
    rw [hr, lookupR_some] at hq hn
    obtain ⟨t', hw, hloc, hls⟩ := treeMakedirs_spec q t n now hq hn
    refine ⟨{fs with repl := some t'}, ?_, rfl, ?_, ?_⟩
    · simp [SyncFs.makedirs, replMakedirs, hr, hw]
    · intro x
      simp only [hr]
      exact hloc x
    · intro x
      simp only [hr, listdirR_some]
      exact hls x

theorem makedirs_replica_root_spec (fs : SyncFs) (now : Int) (h : fs.repl = none) :
    ∃ fs', fs.makedirs .replica [] now = some fs' ∧ fs'.src = fs.src ∧
      (∀ x, localAt fs'.repl x =
        if x = ([] : Path) then some (.dirL now now) else localAt fs.repl x) ∧
      (∀ x, listdirR fs'.repl x =
        if x = ([] : Path) then some [] else listdirR fs.repl x) := by
  refine ⟨{fs with repl := some (.dir now now [])}, ?_, rfl, ?_, ?_⟩
  · simp [SyncFs.makedirs, replMakedirs, h]
  · intro x
    simp only [h]
    cases x with
    | nil => rw [if_pos rfl, localAt_nil_dir]
    | cons m xs =>
      rw [if_neg (by simp), localAt_dir_cons_none now now xs (by rfl), localAt_none]
  · intro x
    simp only [h, listdirR_some, listdirR_none]
    cases x with
    | nil => rw [if_pos rfl, treeListdir_nil_dir]; rfl
    | cons m xs =>
      rw [if_neg (by simp), treeListdir_dir_cons_none now now xs (by rfl)]

theorem removeFile_replica_spec (fs : SyncFs) (q : Path) (n : String) (mt ct : Int)
    (c : String)
    (hl : lookupR fs.repl (q ++ [n]) = some (.file mt ct c))
    (hnd : ∀ l, listdirR fs.repl q = some l → l.Nodup) :
    ∃ fs', fs.removeFile .replica (q ++ [n]) = some fs' ∧ fs'.src = fs.src ∧
      (∀ x, localAt fs'.repl x =
        if underB (q ++ [n]) x then none else localAt fs.repl x) ∧
      (∀ x, listdirR fs'.repl x =
        if underB (q ++ [n]) x then none
        else if x = q then (listdirR fs.repl x).map (fun l => l.erase n)
        else listdirR fs.repl x) := by
  cases hr : fs.repl with
  | none => rw [hr, lookupR_none] at hl; cases hl
  | some t =>
    rw [hr, lookupR_some] at hl
    have hnd' : ∀ l, treeListdir t q = some l → l.Nodup := by
      intro l hld
      exact hnd l (by rw [hr, listdirR_some]; exact hld)
    obtain ⟨t', hw, hloc, hls⟩ := treeRemoveFile_spec q t n mt ct c hl hnd'
    refine ⟨{fs with repl := some t'}, ?_, rfl, ?_, ?_⟩
    · simp [SyncFs.removeFile, hr, hw]
    · intro x
      simp only [hr]
      exact hloc x
    · intro x
      simp only [hr, listdirR_some]
      exact hls x

theorem rmdir_replica_spec (fs : SyncFs) (q : Path) (n : String) (dm2 dc2 : Int)
    (hl : lookupR fs.repl (q ++ [n]) = some (.dir dm2 dc2 []))
    (hnd : ∀ l, listdirR fs.repl q = some l → l.Nodup) :
    ∃ fs', fs.rmdir .replica (q ++ [n]) = some fs' ∧ fs'.src = fs.src ∧
      (∀ x, localAt fs'.repl x =
        if underB (q ++ [n]) x then none else localAt fs.repl x) ∧
      (∀ x, listdirR fs'.repl x =
        if underB (q ++ [n]) x then none
        else if x = q then (listdirR fs.repl x).map (fun l => l.erase n)
        else listdirR fs.repl x) := by
  cases hr : fs.repl with
  | none => rw [hr, lookupR_none] at hl; cases hl
  | some t =>
    rw [hr, lookupR_some] at hl
    have hnd' : ∀ l, treeListdir t q = some l → l.Nodup := by
      intro l hld
      exact hnd l (by rw [hr, listdirR_some]; exact hld)
    obtain ⟨t', hw, hloc, hls⟩ := treeRmdir_spec q t n dm2 dc2 hl hnd'
    refine ⟨{fs with repl := some t'}, ?_, rfl, ?_, ?_⟩
    · simp [SyncFs.rmdir, hr, hw]
    · intro x
      simp only [hr]
      exact hloc x
    · intro x
      simp only [hr, listdirR_some]
      exact hls x

/-! Bridges between the computable well-formedness and compatibility tests
and their pointwise counterparts. -/

theorem nodupB_iff (l : List String) : nodupB l = true ↔ l.Nodup := by
  induction l with
  | nil => simp [nodupB]
  | cons a l ih => simp [nodupB, ih, List.nodup_cons]

theorem wfKidsB_childGet {cs : List (String × FsTree)} {n : String} {u : FsTree}
    (hw : wfKidsB cs = true) (hc : childGet cs n = some u) : wfB u = true := by
  induction cs with
  | nil => cases hc
  | cons c rest ih =>
    obtain ⟨a, v⟩ := c
    simp only [wfKidsB, Bool.and_eq_true] at hw
    simp only [childGet] at hc
    by_cases h : a = n
    · rw [if_pos h] at hc
      injection hc with hc
      rw [← hc]
      exact hw.1
    · rw [if_neg h] at hc
      exact ih hw.2 hc

theorem wfB_lookup : ∀ (p : Path) (t : FsTree), wfB t = true →
    ∀ u, treeLookup t p = some u → wfB u = true := by
  intro p
  induction p with
  | nil =>
    intro t hw u hu
    rw [treeLookup_nil] at hu
    injection hu with hu
    rw [← hu]
    exact hw
  | cons m xs ih =>
    intro t hw u hu
    cases t with
    | file _ _ _ => simp [treeLookup] at hu
    | dir dm dc cs =>
      cases hc : childGet cs m with
      | none => rw [treeLookup_dir_cons_none dm dc xs hc] at hu; cases hu
      | some v =>
        rw [treeLookup_dir_cons_some dm dc xs hc] at hu
        simp only [wfB, Bool.and_eq_true] at hw
        exact ih v (wfKidsB_childGet hw.2 hc) u hu

theorem wfP_none : wfP none := by
  intro x l h
  cases h

theorem wfP_of_wfB {t : FsTree} (hw : wfB t = true) : wfP (some t) := by
  intro x l hld
  rw [listdirR_some] at hld
  unfold treeListdir at hld
  cases hlk : treeLookup t x with
  | none => simp [hlk] at hld
  | some u =>
    simp only [hlk] at hld
    cases u with
    | file _ _ _ => cases hld
    | dir dm dc cs =>
      injection hld with hld
      have hwu := wfB_lookup x t hw _ hlk
      simp only [wfB, Bool.and_eq_true] at hwu
      rw [← hld]
      exact (nodupB_iff _).mp hwu.1

theorem wfP_of_wfO {r : Option FsTree} (h : wfO r = true) : wfP r := by
  cases r with
  | none => exact wfP_none
  | some t => exact wfP_of_wfB h

theorem kindCompatKidsB_get {cs ds : List (String × FsTree)} {n : String}
    {u v : FsTree} (hk : kindCompatKidsB cs ds = true)
    (hd : childGet ds n = some v) (hc : childGet cs n = some u) :
    kindCompatB u v = true := by
  induction ds with
  | nil => cases hd
  | cons d rest ih =>
    obtain ⟨b, w⟩ := d
    simp only [kindCompatKidsB, Bool.and_eq_true] at hk
    simp only [childGet] at hd
    by_cases h : b = n
    · rw [if_pos h] at hd
      injection hd with hd
      subst hd
      have h1 := hk.1
      rw [h] at h1
      simp only [hc] at h1
      exact h1
    · rw [if_neg h] at hd
      exact ih hk.2 hd

theorem compatAt_none (s : FsTree) (x : Path) : compatAt s none x :=
  ⟨fun _ => rfl, fun _ => rfl⟩

theorem compatAt_of_kindCompatB : ∀ (x : Path) (s r : FsTree),
    kindCompatB s r = true → compatAt s (some r) x := by
  intro x
  induction x with
  | nil =>
    intro s r hk
    cases s with
    | file _ _ _ =>
      cases r with
      | file _ _ _ =>
        exact ⟨fun h => by rw [treeLookup_nil] at h; simp [isDirO] at h, fun _ => rfl⟩
      | dir _ _ _ => simp [kindCompatB] at hk
    | dir _ _ _ =>
      cases r with
      | file _ _ _ => simp [kindCompatB] at hk
      | dir _ _ _ =>
        exact ⟨fun _ => rfl, fun h => by rw [treeLookup_nil] at h; simp [isFileO] at h⟩
  | cons m xs ih =>
    intro s r hk
    cases s with
    | file _ _ _ =>
      constructor
      · intro h
        simp [treeLookup, isDirO] at h
      · intro h
        simp [treeLookup, isFileO] at h
    | dir dm dc cs =>
      cases r with
      | file _ _ _ =>
        constructor
        · intro h
          rw [show lookupR (some (FsTree.file _ _ _)) (m :: xs) = none from rfl]
          rfl
        · intro h
          rw [show lookupR (some (FsTree.file _ _ _)) (m :: xs) = none from rfl]
          rfl
      | dir em ec ds =>
        simp only [kindCompatB] at hk
        cases hd : childGet ds m with
        | none =>
          constructor
          · intro h
            rw [show lookupR (some (FsTree.dir em ec ds)) (m :: xs) =
              treeLookup (FsTree.dir em ec ds) (m :: xs) from rfl,
              treeLookup_dir_cons_none em ec xs hd]
            rfl
          · intro h
            rw [show lookupR (some (FsTree.dir em ec ds)) (m :: xs) =
              treeLookup (FsTree.dir em ec ds) (m :: xs) from rfl,
              treeLookup_dir_cons_none em ec xs hd]
            rfl
        | some v =>
          cases hc : childGet cs m with
          | none =>
            constructor
            · intro h
              rw [treeLookup_dir_cons_none dm dc xs hc] at h
              simp [isDirO] at h
            · intro h
              rw [treeLookup_dir_cons_none dm dc xs hc] at h
              simp [isFileO] at h
          | some u =>
            have hk' := kindCompatKidsB_get hk hd hc
            have hcomp := ih u v hk'
            constructor
            · intro h
              rw [treeLookup_dir_cons_some dm dc xs hc] at h
              rw [show lookupR (some (FsTree.dir em ec ds)) (m :: xs) =
                treeLookup (FsTree.dir em ec ds) (m :: xs) from rfl,
                treeLookup_dir_cons_some em ec xs hd]
              exact hcomp.1 h
            · intro h
              rw [treeLookup_dir_cons_some dm dc xs hc] at h
              rw [show lookupR (some (FsTree.dir em ec ds)) (m :: xs) =
                treeLookup (FsTree.dir em ec ds) (m :: xs) from rfl,
                treeLookup_dir_cons_some em ec xs hd]
              exact hcomp.2 h

theorem compatAt_of_kindCompatO {s : FsTree} {r : Option FsTree}
    (h : kindCompatO s r = true) (x : Path) : compatAt s r x := by
  cases r with
  | none => exact compatAt_none s x
  | some t => exact compatAt_of_kindCompatB x s t h

/-! Small auxiliary lemmas for the pass-level proofs. -/

theorem SyncFs.lookup_replica (fs : SyncFs) (p : Path) :
    fs.lookup .replica p = lookupR fs.repl p := rfl

theorem SyncFs.lookup_source (fs : SyncFs) (p : Path) :
    fs.lookup .source p = treeLookup fs.src p := rfl

theorem SyncFs.listdir_replica (fs : SyncFs) (p : Path) :
    fs.listdir .replica p =
      match lookupR fs.repl p with
      | some (.dir _ _ cs) => some (cs.map (·.1))
      | _ => none := rfl

theorem listdirR_eq (r : Option FsTree) (p : Path) :
    listdirR r p =
      match lookupR r p with
      | some (.dir _ _ cs) => some (cs.map (·.1))
      | _ => none := by
  cases r with
  | none => rfl
  | some t => rfl

theorem log_and_print_reliable (st : PassSt) (e : Event)
    (h : st.sinkFails = reliableSink) :
    log_and_print st e =
      { st with events := st.events ++ [e], logCount := st.logCount + 1 } := by
  unfold log_and_print
  rw [h]
  rfl

theorem isDirO_eq_isDirL (r : Option FsTree) (x : Path) :
    isDirO (lookupR r x) = isDirL (localAt r x) := by
  unfold localAt
  cases h : lookupR r x with
  | none => rfl
  | some u => cases u <;> rfl

theorem isFileO_eq_isFileL (r : Option FsTree) (x : Path) :
    isFileO (lookupR r x) = isFileL (localAt r x) := by
  unfold localAt
  cases h : lookupR r x with
  | none => rfl
  | some u => cases u <;> rfl

theorem underB_trans {p q r : Path} (h1 : underB p q = true)
    (h2 : underB q r = true) : underB p r = true := by
  rw [underB_iff] at h1 h2 ⊢
  obtain ⟨a, rfl⟩ := h1
  obtain ⟨b, rfl⟩ := h2
  exact ⟨a ++ b, by rw [List.append_assoc]⟩

theorem underB_length {p q : Path} (h : underB p q = true) :
    p.length ≤ q.length := by
  rw [underB_iff] at h
  obtain ⟨a, rfl⟩ := h
  simp

theorem ne_of_underB_append {p : Path} {n : String} {x : Path}
    (h : underB (p ++ [n]) x = true) : x ≠ p := by
  intro hx
  have := underB_length h
  rw [hx] at this
  simp at this

theorem mem_listdirR_isSome {r : Option FsTree} {p : Path} {l : List String}
    {n : String} (hl : listdirR r p = some l) (hn : n ∈ l) :
    (lookupR r (p ++ [n])).isSome = true := by
  cases r with
  | none => cases hl
  | some t =>
    rw [listdirR_some] at hl
    unfold treeListdir at hl
    cases hlk : treeLookup t p with
    | none => simp [hlk] at hl
    | some u =>
      simp only [hlk] at hl
      cases u with
      | file _ _ _ => cases hl
      | dir dm dc cs =>
        injection hl with hl
        rw [lookupR_some, treeLookup_append, hlk]
        have hcg : ∃ v, childGet cs n = some v := by
          cases hcg : childGet cs n with
          | none =>
            rw [childGet_eq_none_iff] at hcg
            rw [← hl] at hn
            exact absurd hn hcg
          | some v => exact ⟨v, rfl⟩
        obtain ⟨v, hv⟩ := hcg
        simp [treeLookup_dir_cons_some dm dc [] hv, treeLookup_nil]

theorem copyLocal_idem (s : FsTree) (now : Int) (o : Option LocalNode) (x : Path) :
    copyLocal s now (copyLocal s now o x) x = copyLocal s now o x := by
  unfold copyLocal
  cases hl : treeLookup s x with
  | none => rfl
  | some u =>
    cases u with
    | dir _ _ _ => cases o <;> rfl
    | file mt ct c =>
      cases o with
      | none => simp
      | some v =>
        cases v with
        | dirL _ _ => rfl
        | fileL mt' ct' c' =>
          by_cases h : mt' = mt
          · simp [h]
          · simp [h]

theorem nodup_append_singleton {l : List String} {n : String}
    (hl : l.Nodup) (hn : n ∉ l) : (l ++ [n]).Nodup := by
  rw [List.nodup_append]
  exact ⟨hl, List.nodup_singleton n, by simpa [List.disjoint_singleton]⟩

/-- Characterization of one iteration of the file loop (lines 70-90) on a
healthy state: the replica's stat view changes exactly at the file's path,
to the value `copyLocal` predicts, and the log receives exactly the line
the entry state determines. -/
theorem copyFileStep_spec (S : FsTree) (now : Int) (rel : Path) (f : String)
    (st : PassSt) (mt ct : Int) (c : String)
    (hsrc : st.fs.src = S)
    (herr : st.errored = false)
    (hsink : st.sinkFails = reliableSink)
    (hf : treeLookup S (rel ++ [f]) = some (.file mt ct c))
    (hdir : isDirO (lookupR st.fs.repl rel) = true)
    (hcomp : compatAt S st.fs.repl (rel ++ [f])) :
    (copyFileStep now rel st f).fs.src = S ∧
    (copyFileStep now rel st f).errored = false ∧
    (copyFileStep now rel st f).sinkFails = reliableSink ∧
    (copyFileStep now rel st f).rmdirFailed = st.rmdirFailed ∧
    (∀ x, localAt (copyFileStep now rel st f).fs.repl x =
      if x = rel ++ [f] then copyLocal S now (localAt st.fs.repl x) x
      else localAt st.fs.repl x) ∧
    ((copyFileStep now rel st f).events = st.events ++
      (match localAt st.fs.repl (rel ++ [f]) with
       | none => [⟨.created_file, .source, rel ++ [f], ct⟩]
       | some (.fileL mt' _ _) =>
         if mt ≠ mt' then [⟨.modified_file, .source, rel ++ [f], mt⟩] else []
       | some (.dirL _ _) => [])) ∧
    (∀ x, listdirR (copyFileStep now rel st f).fs.repl x =
      if x = rel ∧ lookupR st.fs.repl (rel ++ [f]) = none
      then (listdirR st.fs.repl x).map (fun l => l ++ [f])
      else listdirR st.fs.repl x) := by
  have hstep : copyFileStep now rel st f =
      (if !(st.fs.existsP .replica (rel ++ [f])) then
        match st.fs.copy2 .source (rel ++ [f]) .replica (rel ++ [f]) now with
        | none => { st with errored := true }
        | some fs' =>
          match fs'.statCtime .source (rel ++ [f]) with
          | none => { st with errored := true }
          | some t => log_and_print { st with fs := fs' }
              ⟨.created_file, .source, rel ++ [f], t⟩
      else
        match st.fs.statMtime .source (rel ++ [f]),
            st.fs.statMtime .replica (rel ++ [f]) with
        | some smt, some rmt =>
          if smt ≠ rmt then
            match st.fs.copy2 .source (rel ++ [f]) .replica (rel ++ [f]) now with
            | none => { st with errored := true }
            | some fs' =>
              match fs'.statMtime .source (rel ++ [f]) with
              | none => { st with errored := true }
              | some t => log_and_print { st with fs := fs' }
                  ⟨.modified_file, .source, rel ++ [f], t⟩
          else st
        | _, _ => { st with errored := true }) := by
    unfold copyFileStep
    rw [if_neg (by rw [herr]; exact Bool.false_ne_true)]
  cases hloc0 : localAt st.fs.repl (rel ++ [f]) with
  | none =>
    have hlk0 : lookupR st.fs.repl (rel ++ [f]) = none :=
      (localAt_none_iff _ _).mp hloc0
    have hex : st.fs.existsP .replica (rel ++ [f]) = false := by
      unfold SyncFs.existsP
      rw [SyncFs.lookup_replica, hlk0]
      rfl
    obtain ⟨fs', hcopy, hsrc', hlocC, hlsC⟩ :=
      copy2_replica_spec st.fs rel f mt ct c now (by rw [hsrc]; exact hf) hdir
        (by rw [hlk0]; rfl)
    have hct : fs'.statCtime .source (rel ++ [f]) = some ct := by
      unfold SyncFs.statCtime
      rw [SyncFs.lookup_source, hsrc', hsrc, hf]
    rw [hstep, if_pos (by rw [hex]; rfl)]
    simp only [hcopy, hct]
    rw [log_and_print_reliable _ _
      (show ({ st with fs := fs' } : PassSt).sinkFails = reliableSink from hsink)]
    refine ⟨by rw [hsrc'] ; exact hsrc, herr, hsink, rfl, ?_, ?_, ?_⟩
    · intro x
      by_cases hx : x = rel ++ [f]
      · rw [hlocC x, if_pos hx, if_pos hx]
        subst hx
        simp only [copyLocal, hf, hloc0]
      · rw [hlocC x, if_neg hx, if_neg hx]
    · dsimp only
    · intro x
      exact hlsC x
  | some ln =>
    have hlk0 : ∃ u, lookupR st.fs.repl (rel ++ [f]) = some u := by
      cases hu : lookupR st.fs.repl (rel ++ [f]) with
      | none => rw [(localAt_none_iff _ _).mpr hu] at hloc0; cases hloc0
      | some u => exact ⟨u, rfl⟩
    obtain ⟨u, hu⟩ := hlk0
    have hex : st.fs.existsP .replica (rel ++ [f]) = true := by
      unfold SyncFs.existsP
      rw [SyncFs.lookup_replica, hu]
      rfl
    have hsmt : st.fs.statMtime .source (rel ++ [f]) = some mt := by
      unfold SyncFs.statMtime
      rw [SyncFs.lookup_source, hsrc, hf]
    cases ln with
    | dirL a b =>
      exfalso
      have h2 := hcomp.2 (by rw [hf]; rfl)
      rw [isDirO_eq_isDirL, hloc0] at h2
      cases h2
    | fileL mt' ct' c' =>
      have hufile : u = .file mt' ct' c' := by
        have h2 := (localAt_fileL_iff st.fs.repl (rel ++ [f]) mt' ct' c').mp hloc0
        rw [hu] at h2
        injection h2
      subst hufile
      have hrmt : st.fs.statMtime .replica (rel ++ [f]) = some mt' := by
        unfold SyncFs.statMtime
        rw [SyncFs.lookup_replica, hu]
      rw [hstep, if_neg (by rw [hex]; simp)]
      simp only [hsmt, hrmt]
      by_cases hne : mt = mt'
      · rw [if_neg (by simp [hne])]
        refine ⟨hsrc, herr, hsink, rfl, ?_, ?_, ?_⟩
        · intro x
          by_cases hx : x = rel ++ [f]
          · rw [if_pos hx]
            subst hx
            simp only [copyLocal, hf, hloc0]
            rw [if_pos hne.symm]
          · rw [if_neg hx]
        · dsimp only
          rw [if_neg (by simp [hne]), List.append_nil]
        · intro x
          rw [if_neg (by rw [hu]; simp)]
      · rw [if_pos (by simpa using hne)]
        obtain ⟨fs', hcopy, hsrc', hlocC, hlsC⟩ :=
          copy2_replica_spec st.fs rel f mt ct c now (by rw [hsrc]; exact hf) hdir
            (by rw [hu]; rfl)
        have hmt2 : fs'.statMtime .source (rel ++ [f]) = some mt := by
          unfold SyncFs.statMtime
          rw [SyncFs.lookup_source, hsrc', hsrc, hf]
        simp only [hcopy, hmt2]
        rw [log_and_print_reliable _ _
          (show ({ st with fs := fs' } : PassSt).sinkFails = reliableSink from hsink)]
        refine ⟨by rw [hsrc']; exact hsrc, herr, hsink, rfl, ?_, ?_, ?_⟩
        · intro x
          by_cases hx : x = rel ++ [f]
          · rw [hlocC x, if_pos hx, if_pos hx]
            subst hx
            simp only [copyLocal, hf, hloc0]
            rw [if_neg (fun hh => hne hh.symm)]
          · rw [hlocC x, if_neg hx, if_neg hx]
        · dsimp only
          rw [if_pos hne]
        · intro x
          rw [hlsC x, if_neg (by rw [hu]; simp)]

theorem lookupR_nil_eq_none {r : Option FsTree} (h : lookupR r [] = none) :
    r = none := by
  cases r with
  | none => rfl
  | some t => rw [lookupR_some, treeLookup_nil] at h; cases h

/-- Characterization of one iteration of the directory loop (lines
93-101) on a healthy state. -/
theorem copyDirStep_spec (S : FsTree) (now : Int) (rel : Path) (d : String)
    (st : PassSt) (sdm sdc : Int) (scs : List (String × FsTree))
    (hsrc : st.fs.src = S)
    (herr : st.errored = false)
    (hsink : st.sinkFails = reliableSink)
    (hd : treeLookup S (rel ++ [d]) = some (.dir sdm sdc scs))
    (hdir : isDirO (lookupR st.fs.repl rel) = true) :
    (copyDirStep now rel st d).fs.src = S ∧
    (copyDirStep now rel st d).errored = false ∧
    (copyDirStep now rel st d).sinkFails = reliableSink ∧
    (copyDirStep now rel st d).rmdirFailed = st.rmdirFailed ∧
    (∀ x, localAt (copyDirStep now rel st d).fs.repl x =
      if x = rel ++ [d] then copyLocal S now (localAt st.fs.repl x) x
      else localAt st.fs.repl x) ∧
    ((copyDirStep now rel st d).events = st.events ++
      (match localAt st.fs.repl (rel ++ [d]) with
       | none => [⟨.created_dir, .replica, rel ++ [d], now⟩]
       | some _ => [])) ∧
    (∀ x, listdirR (copyDirStep now rel st d).fs.repl x =
      if x = rel ++ [d] ∧ lookupR st.fs.repl (rel ++ [d]) = none then some []
      else if x = rel ∧ lookupR st.fs.repl (rel ++ [d]) = none
      then (listdirR st.fs.repl x).map (fun l => l ++ [d])
      else listdirR st.fs.repl x) := by
  have hexS : st.fs.existsP .source (rel ++ [d]) = true := by
    unfold SyncFs.existsP
    rw [SyncFs.lookup_source, hsrc, hd]
    rfl
  have hstep : copyDirStep now rel st d =
      (if st.fs.existsP .source (rel ++ [d]) && !(st.fs.existsP .replica (rel ++ [d])) then
        match st.fs.makedirs .replica (rel ++ [d]) now with
        | none => { st with errored := true }
        | some fs' =>
          match fs'.statCtime .replica (rel ++ [d]) with
          | none => { st with errored := true }
          | some t => log_and_print { st with fs := fs' }
              ⟨.created_dir, .replica, rel ++ [d], t⟩
      else st) := by
    unfold copyDirStep
    rw [if_neg (by rw [herr]; exact Bool.false_ne_true)]
  cases hloc0 : localAt st.fs.repl (rel ++ [d]) with
  | none =>
    have hlk0 : lookupR st.fs.repl (rel ++ [d]) = none :=
      (localAt_none_iff _ _).mp hloc0
    have hex : st.fs.existsP .replica (rel ++ [d]) = false := by
      unfold SyncFs.existsP
      rw [SyncFs.lookup_replica, hlk0]
      rfl
    obtain ⟨fs', hmk, hsrc', hlocC, hlsC⟩ :=
      makedirs_replica_spec st.fs rel d now hdir hlk0
    have hct : fs'.statCtime .replica (rel ++ [d]) = some now := by
      have h1 := hlocC (rel ++ [d])
      rw [if_pos rfl] at h1
      obtain ⟨cs', hcs'⟩ := (localAt_dirL_iff _ _ _ _).mp h1
      unfold SyncFs.statCtime
      rw [SyncFs.lookup_replica, hcs']
    rw [hstep, if_pos (by rw [hexS, hex]; rfl)]
    simp only [hmk, hct]
    rw [log_and_print_reliable _ _
      (show ({ st with fs := fs' } : PassSt).sinkFails = reliableSink from hsink)]
    refine ⟨by rw [hsrc']; exact hsrc, herr, hsink, rfl, ?_, ?_, ?_⟩
    · intro x
      by_cases hx : x = rel ++ [d]
      · rw [hlocC x, if_pos hx, if_pos hx]
        subst hx
        simp only [copyLocal, hd, hloc0]
      · rw [hlocC x, if_neg hx, if_neg hx]
    · dsimp only
    · intro x
      simp only [hlk0, eq_self_iff_true, and_true]
      exact hlsC x
  | some ln =>
    have hlk0 : ∃ u, lookupR st.fs.repl (rel ++ [d]) = some u := by
      cases hu : lookupR st.fs.repl (rel ++ [d]) with
      | none => rw [(localAt_none_iff _ _).mpr hu] at hloc0; cases hloc0
      | some u => exact ⟨u, rfl⟩
    obtain ⟨u, hu⟩ := hlk0
    have hex : st.fs.existsP .replica (rel ++ [d]) = true := by
      unfold SyncFs.existsP
      rw [SyncFs.lookup_replica, hu]
      rfl
    rw [hstep, if_neg (by rw [hexS, hex]; simp)]
    refine ⟨hsrc, herr, hsink, rfl, ?_, ?_, ?_⟩
    · intro x
      by_cases hx : x = rel ++ [d]
      · rw [if_pos hx]
        subst hx
        rw [hloc0]
        simp only [copyLocal, hd]
      · rw [if_neg hx]
    · dsimp only
      rw [List.append_nil]
    · intro x
      rw [if_neg (by rw [hu]; simp), if_neg (by rw [hu]; simp)]

/-- Characterization of the per-directory ensure step (lines 65-67): it
creates the replica root silently when missing, and otherwise does
nothing. -/
theorem copyDirEnsure_spec (S : FsTree) (now : Int) (rel : Path) (st : PassSt)
    (hsrc : st.fs.src = S)
    (herr : st.errored = false)
    (hsink : st.sinkFails = reliableSink)
    (hSdir : isDirO (treeLookup S rel) = true)
    (hcomp : compatAt S st.fs.repl rel)
    (hprec : rel = [] ∨ isDirO (lookupR st.fs.repl rel) = true) :
    (copyDirEnsure now rel st).fs.src = S ∧
    (copyDirEnsure now rel st).errored = false ∧
    (copyDirEnsure now rel st).sinkFails = reliableSink ∧
    (copyDirEnsure now rel st).rmdirFailed = st.rmdirFailed ∧
    (∀ x, localAt (copyDirEnsure now rel st).fs.repl x =
      if x = rel ∧ lookupR st.fs.repl rel = none then some (.dirL now now)
      else localAt st.fs.repl x) ∧
    ((copyDirEnsure now rel st).events = st.events) ∧
    (∀ x, listdirR (copyDirEnsure now rel st).fs.repl x =
      if x = rel ∧ lookupR st.fs.repl rel = none then some []
      else listdirR st.fs.repl x) ∧
    isDirO (lookupR (copyDirEnsure now rel st).fs.repl rel) = true := by
  have hstep : copyDirEnsure now rel st =
      (if st.fs.existsP .replica rel then st
       else
        match st.fs.makedirs .replica rel now with
        | some fs' => { st with fs := fs' }
        | none => { st with errored := true }) := by
    unfold copyDirEnsure
    rw [if_neg (by rw [herr]; exact Bool.false_ne_true)]
  cases hlk0 : lookupR st.fs.repl rel with
  | some u =>
    have hex : st.fs.existsP .replica rel = true := by
      unfold SyncFs.existsP
      rw [SyncFs.lookup_replica, hlk0]
      rfl
    rw [hstep, if_pos (by rw [hex])]
    refine ⟨hsrc, herr, hsink, rfl, ?_, rfl, ?_, ?_⟩
    · intro x
      rw [if_neg (by simp)]
    · intro x
      rw [if_neg (by simp)]
    · rcases hprec with hrel | hisdir
      · subst hrel
        have h1 := hcomp.1 hSdir
        rw [hlk0] at h1 ⊢
        cases u with
        | file _ _ _ => simp [isFileO] at h1
        | dir _ _ _ => rfl
      · rw [hlk0] at hisdir ⊢
        exact hisdir
  | none =>
    have hrel : rel = [] := by
      rcases hprec with hrel | hisdir
      · exact hrel
      · rw [hlk0] at hisdir
        simp [isDirO] at hisdir
    subst hrel
    have hrepl : st.fs.repl = none := lookupR_nil_eq_none hlk0
    have hex : st.fs.existsP .replica [] = false := by
      unfold SyncFs.existsP
      rw [SyncFs.lookup_replica, hlk0]
      rfl
    obtain ⟨fs', hmk, hsrc', hlocC, hlsC⟩ :=
      makedirs_replica_root_spec st.fs now hrepl
    have hstep2 : copyDirEnsure now [] st = { st with fs := fs' } := by
      rw [hstep, if_neg (by rw [hex]; exact Bool.false_ne_true)]
      simp only [hmk]
    rw [hstep2]
    refine ⟨by rw [hsrc']; exact hsrc, herr, hsink, rfl, ?_, rfl, ?_, ?_⟩
    · intro x
      rw [hlocC x]
      simp only [hlk0, eq_self_iff_true, and_true]
    · intro x
      rw [hlsC x]
      simp only [hlk0, eq_self_iff_true, and_true]
    · have h1 := hlocC []
      rw [if_pos rfl] at h1
      rw [isDirO_eq_isDirL, h1]
      rfl

theorem fileNames_nil : fileNames [] = [] := rfl

theorem fileNames_cons (n : String) (u : FsTree) (rest : List (String × FsTree)) :
    fileNames ((n, u) :: rest) =
      if isDirNode u then fileNames rest else n :: fileNames rest := by
  by_cases h : isDirNode u <;> simp [fileNames, List.filter, h]

theorem dirNames_nil : dirNames [] = [] := rfl

theorem dirNames_cons (n : String) (u : FsTree) (rest : List (String × FsTree)) :
    dirNames ((n, u) :: rest) =
      if isDirNode u then n :: dirNames rest else dirNames rest := by
  by_cases h : isDirNode u <;> simp [dirNames, List.filter, h]

theorem mem_fileNames {l : List (String × FsTree)} {f : String}
    (h : f ∈ fileNames l) : ∃ u, (f, u) ∈ l ∧ isDirNode u = false := by
  induction l with
  | nil => cases h
  | cons e rest ih =>
    obtain ⟨n, u⟩ := e
    rw [fileNames_cons] at h
    by_cases hu : isDirNode u
    · rw [if_pos hu] at h
      obtain ⟨v, hv1, hv2⟩ := ih h
      exact ⟨v, List.mem_cons_of_mem _ hv1, hv2⟩
    · rw [if_neg hu] at h
      rcases List.mem_cons.mp h with h1 | h2
      · subst h1
        exact ⟨u, List.mem_cons_self _ _, Bool.eq_false_iff.mpr hu⟩
      · obtain ⟨v, hv1, hv2⟩ := ih h2
        exact ⟨v, List.mem_cons_of_mem _ hv1, hv2⟩

theorem mem_dirNames {l : List (String × FsTree)} {d : String}
    (h : d ∈ dirNames l) : ∃ u, (d, u) ∈ l ∧ isDirNode u = true := by
  induction l with
  | nil => cases h
  | cons e rest ih =>
    obtain ⟨n, u⟩ := e
    rw [dirNames_cons] at h
    by_cases hu : isDirNode u
    · rw [if_pos hu] at h
      rcases List.mem_cons.mp h with h1 | h2
      · subst h1
        exact ⟨u, List.mem_cons_self _ _, hu⟩
      · obtain ⟨v, hv1, hv2⟩ := ih h2
        exact ⟨v, List.mem_cons_of_mem _ hv1, hv2⟩
    · rw [if_neg hu] at h
      obtain ⟨v, hv1, hv2⟩ := ih h
      exact ⟨v, List.mem_cons_of_mem _ hv1, hv2⟩

theorem mem_fileNames_of {l : List (String × FsTree)} {n : String} {u : FsTree}
    (hm : (n, u) ∈ l) (hu : isDirNode u = false) : n ∈ fileNames l := by
  exact List.mem_map.mpr ⟨(n, u), List.mem_filter.mpr ⟨hm, by simp [hu]⟩, rfl⟩

theorem mem_dirNames_of {l : List (String × FsTree)} {n : String} {u : FsTree}
    (hm : (n, u) ∈ l) (hu : isDirNode u = true) : n ∈ dirNames l := by
  exact List.mem_map.mpr ⟨(n, u), List.mem_filter.mpr ⟨hm, by simp [hu]⟩, rfl⟩

theorem copyFileEvts_congr {ro1 ro2 : Path → Option LocalNode} (p : Path)
    (l : List (String × FsTree))
    (h : ∀ n u, (n, u) ∈ l → isDirNode u = false → ro1 (p ++ [n]) = ro2 (p ++ [n])) :
    copyFileEvts ro1 p l = copyFileEvts ro2 p l := by
  induction l with
  | nil => rfl
  | cons e rest ih =>
    obtain ⟨n, u⟩ := e
    have hrest := ih (fun n' u' hm => h n' u' (List.mem_cons_of_mem _ hm))
    cases u with
    | dir _ _ _ => simpa [copyFileEvts] using hrest
    | file mt ct c =>
      simp only [copyFileEvts]
      rw [h n _ (List.mem_cons_self _ _) rfl, hrest]

theorem copyDirEvts_congr {ro1 ro2 : Path → Option LocalNode} (now : Int) (p : Path)
    (l : List (String × FsTree))
    (h : ∀ n u, (n, u) ∈ l → isDirNode u = true → ro1 (p ++ [n]) = ro2 (p ++ [n])) :
    copyDirEvts ro1 now p l = copyDirEvts ro2 now p l := by
  induction l with
  | nil => rfl
  | cons e rest ih =>
    obtain ⟨n, u⟩ := e
    have hrest := ih (fun n' u' hm => h n' u' (List.mem_cons_of_mem _ hm))
    cases u with
    | file _ _ _ => simpa [copyDirEvts] using hrest
    | dir _ _ _ =>
      simp only [copyDirEvts]
      rw [h n _ (List.mem_cons_self _ _) rfl, hrest]

theorem compatAt_preserved {S : FsTree} {now : Int} {r r' : Option FsTree}
    (x : Path) (hc : compatAt S r x)
    (h : localAt r' x = copyLocal S now (localAt r x) x ∨ localAt r' x = localAt r x) :
    compatAt S r' x := by
  rcases h with h | h
  · constructor
    · intro hd
      have hold := hc.1 hd
      rw [isFileO_eq_isFileL] at hold
      rw [isFileO_eq_isFileL, h]
      rw [isDirO_iff] at hd
      obtain ⟨dm, dc, cs, hdx⟩ := hd
      unfold copyLocal
      rw [hdx]
      cases hl : localAt r x with
      | none => rfl
      | some v =>
        rw [hl] at hold
        exact hold
    · intro hf
      have hold := hc.2 hf
      rw [isDirO_eq_isDirL] at hold
      rw [isDirO_eq_isDirL, h]
      have hfx : ∃ fm fc fs, treeLookup S x = some (.file fm fc fs) := by
        cases hfl : treeLookup S x with
        | none => rw [hfl] at hf; simp [isFileO] at hf
        | some v =>
          cases v with
          | file fm fc fs => exact ⟨fm, fc, fs, rfl⟩
          | dir _ _ _ => rw [hfl] at hf; simp [isFileO] at hf
      obtain ⟨fm, fc, fs, hfx⟩ := hfx
      unfold copyLocal
      rw [hfx]
      cases hl : localAt r x with
      | none => rfl
      | some v =>
        rw [hl] at hold
        cases v with
        | dirL a b => exact hold
        | fileL mt' ct' c' =>
          dsimp only
          by_cases he : mt' = fm
          · rw [if_pos he]
            rfl
          · rw [if_neg he]
            rfl
  · exact ⟨fun hd => by rw [isFileO_eq_isFileL, h, ← isFileO_eq_isFileL]; exact hc.1 hd,
      fun hf => by rw [isDirO_eq_isDirL, h, ← isDirO_eq_isDirL]; exact hc.2 hf⟩

theorem childGet_of_mem_nodup {cs : List (String × FsTree)} {n : String}
    {u : FsTree} (hnd : (cs.map (·.1)).Nodup) (hm : (n, u) ∈ cs) :
    childGet cs n = some u := by
  induction cs with
  | nil => cases hm
  | cons e rest ih =>
    obtain ⟨a, v⟩ := e
    rw [List.map_cons, List.nodup_cons] at hnd
    rcases List.mem_cons.mp hm with h1 | h2
    · injection h1 with ha hv
      simp only [childGet]
      rw [if_pos ha.symm]
      rw [hv]
    · simp only [childGet]
      by_cases ha : a = n
      · exfalso
        subst ha
        exact hnd.1 (List.mem_map.mpr ⟨(a, u), h2, rfl⟩)
      · rw [if_neg ha]
        exact ih hnd.2 h2

theorem append_singleton_inj {p : Path} {a b : String}
    (h : p ++ [a] = p ++ [b]) : a = b := by
  induction p with
  | nil =>
    simp only [List.nil_append] at h
    injection h
  | cons x xs ih =>
    simp only [List.cons_append] at h
    injection h with _ h2
    exact ih h2

/-- Effect of the file loop (lines 70-90) of one walk triple, folded over
the file entries of the visited source directory's child list `l`: on a
healthy state whose replica already has a directory at `rel`, the loop
rewrites exactly the file paths `rel ++ [f]` to the value `copyLocal`
predicts, appends exactly the log lines `copyFileEvts` predicts from the
entry state, and touches no listing except the one at `rel`. -/
theorem copyFiles_fold_spec (S : FsTree) (now : Int) (rel : Path) :
    ∀ (l : List (String × FsTree)) (st : PassSt),
    st.fs.src = S → st.errored = false → st.sinkFails = reliableSink →
    (∀ n u, (n, u) ∈ l → treeLookup S (rel ++ [n]) = some u) →
    (fileNames l).Nodup →
    isDirO (lookupR st.fs.repl rel) = true →
    (∀ x, compatAt S st.fs.repl x) →
    wfP st.fs.repl →
    ((fileNames l).foldl (copyFileStep now rel) st).fs.src = S ∧
    ((fileNames l).foldl (copyFileStep now rel) st).errored = false ∧
    ((fileNames l).foldl (copyFileStep now rel) st).sinkFails = reliableSink ∧
    ((fileNames l).foldl (copyFileStep now rel) st).rmdirFailed = st.rmdirFailed ∧
    (∀ x, localAt ((fileNames l).foldl (copyFileStep now rel) st).fs.repl x =
      if x ∈ (fileNames l).map (fun f => rel ++ [f])
      then copyLocal S now (localAt st.fs.repl x) x
      else localAt st.fs.repl x) ∧
    (((fileNames l).foldl (copyFileStep now rel) st).events =
      st.events ++ copyFileEvts (localAt st.fs.repl) rel l) ∧
    (∀ x, x ≠ rel →
      listdirR ((fileNames l).foldl (copyFileStep now rel) st).fs.repl x =
        listdirR st.fs.repl x) ∧
    isDirO (lookupR ((fileNames l).foldl (copyFileStep now rel) st).fs.repl rel) = true ∧
    wfP ((fileNames l).foldl (copyFileStep now rel) st).fs.repl ∧
    (∀ x, compatAt S ((fileNames l).foldl (copyFileStep now rel) st).fs.repl x) := by
  intro l
  induction l with
  | nil =>
    intro st hsrc herr hsink hres hnd hdir hcomp hwf
    simp only [fileNames_nil, List.foldl_nil, List.map_nil]
    refine ⟨hsrc, herr, hsink, trivial, ?_, ?_, ?_, hdir, hwf, hcomp⟩
    · intro x
      rw [if_neg (List.not_mem_nil x)]
    · simp only [copyFileEvts, List.append_nil]
    · intro x _
      trivial
  | cons e rest ih =>
    obtain ⟨n, u⟩ := e
    intro st hsrc herr hsink hres hnd hdir hcomp hwf
    have hres1 : ∀ n' u', (n', u') ∈ rest → treeLookup S (rel ++ [n']) = some u' :=
      fun n' u' hm => hres n' u' (List.mem_cons_of_mem _ hm)
    cases u with
    | dir dm dc dcs =>
      have hfn : fileNames ((n, FsTree.dir dm dc dcs) :: rest) = fileNames rest := by
        rw [fileNames_cons]
        rfl
      rw [hfn] at hnd ⊢
      obtain ⟨h1, h2, h3, h4, h5, h6, h7, h8, h9, h10⟩ :=
        ih st hsrc herr hsink hres1 hnd hdir hcomp hwf
      refine ⟨h1, h2, h3, h4, h5, ?_, h7, h8, h9, h10⟩
      rw [h6]
      simp only [copyFileEvts]
    | file mt ct c =>
      have hfn : fileNames ((n, FsTree.file mt ct c) :: rest) = n :: fileNames rest := by
        rw [fileNames_cons]
        rfl
      rw [hfn] at hnd ⊢
      rw [List.nodup_cons] at hnd
      rw [List.foldl_cons]
      obtain ⟨s1, s2, s3, s4, s5, s6, s7⟩ :=
        copyFileStep_spec S now rel n st mt ct c hsrc herr hsink
          (hres n _ (List.mem_cons_self _ _)) hdir (hcomp (rel ++ [n]))
      have hdir1 : isDirO (lookupR (copyFileStep now rel st n).fs.repl rel) = true := by
        rw [isDirO_eq_isDirL, s5 rel, if_neg (by simp), ← isDirO_eq_isDirL]
        exact hdir
      have hcomp1 : ∀ x, compatAt S (copyFileStep now rel st n).fs.repl x := by
        intro x
        refine @compatAt_preserved S now st.fs.repl
          (copyFileStep now rel st n).fs.repl x (hcomp x) ?_
        rw [s5 x]
        by_cases hx : x = rel ++ [n]
        · rw [if_pos hx]
          exact Or.inl rfl
        · rw [if_neg hx]
          exact Or.inr rfl
      have hwf1 : wfP (copyFileStep now rel st n).fs.repl := by
        intro x l' hls
        rw [s7 x] at hls
        by_cases hx : x = rel ∧ lookupR st.fs.repl (rel ++ [n]) = none
        · rw [if_pos hx] at hls
          cases hls0 : listdirR st.fs.repl x with
          | none => rw [hls0] at hls; cases hls
          | some l0 =>
            rw [hls0, Option.map_some'] at hls
            injection hls with hl'
            subst hl'
            refine nodup_append_singleton (hwf x l0 hls0) ?_
            intro hmem
            have hsome := mem_listdirR_isSome hls0 hmem
            rw [hx.1, hx.2] at hsome
            simp at hsome
        · rw [if_neg hx] at hls
          exact hwf x l' hls
      obtain ⟨h1, h2, h3, h4, h5, h6, h7, h8, h9, h10⟩ :=
        ih (copyFileStep now rel st n) s1 s2 s3 hres1 hnd.2 hdir1 hcomp1 hwf1
      have hcongr : copyFileEvts (localAt (copyFileStep now rel st n).fs.repl) rel rest
          = copyFileEvts (localAt st.fs.repl) rel rest := by
        apply copyFileEvts_congr
        intro n' u' hm hu'
        rw [s5 (rel ++ [n']),
          if_neg (fun he => hnd.1 (by
            rw [← append_singleton_inj he]
            exact mem_fileNames_of hm hu'))]
      refine ⟨h1, h2, h3, h4.trans s4, ?_, ?_, ?_, h8, h9, h10⟩
      · intro x
        rw [h5 x, s5 x]
        by_cases hx1 : x = rel ++ [n]
        · subst hx1
          have hnin : (rel ++ [n]) ∉ (fileNames rest).map (fun f => rel ++ [f]) := by
            intro hmem
            obtain ⟨f, hf, hfe⟩ := List.mem_map.mp hmem
            refine hnd.1 ?_
            rw [← append_singleton_inj hfe]
            exact hf
          rw [if_neg hnin, if_pos rfl, List.map_cons, if_pos (List.mem_cons_self _ _)]
        · rw [if_neg hx1]
          by_cases hx2 : x ∈ (fileNames rest).map (fun f => rel ++ [f])
          · rw [if_pos hx2, List.map_cons, if_pos (List.mem_cons_of_mem _ hx2)]
          · rw [if_neg hx2, List.map_cons,
              if_neg (fun hmem => (List.mem_cons.mp hmem).elim (fun h => hx1 h) hx2)]
      · rw [h6, hcongr, s6, List.append_assoc]
        simp only [copyFileEvts]
      · intro x hx
        rw [h7 x hx, s7 x, if_neg (fun hc => hx hc.1)]

/-- Effect of the directory loop (lines 93-101) of one walk triple, folded
over the directory entries of the visited source directory's child list
`l`: on a healthy state whose replica already has a directory at `rel`,
the loop rewrites exactly the paths `rel ++ [d]` to the value `copyLocal`
predicts, appends exactly the log lines `copyDirEvts` predicts from the
entry state, and touches no listing except the one at `rel` and the
listings of the directories it creates. -/
theorem copyDirs_fold_spec (S : FsTree) (now : Int) (rel : Path) :
    ∀ (l : List (String × FsTree)) (st : PassSt),
    st.fs.src = S → st.errored = false → st.sinkFails = reliableSink →
    (∀ n u, (n, u) ∈ l → treeLookup S (rel ++ [n]) = some u) →
    (dirNames l).Nodup →
    isDirO (lookupR st.fs.repl rel) = true →
    (∀ x, compatAt S st.fs.repl x) →
    wfP st.fs.repl →
    ((dirNames l).foldl (copyDirStep now rel) st).fs.src = S ∧
    ((dirNames l).foldl (copyDirStep now rel) st).errored = false ∧
    ((dirNames l).foldl (copyDirStep now rel) st).sinkFails = reliableSink ∧
    ((dirNames l).foldl (copyDirStep now rel) st).rmdirFailed = st.rmdirFailed ∧
    (∀ x, localAt ((dirNames l).foldl (copyDirStep now rel) st).fs.repl x =
      if x ∈ (dirNames l).map (fun d => rel ++ [d])
      then copyLocal S now (localAt st.fs.repl x) x
      else localAt st.fs.repl x) ∧
    (((dirNames l).foldl (copyDirStep now rel) st).events =
      st.events ++ copyDirEvts (localAt st.fs.repl) now rel l) ∧
    (∀ x, x ≠ rel → x ∉ (dirNames l).map (fun d => rel ++ [d]) →
      listdirR ((dirNames l).foldl (copyDirStep now rel) st).fs.repl x =
        listdirR st.fs.repl x) ∧
    isDirO (lookupR ((dirNames l).foldl (copyDirStep now rel) st).fs.repl rel) = true ∧
    wfP ((dirNames l).foldl (copyDirStep now rel) st).fs.repl ∧
    (∀ x, compatAt S ((dirNames l).foldl (copyDirStep now rel) st).fs.repl x) := by
  intro l
  induction l with
  | nil =>
    intro st hsrc herr hsink hres hnd hdir hcomp hwf
    simp only [dirNames_nil, List.foldl_nil, List.map_nil]
    refine ⟨hsrc, herr, hsink, trivial, ?_, ?_, ?_, hdir, hwf, hcomp⟩
    · intro x
      rw [if_neg (List.not_mem_nil x)]
    · simp only [copyDirEvts, List.append_nil]
    · intro x _ _
      trivial
  | cons e rest ih =>
    obtain ⟨n, u⟩ := e
    intro st hsrc herr hsink hres hnd hdir hcomp hwf
    have hres1 : ∀ n' u', (n', u') ∈ rest → treeLookup S (rel ++ [n']) = some u' :=
      fun n' u' hm => hres n' u' (List.mem_cons_of_mem _ hm)
    cases u with
    | file mt ct c =>
      have hfn : dirNames ((n, FsTree.file mt ct c) :: rest) = dirNames rest := by
        rw [dirNames_cons]
        rfl
      rw [hfn] at hnd ⊢
      obtain ⟨h1, h2, h3, h4, h5, h6, h7, h8, h9, h10⟩ :=
        ih st hsrc herr hsink hres1 hnd hdir hcomp hwf
      refine ⟨h1, h2, h3, h4, h5, ?_, h7, h8, h9, h10⟩
      rw [h6]
      simp only [copyDirEvts]
    | dir dm dc dcs =>
      have hfn : dirNames ((n, FsTree.dir dm dc dcs) :: rest) = n :: dirNames rest := by
        rw [dirNames_cons]
        rfl
      rw [hfn] at hnd ⊢
      rw [List.nodup_cons] at hnd
      rw [List.foldl_cons]
      obtain ⟨s1, s2, s3, s4, s5, s6, s7⟩ :=
        copyDirStep_spec S now rel n st dm dc dcs hsrc herr hsink
          (hres n _ (List.mem_cons_self _ _)) hdir
      have hdir1 : isDirO (lookupR (copyDirStep now rel st n).fs.repl rel) = true := by
        rw [isDirO_eq_isDirL, s5 rel, if_neg (by simp), ← isDirO_eq_isDirL]
        exact hdir
      have hcomp1 : ∀ x, compatAt S (copyDirStep now rel st n).fs.repl x := by
        intro x
        refine @compatAt_preserved S now st.fs.repl
          (copyDirStep now rel st n).fs.repl x (hcomp x) ?_
        rw [s5 x]
        by_cases hx : x = rel ++ [n]
        · rw [if_pos hx]
          exact Or.inl rfl
        · rw [if_neg hx]
          exact Or.inr rfl
      have hwf1 : wfP (copyDirStep now rel st n).fs.repl := by
        intro x l' hls
        rw [s7 x] at hls
        by_cases hx0 : x = rel ++ [n] ∧ lookupR st.fs.repl (rel ++ [n]) = none
        · rw [if_pos hx0] at hls
          injection hls with hl'
          rw [← hl']
          exact List.nodup_nil
        · rw [if_neg hx0] at hls
          by_cases hx : x = rel ∧ lookupR st.fs.repl (rel ++ [n]) = none
          · rw [if_pos hx] at hls
            cases hls0 : listdirR st.fs.repl x with
            | none => rw [hls0] at hls; cases hls
            | some l0 =>
              rw [hls0, Option.map_some'] at hls
              injection hls with hl'
              subst hl'
              refine nodup_append_singleton (hwf x l0 hls0) ?_
              intro hmem
              have hsome := mem_listdirR_isSome hls0 hmem
              rw [hx.1, hx.2] at hsome
              simp at hsome
          · rw [if_neg hx] at hls
            exact hwf x l' hls
      obtain ⟨h1, h2, h3, h4, h5, h6, h7, h8, h9, h10⟩ :=
        ih (copyDirStep now rel st n) s1 s2 s3 hres1 hnd.2 hdir1 hcomp1 hwf1
      have hcongr : copyDirEvts (localAt (copyDirStep now rel st n).fs.repl) now rel rest
          = copyDirEvts (localAt st.fs.repl) now rel rest := by
        apply copyDirEvts_congr
        intro n' u' hm hu'
        rw [s5 (rel ++ [n']),
          if_neg (fun he => hnd.1 (by
            rw [← append_singleton_inj he]
            exact mem_dirNames_of hm hu'))]
      refine ⟨h1, h2, h3, h4.trans s4, ?_, ?_, ?_, h8, h9, h10⟩
      · intro x
        rw [h5 x, s5 x]
        by_cases hx1 : x = rel ++ [n]
        · subst hx1
          have hnin : (rel ++ [n]) ∉ (dirNames rest).map (fun d => rel ++ [d]) := by
            intro hmem
            obtain ⟨f, hf, hfe⟩ := List.mem_map.mp hmem
            refine hnd.1 ?_
            rw [← append_singleton_inj hfe]
            exact hf
          rw [if_neg hnin, if_pos rfl, List.map_cons, if_pos (List.mem_cons_self _ _)]
        · rw [if_neg hx1]
          by_cases hx2 : x ∈ (dirNames rest).map (fun d => rel ++ [d])
          · rw [if_pos hx2, List.map_cons, if_pos (List.mem_cons_of_mem _ hx2)]
          · rw [if_neg hx2, List.map_cons,
              if_neg (fun hmem => (List.mem_cons.mp hmem).elim (fun h => hx1 h) hx2)]
      · rw [h6, hcongr, s6, List.append_assoc]
        simp only [copyDirEvts]
      · intro x hx hxm
        rw [List.map_cons] at hxm
        have hx1 : x ≠ rel ++ [n] := fun h => hxm (h ▸ List.mem_cons_self _ _)
        have hx2 : x ∉ (dirNames rest).map (fun d => rel ++ [d]) :=
          fun h => hxm (List.mem_cons_of_mem _ h)
        rw [h7 x hx hx2, s7 x, if_neg (fun hc => hx1 hc.1),
          if_neg (fun hc => hx hc.1)]

theorem append_cancel_left_path {p : Path} :
    ∀ {a b : List String}, p ++ a = p ++ b → a = b := by
  induction p with
  | nil =>
    intro a b h
    simpa using h
  | cons x xs ih =>
    intro a b h
    simp only [List.cons_append] at h
    injection h with _ h2
    exact ih h2

theorem ne_append_cons (p : Path) (n : String) (a : List String) :
    p ++ n :: a ≠ p := by
  intro h
  have hlen := congrArg List.length h
  rw [List.length_append, List.length_cons] at hlen
  omega

theorem underB_strict_split {p x : Path} (h : underB p x = true) :
    x = p ∨ ∃ n a, x = p ++ n :: a := by
  obtain ⟨r, rfl⟩ := (underB_iff p x).mp h
  cases r with
  | nil =>
    left
    simp
  | cons n a =>
    right
    exact ⟨n, a, rfl⟩

theorem underB_append_singleton_iff {p : Path} {n : String} {x : Path} :
    underB (p ++ [n]) x = true ↔ ∃ a, x = p ++ n :: a := by
  rw [underB_iff]
  constructor
  · rintro ⟨r, rfl⟩
    exact ⟨r, by simp⟩
  · rintro ⟨a, rfl⟩
    exact ⟨a, by simp⟩

theorem regions_disjoint {p : Path} {n m : String} (hnm : n ≠ m) {x : Path}
    (h1 : underB (p ++ [n]) x = true) (h2 : underB (p ++ [m]) x = true) :
    False := by
  obtain ⟨a, rfl⟩ := underB_append_singleton_iff.mp h1
  obtain ⟨b, hb⟩ := underB_append_singleton_iff.mp h2
  have h3 := append_cancel_left_path hb
  injection h3 with h4 _
  exact hnm h4

theorem underB_singleton_self_false (p : Path) (n : String) :
    underB (p ++ [n]) p = false := by
  cases h : underB (p ++ [n]) p with
  | false => rfl
  | true =>
    exfalso
    have hlen := underB_length h
    rw [List.length_append] at hlen
    simp at hlen

theorem append_cons_eq (p : Path) (n : String) (a : List String) :
    p ++ n :: a = (p ++ [n]) ++ a := by
  simp

theorem childGet_mem : ∀ {cs : List (String × FsTree)} {n : String} {u : FsTree},
    childGet cs n = some u → (n, u) ∈ cs := by
  intro cs
  induction cs with
  | nil =>
    intro n u h
    cases h
  | cons e rest ih =>
    obtain ⟨a, v⟩ := e
    intro n u h
    simp only [childGet] at h
    by_cases ha : a = n
    · rw [if_pos ha] at h
      injection h with hv
      subst ha
      subst hv
      exact List.mem_cons_self _ _
    · rw [if_neg ha] at h
      exact List.mem_cons_of_mem _ (ih h)

theorem nodup_fileNames {l : List (String × FsTree)}
    (h : (l.map (·.1)).Nodup) : (fileNames l).Nodup := by
  unfold fileNames
  exact List.Nodup.sublist (List.Sublist.map _ (List.filter_sublist l)) h

theorem nodup_dirNames {l : List (String × FsTree)}
    (h : (l.map (·.1)).Nodup) : (dirNames l).Nodup := by
  unfold dirNames
  exact List.Nodup.sublist (List.Sublist.map _ (List.filter_sublist l)) h

theorem dirNames_fileNames_disjoint {l : List (String × FsTree)}
    (hnd : (l.map (·.1)).Nodup) {d : String}
    (h1 : d ∈ dirNames l) (h2 : d ∈ fileNames l) : False := by
  obtain ⟨u1, hm1, hu1⟩ := mem_dirNames h1
  obtain ⟨u2, hm2, hu2⟩ := mem_fileNames h2
  have e1 := childGet_of_mem_nodup hnd hm1
  have e2 := childGet_of_mem_nodup hnd hm2
  rw [e1] at e2
  injection e2 with e3
  rw [← e3, hu1] at hu2
  simp at hu2

theorem treeLookup_child {S : FsTree} {p : Path} {pm pc : Int}
    {cs : List (String × FsTree)} (hw : wfB S = true)
    (hp : treeLookup S p = some (.dir pm pc cs)) :
    ∀ n u, (n, u) ∈ cs → treeLookup S (p ++ [n]) = some u := by
  intro n u hm
  have hwd := wfB_lookup p S hw _ hp
  simp only [wfB, Bool.and_eq_true] at hwd
  have hnd : (cs.map (·.1)).Nodup := (nodupB_iff _).mp hwd.1
  rw [treeLookup_append, hp]
  show treeLookup (FsTree.dir pm pc cs) (n :: []) = some u
  rw [treeLookup_dir_cons_some pm pc [] (childGet_of_mem_nodup hnd hm)]
  exact treeLookup_nil u

theorem nodup_children_of_wfB {S : FsTree} {p : Path} {pm pc : Int}
    {cs : List (String × FsTree)} (hw : wfB S = true)
    (hp : treeLookup S p = some (.dir pm pc cs)) :
    (cs.map (·.1)).Nodup := by
  have hwd := wfB_lookup p S hw _ hp
  simp only [wfB, Bool.and_eq_true] at hwd
  exact (nodupB_iff _).mp hwd.1

theorem isDirL_copyLocal {S : FsTree} {now : Int} {x : Path} {o : Option LocalNode}
    (hS : isDirO (treeLookup S x) = true) (ho : isFileL o = false) :
    isDirL (copyLocal S now o x) = true := by
  rw [isDirO_iff] at hS
  obtain ⟨dm, dc, cs, h⟩ := hS
  unfold copyLocal
  rw [h]
  cases o with
  | none => rfl
  | some v =>
    cases v with
    | dirL _ _ => rfl
    | fileL _ _ _ => simp [isFileL] at ho

theorem copyLocal_none_src {S : FsTree} {now : Int} {o : Option LocalNode} {x : Path}
    (h : treeLookup S x = none) : copyLocal S now o x = o := by
  unfold copyLocal
  rw [h]

theorem self_not_mem_child_map (p : Path) (lst : List String) :
    p ∉ lst.map (fun f => p ++ [f]) := by
  intro hmem
  obtain ⟨f, _, hfe⟩ := List.mem_map.mp hmem
  exact ne_append_cons p f [] hfe

theorem sizeOf_lt_of_mem_children {cs : List (String × FsTree)} {n : String}
    {u : FsTree} (hm : (n, u) ∈ cs) (dm dc : Int) :
    sizeOf u < sizeOf (FsTree.dir dm dc cs) := by
  have h1 := List.sizeOf_lt_of_mem hm
  have h2 : sizeOf u < sizeOf (n, u) := by
    simp
  simp only [FsTree.dir.sizeOf_spec]
  omega

theorem copyEvts_congr_size : ∀ (N : Nat) (t : FsTree), sizeOf t < N →
    ∀ (ro1 ro2 : Path → Option LocalNode) (now : Int) (q : Path),
    (∀ x, underB q x = true → x ≠ q → ro1 x = ro2 x) →
    copyEvts ro1 now q t = copyEvts ro2 now q t := by
  intro N
  induction N with
  | zero =>
    intro t ht
    exact absurd ht (Nat.not_lt_zero _)
  | succ N ihN =>
    intro t ht ro1 ro2 now q h
    cases t with
    | file _ _ _ => rfl
    | dir dm dc cs =>
      have hsub : ∀ n u, (n, u) ∈ cs → sizeOf u < N := by
        intro n u hm
        have := sizeOf_lt_of_mem_children hm dm dc
        omega
      have hchash : ∀ (n : String), ro1 (q ++ [n]) = ro2 (q ++ [n]) := by
        intro n
        exact h _ (underB_append q [n]) (ne_append_cons q n [])
      have hkids : ∀ (l : List (String × FsTree)),
          (∀ n u, (n, u) ∈ l → sizeOf u < N) →
          copyEvtsKids ro1 now q l = copyEvtsKids ro2 now q l := by
        intro l
        induction l with
        | nil =>
          intro _
          rfl
        | cons e rest ihl =>
          obtain ⟨n, u⟩ := e
          intro hsz
          simp only [copyEvtsKids]
          have hrec := ihN u (hsz n u (List.mem_cons_self _ _)) ro1 ro2 now (q ++ [n])
            (fun x hx _ => by
              obtain ⟨a, rfl⟩ := underB_append_singleton_iff.mp hx
              exact h _ (underB_append q (n :: a)) (ne_append_cons q n a))
          rw [ihl (fun n' u' hm => hsz n' u' (List.mem_cons_of_mem _ hm)), hrec]
      simp only [copyEvts]
      rw [copyFileEvts_congr q cs (fun n u _ _ => hchash n),
        copyDirEvts_congr now q cs (fun n u _ _ => hchash n),
        hkids cs hsub]

/-- The events a copy pass logs below `q` depend only on the replica stat
view strictly below `q`. -/
theorem copyEvts_congr {ro1 ro2 : Path → Option LocalNode} (now : Int) (q : Path)
    (t : FsTree) (h : ∀ x, underB q x = true → x ≠ q → ro1 x = ro2 x) :
    copyEvts ro1 now q t = copyEvts ro2 now q t :=
  copyEvts_congr_size (sizeOf t + 1) t (Nat.lt_succ_self _) ro1 ro2 now q h

theorem copyEvtsKids_congr {ro1 ro2 : Path → Option LocalNode} (now : Int) (q : Path) :
    ∀ (l : List (String × FsTree)),
    (∀ n u, (n, u) ∈ l → isDirNode u = true →
      ∀ x, underB (q ++ [n]) x = true → x ≠ q ++ [n] → ro1 x = ro2 x) →
    copyEvtsKids ro1 now q l = copyEvtsKids ro2 now q l := by
  intro l
  induction l with
  | nil =>
    intro _
    rfl
  | cons e rest ih =>
    obtain ⟨n, u⟩ := e
    intro h
    simp only [copyEvtsKids]
    rw [ih (fun n' u' hm => h n' u' (List.mem_cons_of_mem _ hm))]
    cases u with
    | file _ _ _ => rfl
    | dir udm udc ucs =>
      rw [copyEvts_congr now (q ++ [n]) _ (h n _ (List.mem_cons_self _ _) rfl)]

theorem underB_singleton_singleton {p : Path} {n m : String}
    (h : underB (p ++ [n]) (p ++ [m]) = true) : n = m := by
  obtain ⟨a, ha⟩ := underB_append_singleton_iff.mp h
  have h2 := append_cancel_left_path ha
  injection h2 with h3 _
  exact h3.symm

theorem cons_path_eq_singleton {p : Path} {n f : String} {a : List String}
    (h : p ++ n :: a = p ++ [f]) : n = f ∧ a = [] := by
  have h2 := append_cancel_left_path h
  injection h2 with h3 h4
  exact ⟨h3, h4⟩

/-- Master characterization of the copy pass's walk over a source
directory subtree: starting from a healthy state, it rewrites the replica
stat view below `p` exactly as `copyLocal` predicts pointwise from the
entry state, appends exactly the log lines `copyEvts` predicts from the
entry state, touches nothing outside `p`'s subtree, and preserves
well-formedness and kind compatibility. -/
theorem copyWalk_spec_size : ∀ (N : Nat) (S : FsTree) (now : Int), wfB S = true →
    ∀ (t : FsTree), sizeOf t < N →
    ∀ (p : Path) (st : PassSt),
    st.fs.src = S → st.errored = false → st.sinkFails = reliableSink →
    treeLookup S p = some t → isDirNode t = true →
    (p = [] ∨ isDirO (lookupR st.fs.repl p) = true) →
    (∀ x, compatAt S st.fs.repl x) → wfP st.fs.repl →
    ((walkTopDown p t).foldl (copyTriple now) st).fs.src = S ∧
    ((walkTopDown p t).foldl (copyTriple now) st).errored = false ∧
    ((walkTopDown p t).foldl (copyTriple now) st).sinkFails = reliableSink ∧
    ((walkTopDown p t).foldl (copyTriple now) st).rmdirFailed = st.rmdirFailed ∧
    (∀ x, localAt ((walkTopDown p t).foldl (copyTriple now) st).fs.repl x =
      if underB p x = true then copyLocal S now (localAt st.fs.repl x) x
      else localAt st.fs.repl x) ∧
    (((walkTopDown p t).foldl (copyTriple now) st).events =
      st.events ++ copyEvts (localAt st.fs.repl) now p t) ∧
    (∀ x, underB p x = false →
      listdirR ((walkTopDown p t).foldl (copyTriple now) st).fs.repl x =
        listdirR st.fs.repl x) ∧
    wfP ((walkTopDown p t).foldl (copyTriple now) st).fs.repl ∧
    (∀ x, compatAt S ((walkTopDown p t).foldl (copyTriple now) st).fs.repl x) := by
  intro N
  induction N with
  | zero =>
    intro S now hw t ht
    exact absurd ht (Nat.not_lt_zero _)
  | succ N ihN =>
    intro S now hw t ht p st hsrc herr hsink hp hdirT hprec hcomp hwf
    cases t with
    | file mt ct c => simp [isDirNode] at hdirT
    | dir dm dc cs =>
      have hnd : (cs.map (·.1)).Nodup := nodup_children_of_wfB hw hp
      have hres := treeLookup_child hw hp
      have hSp : isDirO (treeLookup S p) = true := by
        rw [hp]
        rfl
      have hszs : ∀ n u, (n, u) ∈ cs → sizeOf u < N := by
        intro n u hm
        have h1 := sizeOf_lt_of_mem_children hm dm dc
        omega
      have hkids : ∀ (l : List (String × FsTree)),
          (∀ n u, (n, u) ∈ l → sizeOf u < N) →
          (∀ n u, (n, u) ∈ l → treeLookup S (p ++ [n]) = some u) →
          (l.map (·.1)).Nodup →
          ∀ (st' : PassSt),
          st'.fs.src = S → st'.errored = false → st'.sinkFails = reliableSink →
          (∀ n u, (n, u) ∈ l → isDirNode u = true →
            isDirO (lookupR st'.fs.repl (p ++ [n])) = true) →
          (∀ x, compatAt S st'.fs.repl x) → wfP st'.fs.repl →
          ((walkTopDownKids p l).foldl (copyTriple now) st').fs.src = S ∧
          ((walkTopDownKids p l).foldl (copyTriple now) st').errored = false ∧
          ((walkTopDownKids p l).foldl (copyTriple now) st').sinkFails = reliableSink ∧
          ((walkTopDownKids p l).foldl (copyTriple now) st').rmdirFailed = st'.rmdirFailed ∧
          (∀ x, localAt ((walkTopDownKids p l).foldl (copyTriple now) st').fs.repl x =
            if ∃ e ∈ l, isDirNode e.2 = true ∧ underB (p ++ [e.1]) x = true
            then copyLocal S now (localAt st'.fs.repl x) x
            else localAt st'.fs.repl x) ∧
          (((walkTopDownKids p l).foldl (copyTriple now) st').events =
            st'.events ++ copyEvtsKids (localAt st'.fs.repl) now p l) ∧
          (∀ x, (∀ n u, (n, u) ∈ l → isDirNode u = true →
              underB (p ++ [n]) x = false) →
            listdirR ((walkTopDownKids p l).foldl (copyTriple now) st').fs.repl x =
              listdirR st'.fs.repl x) ∧
          wfP ((walkTopDownKids p l).foldl (copyTriple now) st').fs.repl ∧
          (∀ x, compatAt S ((walkTopDownKids p l).foldl (copyTriple now) st').fs.repl x) := by
        intro l
        induction l with
        | nil =>
          intro _ _ _ st' hsrc' herr' hsink' _ hcomp' hwf'
          simp only [walkTopDownKids, List.foldl_nil]
          refine ⟨hsrc', herr', hsink', trivial, ?_, ?_, ?_, hwf', hcomp'⟩
          · intro x
            rw [if_neg (by rintro ⟨e', he', _⟩; exact absurd he' (List.not_mem_nil e'))]
          · simp only [copyEvtsKids, List.append_nil]
          · intro x _
            trivial
        | cons e rest ihl =>
          obtain ⟨n, u⟩ := e
          intro hsz hresl hndl st' hsrc' herr' hsink' hdirs hcomp' hwf'
          rw [List.map_cons, List.nodup_cons] at hndl
          have hresr : ∀ n' u', (n', u') ∈ rest → treeLookup S (p ++ [n']) = some u' :=
            fun n' u' hm => hresl n' u' (List.mem_cons_of_mem _ hm)
          have hszr : ∀ n' u', (n', u') ∈ rest → sizeOf u' < N :=
            fun n' u' hm => hsz n' u' (List.mem_cons_of_mem _ hm)
          have hname : ∀ n' u', (n', u') ∈ rest → n ≠ n' := by
            intro n' u' hm he
            refine hndl.1 ?_
            rw [he]
            exact List.mem_map.mpr ⟨(n', u'), hm, rfl⟩
          cases u with
          | file fmt fct fc =>
            have hsplit : (walkTopDownKids p ((n, FsTree.file fmt fct fc) :: rest)).foldl
                  (copyTriple now) st'
                = (walkTopDownKids p rest).foldl (copyTriple now) st' := by
              simp only [walkTopDownKids, walkTopDown, List.nil_append]
            rw [hsplit]
            obtain ⟨k1, k2, k3, k4, k5, k6, k7, k8, k9⟩ :=
              ihl hszr hresr hndl.2 st' hsrc' herr' hsink'
                (fun n' u' hm hd => hdirs n' u' (List.mem_cons_of_mem _ hm) hd)
                hcomp' hwf'
            refine ⟨k1, k2, k3, k4, ?_, ?_, ?_, k8, k9⟩
            · intro x
              rw [k5 x]
              refine if_congr ?_ rfl rfl
              constructor
              · rintro ⟨e', he', h1, h2⟩
                exact ⟨e', List.mem_cons_of_mem _ he', h1, h2⟩
              · rintro ⟨e', he', h1, h2⟩
                rcases List.mem_cons.mp he' with he0 | he0
                · rw [he0] at h1
                  simp [isDirNode] at h1
                · exact ⟨e', he0, h1, h2⟩
            · rw [k6]
              simp only [copyEvtsKids, copyEvts, List.nil_append]
            · intro x hx
              exact k7 x (fun n' u' hm hd => hx n' u' (List.mem_cons_of_mem _ hm) hd)
          | dir udm udc ucs =>
            have hsplit : (walkTopDownKids p ((n, FsTree.dir udm udc ucs) :: rest)).foldl
                  (copyTriple now) st'
                = (walkTopDownKids p rest).foldl (copyTriple now)
                    ((walkTopDown (p ++ [n]) (FsTree.dir udm udc ucs)).foldl
                      (copyTriple now) st') := by
              simp only [walkTopDownKids]
              rw [List.foldl_append]
            rw [hsplit]
            obtain ⟨m1, m2, m3, m4, m5, m6, m7, m8, m9⟩ :=
              ihN S now hw (FsTree.dir udm udc ucs) (hsz n _ (List.mem_cons_self _ _))
                (p ++ [n]) st' hsrc' herr' hsink'
                (hresl n _ (List.mem_cons_self _ _)) rfl
                (Or.inr (hdirs n _ (List.mem_cons_self _ _) rfl))
                hcomp' hwf'
            have hdirs4 : ∀ n' u', (n', u') ∈ rest → isDirNode u' = true →
                isDirO (lookupR ((walkTopDown (p ++ [n]) (FsTree.dir udm udc ucs)).foldl
                  (copyTriple now) st').fs.repl (p ++ [n'])) = true := by
              intro n' u' hm hd
              have hub : underB (p ++ [n]) (p ++ [n']) = false := by
                cases h : underB (p ++ [n]) (p ++ [n']) with
                | false => rfl
                | true => exact absurd (underB_singleton_singleton h) (hname n' u' hm)
              rw [isDirO_eq_isDirL, m5 (p ++ [n']), if_neg (by simp [hub]),
                ← isDirO_eq_isDirL]
              exact hdirs n' u' (List.mem_cons_of_mem _ hm) hd
            obtain ⟨k1, k2, k3, k4, k5, k6, k7, k8, k9⟩ :=
              ihl hszr hresr hndl.2 _ m1 m2 m3 hdirs4 m9 m8
            refine ⟨k1, k2, k3, k4.trans m4, ?_, ?_, ?_, k8, k9⟩
            · intro x
              by_cases hxn : underB (p ++ [n]) x = true
              · have hcr : ¬(∃ e ∈ rest, isDirNode e.2 = true ∧
                    underB (p ++ [e.1]) x = true) := by
                  rintro ⟨e', he', _, hu2⟩
                  exact regions_disjoint (hname e'.1 e'.2 he') hxn hu2
                rw [k5 x, if_neg hcr, m5 x, if_pos hxn,
                  if_pos ⟨(n, FsTree.dir udm udc ucs), List.mem_cons_self _ _, rfl, hxn⟩]
              · have hm5 : localAt ((walkTopDown (p ++ [n])
                      (FsTree.dir udm udc ucs)).foldl (copyTriple now) st').fs.repl x
                    = localAt st'.fs.repl x := by
                  rw [m5 x, if_neg hxn]
                by_cases hcr : ∃ e ∈ rest, isDirNode e.2 = true ∧
                    underB (p ++ [e.1]) x = true
                · obtain ⟨e', he', h1, h2⟩ := hcr
                  rw [k5 x, if_pos ⟨e', he', h1, h2⟩, hm5,
                    if_pos ⟨e', List.mem_cons_of_mem _ he', h1, h2⟩]
                · have hncons : ¬(∃ e ∈ (n, FsTree.dir udm udc ucs) :: rest,
                      isDirNode e.2 = true ∧ underB (p ++ [e.1]) x = true) := by
                    rintro ⟨e', he', h1, h2⟩
                    rcases List.mem_cons.mp he' with he0 | he0
                    · rw [he0] at h2
                      exact hxn h2
                    · exact hcr ⟨e', he0, h1, h2⟩
                  rw [k5 x, if_neg hcr, hm5, if_neg hncons]
            · have hagree : copyEvtsKids (localAt ((walkTopDown (p ++ [n])
                    (FsTree.dir udm udc ucs)).foldl (copyTriple now) st').fs.repl) now p rest
                  = copyEvtsKids (localAt st'.fs.repl) now p rest := by
                apply copyEvtsKids_congr
                intro n' u' hm _ x hx _
                have hxn : underB (p ++ [n]) x ≠ true :=
                  fun h => regions_disjoint (hname n' u' hm) h hx
                rw [m5 x, if_neg hxn]
              rw [k6, hagree, m6, List.append_assoc]
              simp only [copyEvtsKids]
            · intro x hx
              rw [k7 x (fun n' u' hm hd => hx n' u' (List.mem_cons_of_mem _ hm) hd),
                m7 x (hx n _ (List.mem_cons_self _ _) rfl)]
      obtain ⟨e1, e2, e3, e4, e5, e6, e7, e8⟩ :=
        copyDirEnsure_spec S now p st hsrc herr hsink hSp (hcomp p) hprec
      have hcompE : ∀ x, compatAt S (copyDirEnsure now p st).fs.repl x := by
        intro x
        refine @compatAt_preserved S now st.fs.repl
          (copyDirEnsure now p st).fs.repl x (hcomp x) ?_
        rw [e5 x]
        by_cases hx : x = p ∧ lookupR st.fs.repl p = none
        · rw [if_pos hx]
          left
          obtain ⟨hx1, hx2⟩ := hx
          subst hx1
          rw [(localAt_none_iff _ _).mpr hx2]
          unfold copyLocal
          rw [hp]
        · rw [if_neg hx]
          right
          rfl
      have hwfE : wfP (copyDirEnsure now p st).fs.repl := by
        intro x l' hls
        rw [e7 x] at hls
        by_cases hx : x = p ∧ lookupR st.fs.repl p = none
        · rw [if_pos hx] at hls
          injection hls with hl'
          rw [← hl']
          exact List.nodup_nil
        · rw [if_neg hx] at hls
          exact hwf x l' hls
      obtain ⟨f1, f2, f3, f4, f5, f6, f7, f8, f9, f10⟩ :=
        copyFiles_fold_spec S now p cs (copyDirEnsure now p st) e1 e2 e3 hres
          (nodup_fileNames hnd) e8 hcompE hwfE
      obtain ⟨d1, d2, d3, d4, d5, d6, d7, d8, d9, d10⟩ :=
        copyDirs_fold_spec S now p cs
          ((fileNames cs).foldl (copyFileStep now p) (copyDirEnsure now p st))
          f1 f2 f3 hres (nodup_dirNames hnd) f8 f10 f9
      have hdirs3 : ∀ n u', (n, u') ∈ cs → isDirNode u' = true →
          isDirO (lookupR ((dirNames cs).foldl (copyDirStep now p)
            ((fileNames cs).foldl (copyFileStep now p)
              (copyDirEnsure now p st))).fs.repl (p ++ [n])) = true := by
        intro n u' hm hd
        have hmem : p ++ [n] ∈ (dirNames cs).map (fun d => p ++ [d]) :=
          List.mem_map.mpr ⟨n, mem_dirNames_of hm hd, rfl⟩
        have hS' : isDirO (treeLookup S (p ++ [n])) = true := by
          rw [hres n u' hm]
          cases u' with
          | file _ _ _ => simp [isDirNode] at hd
          | dir _ _ _ => rfl
        have hfile : isFileL (localAt ((fileNames cs).foldl (copyFileStep now p)
            (copyDirEnsure now p st)).fs.repl (p ++ [n])) = false := by
          rw [← isFileO_eq_isFileL]
          exact (f10 (p ++ [n])).1 hS'
        rw [isDirO_eq_isDirL, d5 (p ++ [n]), if_pos hmem]
        exact isDirL_copyLocal hS' hfile
      obtain ⟨k1, k2, k3, k4, k5, k6, k7, k8, k9⟩ :=
        hkids cs hszs hres hnd
          ((dirNames cs).foldl (copyDirStep now p)
            ((fileNames cs).foldl (copyFileStep now p) (copyDirEnsure now p st)))
          d1 d2 d3 hdirs3 d10 d9
      have hgoal : (walkTopDown p (FsTree.dir dm dc cs)).foldl (copyTriple now) st
          = (walkTopDownKids p cs).foldl (copyTriple now)
              ((dirNames cs).foldl (copyDirStep now p)
                ((fileNames cs).foldl (copyFileStep now p)
                  (copyDirEnsure now p st))) := by
        simp only [walkTopDown]
        rw [List.foldl_cons]
        rfl
      rw [hgoal]
      refine ⟨k1, k2, k3, k4.trans (d4.trans (f4.trans e4)), ?_, ?_, ?_, k8, k9⟩
      · intro x
        by_cases hpx : underB p x = true
        · rcases underB_strict_split hpx with hx | ⟨n₀, a, hx⟩
          · have hx' : p = x := hx.symm
            subst hx'
            have hnf : p ∉ (fileNames cs).map (fun f => p ++ [f]) :=
              self_not_mem_child_map p _
            have hndm : p ∉ (dirNames cs).map (fun d => p ++ [d]) :=
              self_not_mem_child_map p _
            have hkc : ¬(∃ e ∈ cs, isDirNode e.2 = true ∧
                underB (p ++ [e.1]) p = true) := by
              rintro ⟨e', _, _, h2⟩
              rw [underB_singleton_self_false] at h2
              cases h2
            rw [k5 p, if_neg hkc, d5 p, if_neg hndm, f5 p, if_neg hnf, e5 p,
              if_pos (underB_refl p)]
            cases hlo : localAt st.fs.repl p with
            | none =>
              have hlk : lookupR st.fs.repl p = none := (localAt_none_iff _ _).mp hlo
              rw [if_pos ⟨rfl, hlk⟩]
              unfold copyLocal
              rw [hp]
            | some v =>
              have hlk : lookupR st.fs.repl p ≠ none := by
                intro h
                rw [(localAt_none_iff _ _).mpr h] at hlo
                cases hlo
              rw [if_neg (fun hc => hlk hc.2)]
              unfold copyLocal
              rw [hp]
          · subst hx
            cases hcg : childGet cs n₀ with
            | none =>
              have hnone : treeLookup S (p ++ n₀ :: a) = none := by
                rw [treeLookup_append, hp]
                show treeLookup (FsTree.dir dm dc cs) (n₀ :: a) = none
                exact treeLookup_dir_cons_none dm dc a hcg
              have hnf : p ++ n₀ :: a ∉ (fileNames cs).map (fun f => p ++ [f]) := by
                intro hmem
                obtain ⟨f, hf, hfe⟩ := List.mem_map.mp hmem
                obtain ⟨h1, _⟩ := cons_path_eq_singleton hfe.symm
                obtain ⟨u', hm', _⟩ := mem_fileNames hf
                rw [← h1] at hm'
                rw [childGet_of_mem_nodup hnd hm'] at hcg
                cases hcg
              have hndm : p ++ n₀ :: a ∉ (dirNames cs).map (fun d => p ++ [d]) := by
                intro hmem
                obtain ⟨d, hd, hde⟩ := List.mem_map.mp hmem
                obtain ⟨h1, _⟩ := cons_path_eq_singleton hde.symm
                obtain ⟨u', hm', _⟩ := mem_dirNames hd
                rw [← h1] at hm'
                rw [childGet_of_mem_nodup hnd hm'] at hcg
                cases hcg
              have hkc : ¬(∃ e ∈ cs, isDirNode e.2 = true ∧
                  underB (p ++ [e.1]) (p ++ n₀ :: a) = true) := by
                rintro ⟨e', he', _, h2⟩
                obtain ⟨b, hb⟩ := underB_append_singleton_iff.mp h2
                have h3 := append_cancel_left_path hb
                injection h3 with h4 _
                have hm' : (n₀, e'.2) ∈ cs := by
                  rw [h4]
                  exact he'
                rw [childGet_of_mem_nodup hnd hm'] at hcg
                cases hcg
              rw [k5 _, if_neg hkc, d5 _, if_neg hndm, f5 _, if_neg hnf, e5 _,
                if_neg (fun hc => ne_append_cons p n₀ a hc.1),
                if_pos (underB_append p (n₀ :: a)),
                copyLocal_none_src hnone]
            | some u₀ =>
              have hm₀ : (n₀, u₀) ∈ cs := childGet_mem hcg
              cases u₀ with
              | file fm fc fcn =>
                have hkc : ¬(∃ e ∈ cs, isDirNode e.2 = true ∧
                    underB (p ++ [e.1]) (p ++ n₀ :: a) = true) := by
                  rintro ⟨e', he', h1, h2⟩
                  obtain ⟨b, hb⟩ := underB_append_singleton_iff.mp h2
                  have h3 := append_cancel_left_path hb
                  injection h3 with h4 _
                  have hm' : (n₀, e'.2) ∈ cs := by
                    rw [h4]
                    exact he'
                  rw [childGet_of_mem_nodup hnd hm'] at hcg
                  injection hcg with h5
                  rw [h5] at h1
                  simp [isDirNode] at h1
                cases a with
                | nil =>
                  have hmemf : p ++ [n₀] ∈ (fileNames cs).map (fun f => p ++ [f]) :=
                    List.mem_map.mpr ⟨n₀, mem_fileNames_of hm₀ rfl, rfl⟩
                  have hndm : p ++ [n₀] ∉ (dirNames cs).map (fun d => p ++ [d]) := by
                    intro hmem
                    obtain ⟨d, hd, hde⟩ := List.mem_map.mp hmem
                    obtain ⟨h1, _⟩ := cons_path_eq_singleton hde.symm
                    refine dirNames_fileNames_disjoint hnd ?_
                      (mem_fileNames_of hm₀ rfl)
                    rw [h1]
                    exact hd
                  rw [k5 _, if_neg hkc, d5 _, if_neg hndm, f5 _, if_pos hmemf, e5 _,
                    if_neg (fun hc => ne_append_cons p n₀ [] hc.1),
                    if_pos (underB_append p [n₀])]
                | cons b a' =>
                  have hnone : treeLookup S (p ++ n₀ :: b :: a') = none := by
                    rw [treeLookup_append, hp]
                    show treeLookup (FsTree.dir dm dc cs) (n₀ :: b :: a') = none
                    rw [treeLookup_dir_cons_some dm dc (b :: a') hcg]
                    rfl
                  have hnf : p ++ n₀ :: b :: a' ∉
                      (fileNames cs).map (fun f => p ++ [f]) := by
                    intro hmem
                    obtain ⟨f, _, hfe⟩ := List.mem_map.mp hmem
                    obtain ⟨_, h2⟩ := cons_path_eq_singleton hfe.symm
                    cases h2
                  have hndm : p ++ n₀ :: b :: a' ∉
                      (dirNames cs).map (fun d => p ++ [d]) := by
                    intro hmem
                    obtain ⟨d, _, hde⟩ := List.mem_map.mp hmem
                    obtain ⟨_, h2⟩ := cons_path_eq_singleton hde.symm
                    cases h2
                  rw [k5 _, if_neg hkc, d5 _, if_neg hndm, f5 _, if_neg hnf, e5 _,
                    if_neg (fun hc => ne_append_cons p n₀ (b :: a') hc.1),
                    if_pos (underB_append p (n₀ :: b :: a')),
                    copyLocal_none_src hnone]
              | dir udm udc ucs' =>
                have hnf : p ++ n₀ :: a ∉ (fileNames cs).map (fun f => p ++ [f]) := by
                  intro hmem
                  obtain ⟨f, hf, hfe⟩ := List.mem_map.mp hmem
                  obtain ⟨h1, _⟩ := cons_path_eq_singleton hfe.symm
                  obtain ⟨u', hm', hu'⟩ := mem_fileNames hf
                  have hm'' : (n₀, u') ∈ cs := by
                    rw [h1]
                    exact hm'
                  rw [childGet_of_mem_nodup hnd hm''] at hcg
                  injection hcg with h5
                  rw [h5] at hu'
                  simp [isDirNode] at hu'
                have hwitU : underB (p ++ [n₀]) (p ++ n₀ :: a) = true := by
                  have h := underB_append (p ++ [n₀]) a
                  rw [List.append_assoc] at h
                  simpa using h
                have hkcw : (∃ e ∈ cs, isDirNode e.2 = true ∧
                    underB (p ++ [e.1]) (p ++ n₀ :: a) = true) :=
                  ⟨(n₀, FsTree.dir udm udc ucs'), hm₀, rfl, hwitU⟩
                cases a with
                | nil =>
                  have hmemd : p ++ [n₀] ∈ (dirNames cs).map (fun d => p ++ [d]) :=
                    List.mem_map.mpr ⟨n₀, mem_dirNames_of hm₀ rfl, rfl⟩
                  rw [k5 _, if_pos hkcw, d5 _, if_pos hmemd, f5 _, if_neg hnf, e5 _,
                    if_neg (fun hc => ne_append_cons p n₀ [] hc.1),
                    copyLocal_idem, if_pos (underB_append p [n₀])]
                | cons b a' =>
                  have hndm : p ++ n₀ :: b :: a' ∉
                      (dirNames cs).map (fun d => p ++ [d]) := by
                    intro hmem
                    obtain ⟨d, _, hde⟩ := List.mem_map.mp hmem
                    obtain ⟨_, h2⟩ := cons_path_eq_singleton hde.symm
                    cases h2
                  rw [k5 _, if_pos hkcw, d5 _, if_neg hndm, f5 _, if_neg hnf, e5 _,
                    if_neg (fun hc => ne_append_cons p n₀ (b :: a') hc.1),
                    if_pos (underB_append p (n₀ :: b :: a'))]
        · have hne_p : x ≠ p := by
            intro h
            rw [h] at hpx
            exact hpx (underB_refl p)
          have hnf : x ∉ (fileNames cs).map (fun f => p ++ [f]) := by
            intro hmem
            obtain ⟨f, _, hfe⟩ := List.mem_map.mp hmem
            rw [← hfe] at hpx
            exact hpx (underB_append p [f])
          have hndm : x ∉ (dirNames cs).map (fun d => p ++ [d]) := by
            intro hmem
            obtain ⟨d, _, hde⟩ := List.mem_map.mp hmem
            rw [← hde] at hpx
            exact hpx (underB_append p [d])
          have hkc : ¬(∃ e ∈ cs, isDirNode e.2 = true ∧
              underB (p ++ [e.1]) x = true) := by
            rintro ⟨e', _, _, h2⟩
            exact hpx (underB_trans (underB_append p [e'.1]) h2)
          rw [k5 x, if_neg hkc, d5 x, if_neg hndm, f5 x, if_neg hnf, e5 x,
            if_neg (fun hc => hne_p hc.1), if_neg hpx]
      · have hagreeFE : ∀ n u, (n, u) ∈ cs → isDirNode u = false →
            localAt (copyDirEnsure now p st).fs.repl (p ++ [n])
              = localAt st.fs.repl (p ++ [n]) := by
          intro n u _ _
          rw [e5 (p ++ [n]), if_neg (fun hc => ne_append_cons p n [] hc.1)]
        have hagreeDE : ∀ n u, (n, u) ∈ cs → isDirNode u = true →
            localAt ((fileNames cs).foldl (copyFileStep now p)
              (copyDirEnsure now p st)).fs.repl (p ++ [n])
              = localAt st.fs.repl (p ++ [n]) := by
          intro n u hm hd
          have hnm : p ++ [n] ∉ (fileNames cs).map (fun f => p ++ [f]) := by
            intro hmem
            obtain ⟨f, hf, hfe⟩ := List.mem_map.mp hmem
            have h1 := append_singleton_inj hfe
            refine dirNames_fileNames_disjoint hnd (mem_dirNames_of hm hd) ?_
            rw [← h1]
            exact hf
          rw [f5 (p ++ [n]), if_neg hnm, e5 (p ++ [n]),
            if_neg (fun hc => ne_append_cons p n [] hc.1)]
        have hagreeKE : ∀ n u, (n, u) ∈ cs → isDirNode u = true →
            ∀ x, underB (p ++ [n]) x = true → x ≠ p ++ [n] →
            localAt ((dirNames cs).foldl (copyDirStep now p)
              ((fileNames cs).foldl (copyFileStep now p)
                (copyDirEnsure now p st))).fs.repl x = localAt st.fs.repl x := by
          intro n u _ _ x hx hxe
          obtain ⟨a, rfl⟩ := underB_append_singleton_iff.mp hx
          cases a with
          | nil => exact absurd rfl hxe
          | cons b a' =>
            have hnf : p ++ n :: b :: a' ∉
                (fileNames cs).map (fun f => p ++ [f]) := by
              intro hmem
              obtain ⟨f, _, hfe⟩ := List.mem_map.mp hmem
              obtain ⟨_, h2⟩ := cons_path_eq_singleton hfe.symm
              cases h2
            have hndm : p ++ n :: b :: a' ∉
                (dirNames cs).map (fun d => p ++ [d]) := by
              intro hmem
              obtain ⟨d, _, hde⟩ := List.mem_map.mp hmem
              obtain ⟨_, h2⟩ := cons_path_eq_singleton hde.symm
              cases h2
            rw [d5 _, if_neg hndm, f5 _, if_neg hnf, e5 _,
              if_neg (fun hc => ne_append_cons p n (b :: a') hc.1)]
        rw [k6, copyEvtsKids_congr now p cs hagreeKE, d6,
          copyDirEvts_congr now p cs hagreeDE, f6,
          copyFileEvts_congr p cs hagreeFE, e6]
        simp only [copyEvts, List.append_assoc]
      · intro x hpx
        have hne_p : x ≠ p := by
          intro h
          rw [h, underB_refl] at hpx
          cases hpx
        have hndm : x ∉ (dirNames cs).map (fun d => p ++ [d]) := by
          intro hmem
          obtain ⟨d, _, hde⟩ := List.mem_map.mp hmem
          rw [← hde, underB_append] at hpx
          cases hpx
        have hall : ∀ n u, (n, u) ∈ cs → isDirNode u = true →
            underB (p ++ [n]) x = false := by
          intro n u _ _
          cases h : underB (p ++ [n]) x with
          | false => rfl
          | true =>
            have h3 := underB_trans (underB_append p [n]) h
            rw [h3] at hpx
            cases hpx
        rw [k7 x hall, d7 x hne_p hndm, f7 x hne_p, e7 x,
          if_neg (fun hc => hne_p hc.1)]

theorem existsP_source_eq {st : PassSt} {S : FsTree} (hsrc : st.fs.src = S)
    (p : Path) : st.fs.existsP .source p = existsSB S p := by
  unfold SyncFs.existsP existsSB
  rw [SyncFs.lookup_source, hsrc]

theorem under_file_char {r : Option FsTree} {q : Path} {mt ct : Int} {c : String}
    (h : lookupR r q = some (.file mt ct c)) :
    ∀ x, underB q x = true →
      listdirR r x = none ∧ (x ≠ q → localAt r x = none) := by
  intro x hx
  obtain ⟨a, rfl⟩ := (underB_iff q x).mp hx
  cases a with
  | nil =>
    constructor
    · rw [List.append_nil, listdirR_eq, h]
    · intro hne
      exact absurd (List.append_nil q) hne
  | cons b a' =>
    have hlk : lookupR r (q ++ b :: a') = none := by
      rw [lookupR_append, h]
      rfl
    exact ⟨by rw [listdirR_eq, hlk], fun _ => (localAt_none_iff _ _).mpr hlk⟩

theorem under_empty_dir_char {r : Option FsTree} {q : Path} {dm dc : Int}
    (h : lookupR r q = some (.dir dm dc [])) :
    ∀ x, underB q x = true → x ≠ q →
      localAt r x = none ∧ listdirR r x = none := by
  intro x hx hne
  obtain ⟨a, rfl⟩ := (underB_iff q x).mp hx
  cases a with
  | nil => exact absurd (List.append_nil q) hne
  | cons b a' =>
    have hlk : lookupR r (q ++ b :: a') = none := by
      rw [lookupR_append, h]
      show treeLookup (FsTree.dir dm dc []) (b :: a') = none
      rw [treeLookup_dir_cons]
      rfl
    exact ⟨(localAt_none_iff _ _).mpr hlk, by rw [listdirR_eq, hlk]⟩

/-- Characterization of one iteration of the prune pass's file loop
(lines 119-126) on a healthy state: when the source lacks the file the
replica file is removed and one deletion line is logged; otherwise
nothing happens. -/
theorem pruneFileStep_spec (S : FsTree) (now : Int) (rel : Path) (f : String)
    (st : PassSt) (mt ct : Int) (c : String)
    (hsrc : st.fs.src = S)
    (herr : st.errored = false)
    (hsink : st.sinkFails = reliableSink)
    (hloc : localAt st.fs.repl (rel ++ [f]) = some (.fileL mt ct c))
    (hwf : wfP st.fs.repl) :
    (pruneFileStep now rel st f).fs.src = S ∧
    (pruneFileStep now rel st f).errored = false ∧
    (pruneFileStep now rel st f).sinkFails = reliableSink ∧
    (pruneFileStep now rel st f).rmdirFailed = st.rmdirFailed ∧
    (∀ x, localAt (pruneFileStep now rel st f).fs.repl x =
      if x = rel ++ [f] ∧ existsSB S x = false then none
      else localAt st.fs.repl x) ∧
    ((pruneFileStep now rel st f).events = st.events ++
      (if existsSB S (rel ++ [f]) then []
       else [⟨.deleted_file, .source, rel ++ [f], now⟩])) ∧
    (∀ x, listdirR (pruneFileStep now rel st f).fs.repl x =
      if x = rel ∧ existsSB S (rel ++ [f]) = false
      then (listdirR st.fs.repl x).map (fun l => l.erase f)
      else listdirR st.fs.repl x) ∧
    wfP (pruneFileStep now rel st f).fs.repl := by
  have hlk : lookupR st.fs.repl (rel ++ [f]) = some (.file mt ct c) :=
    (localAt_fileL_iff _ _ _ _ _).mp hloc
  have hstep : pruneFileStep now rel st f =
      (if !(st.fs.existsP .source (rel ++ [f])) then
        match st.fs.removeFile .replica (rel ++ [f]) with
        | none => { st with errored := true }
        | some fs' => log_and_print { st with fs := fs' }
            ⟨.deleted_file, .source, rel ++ [f], now⟩
      else st) := by
    unfold pruneFileStep
    rw [if_neg (by rw [herr]; exact Bool.false_ne_true)]
  cases hex : existsSB S (rel ++ [f]) with
  | true =>
    have hexP : st.fs.existsP .source (rel ++ [f]) = true := by
      rw [existsP_source_eq hsrc, hex]
    rw [hstep, if_neg (by rw [hexP]; simp)]
    refine ⟨hsrc, herr, hsink, rfl, ?_, ?_, ?_, hwf⟩
    · intro x
      rw [if_neg (fun hc => by
        have h2 := hc.2
        rw [hc.1, hex] at h2
        cases h2)]
    · simp [hex]
    · intro x
      rw [if_neg (fun hc => by cases hc.2)]
  | false =>
    have hexP : st.fs.existsP .source (rel ++ [f]) = false := by
      rw [existsP_source_eq hsrc, hex]
    obtain ⟨fs', hrm, hsrc', hlocC, hlsC⟩ :=
      removeFile_replica_spec st.fs rel f mt ct c hlk (fun l h => hwf rel l h)
    have hstep2 : pruneFileStep now rel st f =
        { st with
          fs := fs'
          events := st.events ++ [⟨.deleted_file, .source, rel ++ [f], now⟩]
          logCount := st.logCount + 1 } := by
      rw [hstep, if_pos (by rw [hexP]; rfl)]
      rw [hrm]
      dsimp only
      rw [log_and_print_reliable { st with fs := fs' }
        ⟨.deleted_file, .source, rel ++ [f], now⟩ hsink]
    rw [hstep2]
    refine ⟨by rw [hsrc']; exact hsrc, herr, hsink, rfl, ?_, ?_, ?_, ?_⟩
    · intro x
      show localAt fs'.repl x =
        if x = rel ++ [f] ∧ existsSB S x = false then none
        else localAt st.fs.repl x
      rw [hlocC x]
      by_cases hxe : x = rel ++ [f]
      · subst hxe
        rw [if_pos (underB_refl _), if_pos ⟨rfl, hex⟩]
      · by_cases hxu : underB (rel ++ [f]) x = true
        · rw [if_pos hxu, if_neg (fun hc => hxe hc.1)]
          exact ((under_file_char hlk x hxu).2 hxe).symm
        · rw [if_neg (by simp [hxu]), if_neg (fun hc => hxe hc.1)]
    · simp [hex]
    · intro x
      show listdirR fs'.repl x =
        if x = rel ∧ false = false
        then (listdirR st.fs.repl x).map (fun l => l.erase f)
        else listdirR st.fs.repl x
      rw [hlsC x]
      by_cases hxu : underB (rel ++ [f]) x = true
      · have hxr : ¬(x = rel ∧ false = false) := by
          rintro ⟨rfl, _⟩
          rw [underB_singleton_self_false] at hxu
          cases hxu
        rw [if_pos hxu, if_neg hxr]
        exact ((under_file_char hlk x hxu).1).symm
      · rw [if_neg (by simp [hxu])]
        by_cases hxr : x = rel
        · subst hxr
          rw [if_pos rfl, if_pos ⟨rfl, rfl⟩]
        · rw [if_neg hxr, if_neg (fun hc => hxr hc.1)]
    · intro x l' hls
      have hls' : listdirR fs'.repl x = some l' := hls
      rw [hlsC x] at hls'
      by_cases hxu : underB (rel ++ [f]) x = true
      · rw [if_pos hxu] at hls'
        cases hls'
      · rw [if_neg (by simp [hxu])] at hls'
        by_cases hxr : x = rel
        · rw [if_pos hxr] at hls'
          cases hls0 : listdirR st.fs.repl x with
          | none => rw [hls0] at hls'; cases hls'
          | some l0 =>
            rw [hls0, Option.map_some'] at hls'
            injection hls' with hl'
            rw [← hl']
            exact (hwf x l0 hls0).erase f
        · rw [if_neg hxr] at hls'
          exact hwf x l' hls'

/-- Characterization of one iteration of the prune pass's directory loop
(lines 129-135) on a healthy state, under the pass invariant that a
directory whose source counterpart is missing has already been drained
by the earlier (bottom-up) triples: when the source lacks the directory
it is removed and one deletion line is logged; otherwise nothing
happens. -/
theorem pruneDirStep_spec (S : FsTree) (now : Int) (rel : Path) (d : String)
    (st : PassSt) (ddm ddc : Int) (L : List String)
    (hsrc : st.fs.src = S)
    (herr : st.errored = false)
    (hsink : st.sinkFails = reliableSink)
    (hd : localAt st.fs.repl (rel ++ [d]) = some (.dirL ddm ddc))
    (hls : listdirR st.fs.repl (rel ++ [d]) = some L)
    (hemp : existsSB S (rel ++ [d]) = false → L = [])
    (hwf : wfP st.fs.repl) :
    (pruneDirStep now rel st d).fs.src = S ∧
    (pruneDirStep now rel st d).errored = false ∧
    (pruneDirStep now rel st d).sinkFails = reliableSink ∧
    (pruneDirStep now rel st d).rmdirFailed = st.rmdirFailed ∧
    (∀ x, localAt (pruneDirStep now rel st d).fs.repl x =
      if x = rel ++ [d] ∧ existsSB S x = false then none
      else localAt st.fs.repl x) ∧
    ((pruneDirStep now rel st d).events = st.events ++
      (if existsSB S (rel ++ [d]) then []
       else [⟨.deleted_dir, .replica, rel ++ [d], now⟩])) ∧
    (∀ x, listdirR (pruneDirStep now rel st d).fs.repl x =
      if x = rel ++ [d] ∧ existsSB S (rel ++ [d]) = false then none
      else if x = rel ∧ existsSB S (rel ++ [d]) = false
      then (listdirR st.fs.repl x).map (fun l => l.erase d)
      else listdirR st.fs.repl x) ∧
    wfP (pruneDirStep now rel st d).fs.repl := by
  have hld2 : st.fs.listdir .replica (rel ++ [d]) = some L := by
    rw [SyncFs.listdir_replica, ← listdirR_eq]
    exact hls
  have hstep : pruneDirStep now rel st d =
      (match st.fs.listdir .replica (rel ++ [d]) with
       | none => { st with errored := true }
       | some l =>
         if l.isEmpty && !(st.fs.existsP .source (rel ++ [d])) then
           match st.fs.rmdir .replica (rel ++ [d]) with
           | none => { st with errored := true, rmdirFailed := true }
           | some fs' => log_and_print { st with fs := fs' }
               ⟨.deleted_dir, .replica, rel ++ [d], now⟩
         else st) := by
    unfold pruneDirStep
    rw [if_neg (by rw [herr]; exact Bool.false_ne_true)]
  cases hex : existsSB S (rel ++ [d]) with
  | true =>
    have hexP : st.fs.existsP .source (rel ++ [d]) = true := by
      rw [existsP_source_eq hsrc, hex]
    have hstep2 : pruneDirStep now rel st d = st := by
      rw [hstep, hld2]
      dsimp only
      rw [if_neg (by rw [hexP]; simp)]
    rw [hstep2]
    refine ⟨hsrc, herr, hsink, rfl, ?_, ?_, ?_, hwf⟩
    · intro x
      rw [if_neg (fun hc => by
        have h2 := hc.2
        rw [hc.1, hex] at h2
        cases h2)]
    · simp
    · intro x
      rw [if_neg (fun hc => by cases hc.2), if_neg (fun hc => by cases hc.2)]
  | false =>
    have hexP : st.fs.existsP .source (rel ++ [d]) = false := by
      rw [existsP_source_eq hsrc, hex]
    have hL : L = [] := hemp hex
    subst hL
    have hlk0 : lookupR st.fs.repl (rel ++ [d]) = some (.dir ddm ddc []) := by
      obtain ⟨cs₀, hlk⟩ := (localAt_dirL_iff _ _ _ _).mp hd
      rw [listdirR_eq, hlk] at hls
      injection hls with hmap
      have hcs : cs₀ = [] := List.map_eq_nil_iff.mp hmap
      rw [hlk, hcs]
    obtain ⟨fs', hrm, hsrc', hlocC, hlsC⟩ :=
      rmdir_replica_spec st.fs rel d ddm ddc hlk0 (fun l h => hwf rel l h)
    have hstep2 : pruneDirStep now rel st d =
        { st with
          fs := fs'
          events := st.events ++ [⟨.deleted_dir, .replica, rel ++ [d], now⟩]
          logCount := st.logCount + 1 } := by
      rw [hstep, hld2]
      dsimp only
      rw [if_pos (by rw [hexP]; rfl), hrm]
      dsimp only
      rw [log_and_print_reliable { st with fs := fs' }
        ⟨.deleted_dir, .replica, rel ++ [d], now⟩ hsink]
    rw [hstep2]
    refine ⟨by rw [hsrc']; exact hsrc, herr, hsink, rfl, ?_, ?_, ?_, ?_⟩
    · intro x
      show localAt fs'.repl x =
        if x = rel ++ [d] ∧ existsSB S x = false then none
        else localAt st.fs.repl x
      rw [hlocC x]
      by_cases hxe : x = rel ++ [d]
      · subst hxe
        rw [if_pos (underB_refl _), if_pos ⟨rfl, hex⟩]
      · by_cases hxu : underB (rel ++ [d]) x = true
        · rw [if_pos hxu, if_neg (fun hc => hxe hc.1)]
          exact ((under_empty_dir_char hlk0 x hxu hxe).1).symm
        · rw [if_neg (by simp [hxu]), if_neg (fun hc => hxe hc.1)]
    · simp
    · intro x
      show listdirR fs'.repl x =
        if x = rel ++ [d] ∧ false = false then none
        else if x = rel ∧ false = false
        then (listdirR st.fs.repl x).map (fun l => l.erase d)
        else listdirR st.fs.repl x
      rw [hlsC x]
      by_cases hxe : x = rel ++ [d]
      · subst hxe
        rw [if_pos (underB_refl _), if_pos ⟨rfl, rfl⟩]
      · by_cases hxu : underB (rel ++ [d]) x = true
        · have hxr : ¬(x = rel ∧ false = false) := by
            rintro ⟨rfl, _⟩
            rw [underB_singleton_self_false] at hxu
            cases hxu
          rw [if_pos hxu, if_neg (fun hc => hxe hc.1), if_neg hxr]
          exact ((under_empty_dir_char hlk0 x hxu hxe).2).symm
        · rw [if_neg (by simp [hxu])]
          by_cases hxr : x = rel
          · subst hxr
            rw [if_pos rfl, if_neg (fun hc => hxe hc.1), if_pos ⟨rfl, rfl⟩]
          · rw [if_neg hxr, if_neg (fun hc => hxe hc.1), if_neg (fun hc => hxr hc.1)]
    · intro x l' hls2
      have hls' : listdirR fs'.repl x = some l' := hls2
      rw [hlsC x] at hls'
      by_cases hxu : underB (rel ++ [d]) x = true
      · rw [if_pos hxu] at hls'
        cases hls'
      · rw [if_neg (by simp [hxu])] at hls'
        by_cases hxr : x = rel
        · rw [if_pos hxr] at hls'
          cases hls0 : listdirR st.fs.repl x with
          | none => rw [hls0] at hls'; cases hls'
          | some l0 =>
            rw [hls0, Option.map_some'] at hls'
            injection hls' with hl'
            rw [← hl']
            exact (hwf x l0 hls0).erase d
        · rw [if_neg hxr] at hls'
          exact hwf x l' hls'

theorem existsSB_under_false {S : FsTree} {p : Path} (h : existsSB S p = false)
    (q : Path) : existsSB S (p ++ q) = false := by
  unfold existsSB at h ⊢
  rw [treeLookup_append]
  cases hl : treeLookup S p with
  | none => rfl
  | some u =>
    rw [hl] at h
    simp at h

/-- Effect of the prune pass's file loop (lines 119-126) of one walk
triple, folded over the file entries of the visited snapshot directory's
child list: exactly the source-missing files disappear, and exactly the
deletion lines `pruneFileEvts` predicts are logged. -/
theorem pruneFiles_fold_spec (S : FsTree) (now : Int) (rel : Path) :
    ∀ (l : List (String × FsTree)) (st : PassSt) (L0 : List String),
    st.fs.src = S → st.errored = false → st.sinkFails = reliableSink →
    (∀ n u, (n, u) ∈ l → isDirNode u = false →
      ∃ mt ct c, localAt st.fs.repl (rel ++ [n]) = some (.fileL mt ct c)) →
    (fileNames l).Nodup →
    listdirR st.fs.repl rel = some L0 →
    wfP st.fs.repl →
    ((fileNames l).foldl (pruneFileStep now rel) st).fs.src = S ∧
    ((fileNames l).foldl (pruneFileStep now rel) st).errored = false ∧
    ((fileNames l).foldl (pruneFileStep now rel) st).sinkFails = reliableSink ∧
    ((fileNames l).foldl (pruneFileStep now rel) st).rmdirFailed = st.rmdirFailed ∧
    (∀ x, localAt ((fileNames l).foldl (pruneFileStep now rel) st).fs.repl x =
      if x ∈ (fileNames l).map (fun f => rel ++ [f]) ∧ existsSB S x = false
      then none else localAt st.fs.repl x) ∧
    (((fileNames l).foldl (pruneFileStep now rel) st).events =
      st.events ++ pruneFileEvts (existsSB S) now rel l) ∧
    (∀ x, x ≠ rel →
      listdirR ((fileNames l).foldl (pruneFileStep now rel) st).fs.repl x =
        listdirR st.fs.repl x) ∧
    (∃ l0, listdirR ((fileNames l).foldl (pruneFileStep now rel) st).fs.repl rel
        = some l0 ∧
      (∀ nm, nm ∈ l0 ↔ nm ∈ L0 ∧
        ¬(nm ∈ fileNames l ∧ existsSB S (rel ++ [nm]) = false))) ∧
    wfP ((fileNames l).foldl (pruneFileStep now rel) st).fs.repl := by
  intro l
  induction l with
  | nil =>
    intro st L0 hsrc herr hsink hlocs hnd hls0 hwf
    simp only [fileNames_nil, List.foldl_nil, List.map_nil]
    refine ⟨hsrc, herr, hsink, trivial, ?_, ?_, ?_, ?_, hwf⟩
    · intro x
      rw [if_neg (fun hc => (List.not_mem_nil x) hc.1)]
    · simp only [pruneFileEvts, List.append_nil]
    · intro x _
      trivial
    · refine ⟨L0, hls0, ?_⟩
      intro nm
      constructor
      · intro h
        exact ⟨h, fun hc => (List.not_mem_nil nm) hc.1⟩
      · intro h
        exact h.1
  | cons e rest ih =>
    obtain ⟨n, u⟩ := e
    intro st L0 hsrc herr hsink hlocs hnd hls0 hwf
    have hlocs' : ∀ n' u', (n', u') ∈ rest → isDirNode u' = false →
        ∃ mt ct c, localAt st.fs.repl (rel ++ [n']) = some (.fileL mt ct c) :=
      fun n' u' hm hd => hlocs n' u' (List.mem_cons_of_mem _ hm) hd
    cases u with
    | dir dm dc dcs =>
      have hfn : fileNames ((n, FsTree.dir dm dc dcs) :: rest) = fileNames rest := by
        rw [fileNames_cons]
        rfl
      rw [hfn] at hnd ⊢
      obtain ⟨h1, h2, h3, h4, h5, h6, h7, h8, h9⟩ :=
        ih st L0 hsrc herr hsink hlocs' hnd hls0 hwf
      refine ⟨h1, h2, h3, h4, h5, ?_, h7, h8, h9⟩
      rw [h6]
      simp only [pruneFileEvts]
    | file fmt fct fcc =>
      have hfn : fileNames ((n, FsTree.file fmt fct fcc) :: rest)
          = n :: fileNames rest := by
        rw [fileNames_cons]
        rfl
      rw [hfn] at hnd ⊢
      rw [List.nodup_cons] at hnd
      rw [List.foldl_cons]
      obtain ⟨mt, ct, c, hloc⟩ := hlocs n _ (List.mem_cons_self _ _) rfl
      obtain ⟨s1, s2, s3, s4, s5, s6, s7, s8⟩ :=
        pruneFileStep_spec S now rel n st mt ct c hsrc herr hsink hloc hwf
      have hlocs1 : ∀ n' u', (n', u') ∈ rest → isDirNode u' = false →
          ∃ mt' ct' c', localAt (pruneFileStep now rel st n).fs.repl (rel ++ [n'])
            = some (.fileL mt' ct' c') := by
        intro n' u' hm hd
        obtain ⟨mt', ct', c', h⟩ := hlocs' n' u' hm hd
        refine ⟨mt', ct', c', ?_⟩
        rw [s5 (rel ++ [n']),
          if_neg (fun hc => hnd.1 (by
            rw [← append_singleton_inj hc.1]
            exact mem_fileNames_of hm hd))]
        exact h
      have hls1 : listdirR (pruneFileStep now rel st n).fs.repl rel =
          some (if existsSB S (rel ++ [n]) then L0 else L0.erase n) := by
        rw [s7 rel]
        by_cases hex : existsSB S (rel ++ [n]) = false
        · rw [if_pos ⟨rfl, hex⟩, hls0, Option.map_some', if_neg (by simp [hex])]
        · have hex' : existsSB S (rel ++ [n]) = true := by
            cases h : existsSB S (rel ++ [n]) with
            | true => rfl
            | false => exact absurd h hex
          rw [if_neg (fun hc => hex hc.2), if_pos hex']
          exact hls0
      obtain ⟨h1, h2, h3, h4, h5, h6, h7, h8, h9⟩ :=
        ih (pruneFileStep now rel st n)
          (if existsSB S (rel ++ [n]) then L0 else L0.erase n)
          s1 s2 s3 hlocs1 hnd.2 hls1 s8
      refine ⟨h1, h2, h3, h4.trans s4, ?_, ?_, ?_, ?_, h9⟩
      · intro x
        rw [h5 x, s5 x]
        by_cases hx1 : x = rel ++ [n]
        · subst hx1
          have hnin : (rel ++ [n]) ∉ (fileNames rest).map (fun f => rel ++ [f]) := by
            intro hmem
            obtain ⟨f, hf, hfe⟩ := List.mem_map.mp hmem
            refine hnd.1 ?_
            rw [← append_singleton_inj hfe]
            exact hf
          rw [if_neg (fun hc => hnin hc.1)]
          by_cases hex : existsSB S (rel ++ [n]) = false
          · rw [if_pos ⟨rfl, hex⟩, List.map_cons,
              if_pos ⟨List.mem_cons_self _ _, hex⟩]
          · rw [if_neg (fun hc => hex hc.2), List.map_cons,
              if_neg (fun hc => hex hc.2)]
        · by_cases hx2 : x ∈ (fileNames rest).map (fun f => rel ++ [f])
          · by_cases hex : existsSB S x = false
            · rw [if_pos ⟨hx2, hex⟩, List.map_cons,
                if_pos ⟨List.mem_cons_of_mem _ hx2, hex⟩]
            · rw [if_neg (fun hc => hex hc.2), if_neg (fun hc => hex hc.2),
                List.map_cons, if_neg (fun hc => hex hc.2)]
          · rw [if_neg (fun hc => hx2 hc.1), if_neg (fun hc => hx1 hc.1),
              List.map_cons,
              if_neg (fun hc => (List.mem_cons.mp hc.1).elim
                (fun h => hx1 h) hx2)]
      · rw [h6, s6, List.append_assoc]
        simp only [pruneFileEvts]
      · intro x hx
        rw [h7 x hx, s7 x, if_neg (fun hc => hx hc.1)]
      · obtain ⟨l0, hl0, hmem⟩ := h8
        refine ⟨l0, hl0, ?_⟩
        intro nm
        rw [hmem nm]
        have hL0nd : L0.Nodup := hwf rel L0 hls0
        by_cases hex : existsSB S (rel ++ [n]) = false
        · rw [if_neg (by simp [hex])]
          constructor
          · rintro ⟨hm1, hm2⟩
            have hm1' := (List.Nodup.mem_erase_iff hL0nd).mp hm1
            refine ⟨hm1'.2, ?_⟩
            rintro ⟨hmc, hP⟩
            rcases List.mem_cons.mp hmc with rfl | hmr
            · exact hm1'.1 rfl
            · exact hm2 ⟨hmr, hP⟩
          · rintro ⟨hm1, hm2⟩
            have hne : nm ≠ n := by
              intro h
              subst h
              exact hm2 ⟨List.mem_cons_self _ _, hex⟩
            exact ⟨(List.Nodup.mem_erase_iff hL0nd).mpr ⟨hne, hm1⟩,
              fun hc => hm2 ⟨List.mem_cons_of_mem _ hc.1, hc.2⟩⟩
        · have hex' : existsSB S (rel ++ [n]) = true := by
            cases h : existsSB S (rel ++ [n]) with
            | true => rfl
            | false => exact absurd h hex
          rw [if_pos hex']
          constructor
          · rintro ⟨hm1, hm2⟩
            refine ⟨hm1, ?_⟩
            rintro ⟨hmc, hP⟩
            rcases List.mem_cons.mp hmc with rfl | hmr
            · rw [hex'] at hP
              cases hP
            · exact hm2 ⟨hmr, hP⟩
          · rintro ⟨hm1, hm2⟩
            exact ⟨hm1, fun hc => hm2 ⟨List.mem_cons_of_mem _ hc.1, hc.2⟩⟩

/-- Effect of the prune pass's directory loop (lines 129-135) of one walk
triple, folded over the directory entries of the visited snapshot
directory's child list, under the bottom-up invariant that source-missing
subdirectories have already been drained: exactly the source-missing
directories disappear, and exactly the deletion lines `pruneDirEvts`
predicts are logged. -/
theorem pruneDirs_fold_spec (S : FsTree) (now : Int) (rel : Path) :
    ∀ (l : List (String × FsTree)) (st : PassSt) (L0 : List String),
    st.fs.src = S → st.errored = false → st.sinkFails = reliableSink →
    (∀ n u, (n, u) ∈ l → isDirNode u = true →
      ∃ ddm ddc Ld, localAt st.fs.repl (rel ++ [n]) = some (.dirL ddm ddc) ∧
        listdirR st.fs.repl (rel ++ [n]) = some Ld ∧
        (existsSB S (rel ++ [n]) = false → Ld = [])) →
    (dirNames l).Nodup →
    listdirR st.fs.repl rel = some L0 →
    wfP st.fs.repl →
    ((dirNames l).foldl (pruneDirStep now rel) st).fs.src = S ∧
    ((dirNames l).foldl (pruneDirStep now rel) st).errored = false ∧
    ((dirNames l).foldl (pruneDirStep now rel) st).sinkFails = reliableSink ∧
    ((dirNames l).foldl (pruneDirStep now rel) st).rmdirFailed = st.rmdirFailed ∧
    (∀ x, localAt ((dirNames l).foldl (pruneDirStep now rel) st).fs.repl x =
      if x ∈ (dirNames l).map (fun d => rel ++ [d]) ∧ existsSB S x = false
      then none else localAt st.fs.repl x) ∧
    (((dirNames l).foldl (pruneDirStep now rel) st).events =
      st.events ++ pruneDirEvts (existsSB S) now rel l) ∧
    (∀ x, x ≠ rel → x ∉ (dirNames l).map (fun d => rel ++ [d]) →
      listdirR ((dirNames l).foldl (pruneDirStep now rel) st).fs.repl x =
        listdirR st.fs.repl x) ∧
    (∃ l0, listdirR ((dirNames l).foldl (pruneDirStep now rel) st).fs.repl rel
        = some l0 ∧
      (∀ nm, nm ∈ l0 ↔ nm ∈ L0 ∧
        ¬(nm ∈ dirNames l ∧ existsSB S (rel ++ [nm]) = false))) ∧
    wfP ((dirNames l).foldl (pruneDirStep now rel) st).fs.repl := by
  intro l
  induction l with
  | nil =>
    intro st L0 hsrc herr hsink hdls hnd hls0 hwf
    simp only [dirNames_nil, List.foldl_nil, List.map_nil]
    refine ⟨hsrc, herr, hsink, trivial, ?_, ?_, ?_, ?_, hwf⟩
    · intro x
      rw [if_neg (fun hc => (List.not_mem_nil x) hc.1)]
    · simp only [pruneDirEvts, List.append_nil]
    · intro x _ _
      trivial
    · refine ⟨L0, hls0, ?_⟩
      intro nm
      constructor
      · intro h
        exact ⟨h, fun hc => (List.not_mem_nil nm) hc.1⟩
      · intro h
        exact h.1
  | cons e rest ih =>
    obtain ⟨n, u⟩ := e
    intro st L0 hsrc herr hsink hdls hnd hls0 hwf
    have hdls' : ∀ n' u', (n', u') ∈ rest → isDirNode u' = true →
        ∃ ddm ddc Ld, localAt st.fs.repl (rel ++ [n']) = some (.dirL ddm ddc) ∧
          listdirR st.fs.repl (rel ++ [n']) = some Ld ∧
          (existsSB S (rel ++ [n']) = false → Ld = []) :=
      fun n' u' hm hd => hdls n' u' (List.mem_cons_of_mem _ hm) hd
    cases u with
    | file fmt fct fcc =>
      have hfn : dirNames ((n, FsTree.file fmt fct fcc) :: rest) = dirNames rest := by
        rw [dirNames_cons]
        rfl
      rw [hfn] at hnd ⊢
      obtain ⟨h1, h2, h3, h4, h5, h6, h7, h8, h9⟩ :=
        ih st L0 hsrc herr hsink hdls' hnd hls0 hwf
      refine ⟨h1, h2, h3, h4, h5, ?_, h7, h8, h9⟩
      rw [h6]
      simp only [pruneDirEvts]
    | dir udm udc ucs =>
      have hfn : dirNames ((n, FsTree.dir udm udc ucs) :: rest)
          = n :: dirNames rest := by
        rw [dirNames_cons]
        rfl
      rw [hfn] at hnd ⊢
      rw [List.nodup_cons] at hnd
      rw [List.foldl_cons]
      obtain ⟨ddm, ddc, Ld, hdl, hdll, hdle⟩ := hdls n _ (List.mem_cons_self _ _) rfl
      obtain ⟨s1, s2, s3, s4, s5, s6, s7, s8⟩ :=
        pruneDirStep_spec S now rel n st ddm ddc Ld hsrc herr hsink hdl hdll hdle hwf
      have hdls1 : ∀ n' u', (n', u') ∈ rest → isDirNode u' = true →
          ∃ ddm' ddc' Ld', localAt (pruneDirStep now rel st n).fs.repl (rel ++ [n'])
            = some (.dirL ddm' ddc') ∧
          listdirR (pruneDirStep now rel st n).fs.repl (rel ++ [n']) = some Ld' ∧
          (existsSB S (rel ++ [n']) = false → Ld' = []) := by
        intro n' u' hm hd
        obtain ⟨ddm', ddc', Ld', h1', h2', h3'⟩ := hdls' n' u' hm hd
        have hne : rel ++ [n'] ≠ rel ++ [n] := by
          intro he
          refine hnd.1 ?_
          rw [← append_singleton_inj he]
          exact mem_dirNames_of hm hd
        refine ⟨ddm', ddc', Ld', ?_, ?_, h3'⟩
        · rw [s5 (rel ++ [n']), if_neg (fun hc => hne hc.1)]
          exact h1'
        · rw [s7 (rel ++ [n']), if_neg (fun hc => hne hc.1),
            if_neg (fun hc => ne_append_cons rel n' [] hc.1)]
          exact h2'
      have hls1 : listdirR (pruneDirStep now rel st n).fs.repl rel =
          some (if existsSB S (rel ++ [n]) then L0 else L0.erase n) := by
        rw [s7 rel]
        by_cases hex : existsSB S (rel ++ [n]) = false
        · rw [if_neg (fun hc => ne_append_cons rel n [] hc.1.symm),
            if_pos ⟨rfl, hex⟩, hls0, Option.map_some', if_neg (by simp [hex])]
        · have hex' : existsSB S (rel ++ [n]) = true := by
            cases h : existsSB S (rel ++ [n]) with
            | true => rfl
            | false => exact absurd h hex
          rw [if_neg (fun hc => hex hc.2), if_neg (fun hc => hex hc.2),
            if_pos hex']
          exact hls0
      obtain ⟨h1, h2, h3, h4, h5, h6, h7, h8, h9⟩ :=
        ih (pruneDirStep now rel st n)
          (if existsSB S (rel ++ [n]) then L0 else L0.erase n)
          s1 s2 s3 hdls1 hnd.2 hls1 s8
      refine ⟨h1, h2, h3, h4.trans s4, ?_, ?_, ?_, ?_, h9⟩
      · intro x
        rw [h5 x, s5 x]
        by_cases hx1 : x = rel ++ [n]
        · subst hx1
          have hnin : (rel ++ [n]) ∉ (dirNames rest).map (fun d => rel ++ [d]) := by
            intro hmem
            obtain ⟨f, hf, hfe⟩ := List.mem_map.mp hmem
            refine hnd.1 ?_
            rw [← append_singleton_inj hfe]
            exact hf
          rw [if_neg (fun hc => hnin hc.1)]
          by_cases hex : existsSB S (rel ++ [n]) = false
          · rw [if_pos ⟨rfl, hex⟩, List.map_cons,
              if_pos ⟨List.mem_cons_self _ _, hex⟩]
          · rw [if_neg (fun hc => hex hc.2), List.map_cons,
              if_neg (fun hc => hex hc.2)]
        · by_cases hx2 : x ∈ (dirNames rest).map (fun d => rel ++ [d])
          · by_cases hex : existsSB S x = false
            · rw [if_pos ⟨hx2, hex⟩, List.map_cons,
                if_pos ⟨List.mem_cons_of_mem _ hx2, hex⟩]
            · rw [if_neg (fun hc => hex hc.2), if_neg (fun hc => hex hc.2),
                List.map_cons, if_neg (fun hc => hex hc.2)]
          · rw [if_neg (fun hc => hx2 hc.1), if_neg (fun hc => hx1 hc.1),
              List.map_cons,
              if_neg (fun hc => (List.mem_cons.mp hc.1).elim
                (fun h => hx1 h) hx2)]
      · rw [h6, s6, List.append_assoc]
        simp only [pruneDirEvts]
      · intro x hx hxm
        rw [List.map_cons] at hxm
        have hxn : x ≠ rel ++ [n] := fun h => hxm (h ▸ List.mem_cons_self _ _)
        have hxr : x ∉ (dirNames rest).map (fun d => rel ++ [d]) :=
          fun h => hxm (List.mem_cons_of_mem _ h)
        rw [h7 x hx hxr, s7 x, if_neg (fun hc => hxn hc.1),
          if_neg (fun hc => hx hc.1)]
      · obtain ⟨l0, hl0, hmem⟩ := h8
        refine ⟨l0, hl0, ?_⟩
        intro nm
        rw [hmem nm]
        have hL0nd : L0.Nodup := hwf rel L0 hls0
        by_cases hex : existsSB S (rel ++ [n]) = false
        · rw [if_neg (by simp [hex])]
          constructor
          · rintro ⟨hm1, hm2⟩
            have hm1' := (List.Nodup.mem_erase_iff hL0nd).mp hm1
            refine ⟨hm1'.2, ?_⟩
            rintro ⟨hmc, hP⟩
            rcases List.mem_cons.mp hmc with rfl | hmr
            · exact hm1'.1 rfl
            · exact hm2 ⟨hmr, hP⟩
          · rintro ⟨hm1, hm2⟩
            have hne : nm ≠ n := by
              intro h
              subst h
              exact hm2 ⟨List.mem_cons_self _ _, hex⟩
            exact ⟨(List.Nodup.mem_erase_iff hL0nd).mpr ⟨hne, hm1⟩,
              fun hc => hm2 ⟨List.mem_cons_of_mem _ hc.1, hc.2⟩⟩
        · have hex' : existsSB S (rel ++ [n]) = true := by
            cases h : existsSB S (rel ++ [n]) with
            | true => rfl
            | false => exact absurd h hex
          rw [if_pos hex']
          constructor
          · rintro ⟨hm1, hm2⟩
            refine ⟨hm1, ?_⟩
            rintro ⟨hmc, hP⟩
            rcases List.mem_cons.mp hmc with rfl | hmr
            · rw [hex'] at hP
              cases hP
            · exact hm2 ⟨hmr, hP⟩
          · rintro ⟨hm1, hm2⟩
            exact ⟨hm1, fun hc => hm2 ⟨List.mem_cons_of_mem _ hc.1, hc.2⟩⟩

/-- Master characterization of the prune pass's bottom-up walk over the
replica snapshot subtree at `p`: starting from a healthy state whose
replica below `p` still equals the snapshot, it removes exactly the
strictly-below-`p` paths whose source counterpart is missing, appends
exactly the log lines `pruneEvts` predicts, touches nothing outside `p`'s
subtree, never errors, and leaves a drained listing at `p` when the
source lacks `p`. -/
theorem pruneWalk_spec_size : ∀ (N : Nat) (S : FsTree) (now : Int),
    ∀ (t : FsTree), sizeOf t < N →
    ∀ (p : Path) (st : PassSt),
    st.fs.src = S → st.errored = false → st.sinkFails = reliableSink →
    (∀ x, localAt st.fs.repl (p ++ x) = localAt (some t) x) →
    (∀ x, listdirR st.fs.repl (p ++ x) = treeListdir t x) →
    wfP st.fs.repl →
    ((walkBottomUp p t).foldl (pruneTriple now) st).fs.src = S ∧
    ((walkBottomUp p t).foldl (pruneTriple now) st).errored = false ∧
    ((walkBottomUp p t).foldl (pruneTriple now) st).sinkFails = reliableSink ∧
    ((walkBottomUp p t).foldl (pruneTriple now) st).rmdirFailed = st.rmdirFailed ∧
    (∀ x, localAt ((walkBottomUp p t).foldl (pruneTriple now) st).fs.repl x =
      if underB p x = true ∧ x ≠ p ∧ existsSB S x = false then none
      else localAt st.fs.repl x) ∧
    (((walkBottomUp p t).foldl (pruneTriple now) st).events =
      st.events ++ pruneEvts (existsSB S) now p t) ∧
    (∀ x, underB p x = false →
      listdirR ((walkBottomUp p t).foldl (pruneTriple now) st).fs.repl x =
        listdirR st.fs.repl x) ∧
    (isDirNode t = true → ∃ l0,
      listdirR ((walkBottomUp p t).foldl (pruneTriple now) st).fs.repl p = some l0 ∧
      (existsSB S p = false → l0 = [])) ∧
    wfP ((walkBottomUp p t).foldl (pruneTriple now) st).fs.repl := by
  intro N
  induction N with
  | zero =>
    intro S now t ht
    exact absurd ht (Nat.not_lt_zero _)
  | succ N ihN =>
    intro S now t ht p st hsrc herr hsink hsnapl hsnapls hwf
    cases t with
    | file mt ct c =>
      simp only [walkBottomUp, List.foldl_nil]
      refine ⟨hsrc, herr, hsink, trivial, ?_, ?_, ?_, ?_, hwf⟩
      · intro x
        by_cases hc : underB p x = true ∧ x ≠ p ∧ existsSB S x = false
        · rw [if_pos hc]
          obtain ⟨r, rfl⟩ := (underB_iff p x).mp hc.1
          cases hr : r with
          | nil =>
            subst hr
            exact absurd (List.append_nil p) hc.2.1
          | cons b a' =>
            subst hr
            rw [hsnapl (b :: a'), localAt_cons_file]
        · rw [if_neg hc]
      · simp only [pruneEvts, List.append_nil]
      · intro x _
        trivial
      · intro h
        simp [isDirNode] at h
    | dir dm dc cs =>
      have hlsp : listdirR st.fs.repl p = some (cs.map (·.1)) := by
        have h := hsnapls []
        rw [List.append_nil] at h
        rw [h]
        rfl
      have hndcs : (cs.map (·.1)).Nodup := hwf p _ hlsp
      have hkids : ∀ (l : List (String × FsTree)),
          (∀ n u, (n, u) ∈ l → sizeOf u < N) →
          (l.map (·.1)).Nodup →
          ∀ (st' : PassSt),
          st'.fs.src = S → st'.errored = false → st'.sinkFails = reliableSink →
          (∀ n u, (n, u) ∈ l → ∀ x,
            localAt st'.fs.repl ((p ++ [n]) ++ x) = localAt (some u) x) →
          (∀ n u, (n, u) ∈ l → ∀ x,
            listdirR st'.fs.repl ((p ++ [n]) ++ x) = treeListdir u x) →
          wfP st'.fs.repl →
          ((walkBottomUpKids p l).foldl (pruneTriple now) st').fs.src = S ∧
          ((walkBottomUpKids p l).foldl (pruneTriple now) st').errored = false ∧
          ((walkBottomUpKids p l).foldl (pruneTriple now) st').sinkFails
            = reliableSink ∧
          ((walkBottomUpKids p l).foldl (pruneTriple now) st').rmdirFailed
            = st'.rmdirFailed ∧
          (∀ x, localAt ((walkBottomUpKids p l).foldl (pruneTriple now) st').fs.repl x =
            if (∃ e ∈ l, underB (p ++ [e.1]) x = true ∧ x ≠ p ++ [e.1]) ∧
                existsSB S x = false
            then none else localAt st'.fs.repl x) ∧
          (((walkBottomUpKids p l).foldl (pruneTriple now) st').events =
            st'.events ++ pruneEvtsKids (existsSB S) now p l) ∧
          (∀ x, (∀ n u, (n, u) ∈ l → underB (p ++ [n]) x = false) →
            listdirR ((walkBottomUpKids p l).foldl (pruneTriple now) st').fs.repl x =
              listdirR st'.fs.repl x) ∧
          (∀ n u, (n, u) ∈ l → isDirNode u = true → ∃ l0,
            listdirR ((walkBottomUpKids p l).foldl (pruneTriple now) st').fs.repl
              (p ++ [n]) = some l0 ∧
            (existsSB S (p ++ [n]) = false → l0 = [])) ∧
          wfP ((walkBottomUpKids p l).foldl (pruneTriple now) st').fs.repl := by
        intro l
        induction l with
        | nil =>
          intro _ _ st' hsrc' herr' hsink' _ _ hwf'
          simp only [walkBottomUpKids, List.foldl_nil]
          refine ⟨hsrc', herr', hsink', trivial, ?_, ?_, ?_, ?_, hwf'⟩
          · intro x
            rw [if_neg (by
              rintro ⟨⟨e', he', _⟩, _⟩
              exact absurd he' (List.not_mem_nil e'))]
          · simp only [pruneEvtsKids, List.append_nil]
          · intro x _
            trivial
          · intro n u hm
            exact absurd hm (List.not_mem_nil _)
        | cons e rest ihl =>
          obtain ⟨n, u⟩ := e
          intro hsz hndl st' hsrc' herr' hsink' hsnapl' hsnapls' hwf'
          rw [List.map_cons, List.nodup_cons] at hndl
          have hname : ∀ n' u', (n', u') ∈ rest → n ≠ n' := by
            intro n' u' hm he
            refine hndl.1 ?_
            rw [he]
            exact List.mem_map.mpr ⟨(n', u'), hm, rfl⟩
          have hszr : ∀ n' u', (n', u') ∈ rest → sizeOf u' < N :=
            fun n' u' hm => hsz n' u' (List.mem_cons_of_mem _ hm)
          have hsplit : (walkBottomUpKids p ((n, u) :: rest)).foldl
                (pruneTriple now) st'
              = (walkBottomUpKids p rest).foldl (pruneTriple now)
                  ((walkBottomUp (p ++ [n]) u).foldl (pruneTriple now) st') := by
            simp only [walkBottomUpKids]
            rw [List.foldl_append]
          rw [hsplit]
          obtain ⟨m1, m2, m3, m4, m5, m6, m7, m7b, m8⟩ :=
            ihN S now u (hsz n u (List.mem_cons_self _ _)) (p ++ [n]) st'
              hsrc' herr' hsink'
              (hsnapl' n u (List.mem_cons_self _ _))
              (hsnapls' n u (List.mem_cons_self _ _)) hwf'
          have hregion : ∀ (n' : String) (x' : Path),
              (∃ u', (n', u') ∈ rest) →
              underB (p ++ [n]) (p ++ [n'] ++ x') = false := by
            intro n' x' ⟨u', hm⟩
            cases h : underB (p ++ [n]) (p ++ [n'] ++ x') with
            | false => rfl
            | true =>
              exfalso
              rw [List.append_assoc] at h
              obtain ⟨a, ha⟩ := underB_append_singleton_iff.mp h
              have h3 := append_cancel_left_path ha
              injection h3 with h4 _
              exact hname n' u' hm h4.symm
          have hm5frame : ∀ (n' : String) (x' : Path), (∃ u', (n', u') ∈ rest) →
              localAt ((walkBottomUp (p ++ [n]) u).foldl
                (pruneTriple now) st').fs.repl (p ++ [n'] ++ x')
              = localAt st'.fs.repl (p ++ [n'] ++ x') := by
            intro n' x' hex
            rw [m5 _, if_neg (fun hc => by
              rw [hregion n' x' hex] at hc
              cases hc.1)]
          obtain ⟨k1, k2, k3, k4, k5, k6, k7, k7b, k8⟩ :=
            ihl hszr hndl.2 _ m1 m2 m3
              (fun n' u' hm x => by
                rw [hm5frame n' x ⟨u', hm⟩]
                exact hsnapl' n' u' (List.mem_cons_of_mem _ hm) x)
              (fun n' u' hm x => by
                rw [m7 _ (hregion n' x ⟨u', hm⟩)]
                exact hsnapls' n' u' (List.mem_cons_of_mem _ hm) x)
              m8
          refine ⟨k1, k2, k3, k4.trans m4, ?_, ?_, ?_, ?_, k8⟩
          · intro x
            by_cases hxn : underB (p ++ [n]) x = true ∧ x ≠ p ++ [n]
            · have hcr : ¬(∃ e ∈ rest, underB (p ++ [e.1]) x = true ∧
                  x ≠ p ++ [e.1]) := by
                rintro ⟨e', he', h1, _⟩
                exact regions_disjoint (hname e'.1 e'.2 he') hxn.1 h1
              rw [k5 x, if_neg (fun hc => hcr hc.1), m5 x]
              by_cases hex : existsSB S x = false
              · rw [if_pos ⟨hxn.1, hxn.2, hex⟩,
                  if_pos ⟨⟨(n, u), List.mem_cons_self _ _, hxn.1, hxn.2⟩, hex⟩]
              · rw [if_neg (fun hc => hex hc.2.2), if_neg (fun hc => hex hc.2)]
            · have hm5x : localAt ((walkBottomUp (p ++ [n]) u).foldl
                  (pruneTriple now) st').fs.repl x = localAt st'.fs.repl x := by
                rw [m5 x, if_neg (fun hc => hxn ⟨hc.1, hc.2.1⟩)]
              rw [k5 x, hm5x]
              by_cases hcr : (∃ e ∈ rest, underB (p ++ [e.1]) x = true ∧
                  x ≠ p ++ [e.1]) ∧ existsSB S x = false
              · obtain ⟨⟨e', he', h1, h2⟩, hex⟩ := hcr
                rw [if_pos ⟨⟨e', he', h1, h2⟩, hex⟩,
                  if_pos ⟨⟨e', List.mem_cons_of_mem _ he', h1, h2⟩, hex⟩]
              · rw [if_neg hcr, if_neg (fun hc => by
                  obtain ⟨⟨e', he', h1, h2⟩, hex⟩ := hc
                  rcases List.mem_cons.mp he' with he0 | he0
                  · exact hxn (by rw [he0] at h1 h2; exact ⟨h1, h2⟩)
                  · exact hcr ⟨⟨e', he0, h1, h2⟩, hex⟩)]
          · rw [k6, m6, List.append_assoc]
            simp only [pruneEvtsKids]
          · intro x hx
            rw [k7 x (fun n' u' hm => hx n' u' (List.mem_cons_of_mem _ hm)),
              m7 x (hx n u (List.mem_cons_self _ _))]
          · intro n' u' hm hd
            rcases List.mem_cons.mp hm with he0 | he0
            · injection he0 with he1 he2
              have he1' : n = n' := he1.symm
              have he2' : u = u' := he2.symm
              subst he1'
              subst he2'
              obtain ⟨l0, hl0, hl0e⟩ := m7b hd
              refine ⟨l0, ?_, hl0e⟩
              rw [k7 (p ++ [n]) (fun m' w' hm' => by
                have h := hregion m' [] ⟨w', hm'⟩
                rw [List.append_nil] at h
                cases hh : underB (p ++ [m']) (p ++ [n]) with
                | false => rfl
                | true =>
                  exfalso
                  have h4 := underB_singleton_singleton hh
                  exact hname m' w' hm' h4.symm)]
              exact hl0
            · obtain ⟨l0, hl0, hl0e⟩ := k7b n' u' he0 hd
              exact ⟨l0, hl0, hl0e⟩
      obtain ⟨k1, k2, k3, k4, k5, k6, k7, k7b, k8⟩ :=
        hkids cs
          (fun n u hm => by
            have h1 := sizeOf_lt_of_mem_children hm dm dc
            omega)
          hndcs st hsrc herr hsink
          (fun n u hm x => by
            have h := hsnapl ([n] ++ x)
            rw [← List.append_assoc] at h
            rw [h]
            show localAt (some (FsTree.dir dm dc cs)) (n :: x) = _
            rw [localAt_dir_cons_some dm dc x (childGet_of_mem_nodup hndcs hm)])
          (fun n u hm x => by
            have h := hsnapls ([n] ++ x)
            rw [← List.append_assoc] at h
            rw [h]
            show treeListdir (FsTree.dir dm dc cs) (n :: x) = _
            rw [treeListdir_dir_cons_some dm dc x (childGet_of_mem_nodup hndcs hm)])
          hwf
      have hK5p : ∀ (y : Path), (∀ n' u', (n', u') ∈ cs →
            ¬(underB (p ++ [n']) y = true ∧ y ≠ p ++ [n'])) →
          localAt ((walkBottomUpKids p cs).foldl (pruneTriple now) st).fs.repl y
            = localAt st.fs.repl y := by
        intro y hy
        rw [k5 y, if_neg (fun hc => by
          obtain ⟨⟨e', he', h1, h2⟩, _⟩ := hc
          exact hy e'.1 e'.2 he' ⟨h1, h2⟩)]
      have hKloc : ∀ n' u', (n', u') ∈ cs →
          localAt ((walkBottomUpKids p cs).foldl (pruneTriple now) st).fs.repl
            (p ++ [n']) = localAt (some u') [] := by
        intro n' u' hm
        rw [hK5p (p ++ [n']) (fun m' w' hm' hc => by
          have h4 := underB_singleton_singleton hc.1
          by_cases hmn : m' = n'
          · subst hmn
            exact hc.2 rfl
          · exact hmn h4)]
        have h := hsnapl [n']
        rw [h]
        show localAt (some (FsTree.dir dm dc cs)) (n' :: []) = _
        rw [localAt_dir_cons_some dm dc [] (childGet_of_mem_nodup hndcs hm)]
      have hKls0 : listdirR ((walkBottomUpKids p cs).foldl
          (pruneTriple now) st).fs.repl p = some (cs.map (·.1)) := by
        rw [k7 p (fun n' u' hm => underB_singleton_self_false p n')]
        exact hlsp
      obtain ⟨f1, f2, f3, f4, f5, f6, f7, f8, f9⟩ :=
        pruneFiles_fold_spec S now p cs
          ((walkBottomUpKids p cs).foldl (pruneTriple now) st) (cs.map (·.1))
          k1 k2 k3
          (fun n u hm hd => by
            cases u with
            | dir a b cc => simp [isDirNode] at hd
            | file a b cc =>
              exact ⟨a, b, cc, by
                rw [hKloc n _ hm]
                exact localAt_nil_file a b cc⟩)
          (nodup_fileNames hndcs) hKls0 k8
      obtain ⟨l0f, hl0f, hmemf⟩ := f8
      obtain ⟨d1, d2, d3, d4, d5, d6, d7, d8, d9⟩ :=
        pruneDirs_fold_spec S now p cs
          ((fileNames cs).foldl (pruneFileStep now p)
            ((walkBottomUpKids p cs).foldl (pruneTriple now) st)) l0f
          f1 f2 f3
          (fun d u' hm hd => by
            cases u' with
            | file a b cc => simp [isDirNode] at hd
            | dir a b cc =>
              have hmemd : (p ++ [d]) ∉
                  (fileNames cs).map (fun f => p ++ [f]) := by
                intro hmem
                obtain ⟨f, hf, hfe⟩ := List.mem_map.mp hmem
                refine dirNames_fileNames_disjoint hndcs
                  (mem_dirNames_of hm rfl) ?_
                rw [← append_singleton_inj hfe]
                exact hf
              obtain ⟨Ld, hLd1, hLd2⟩ := k7b d _ hm rfl
              refine ⟨a, b, Ld, ?_, ?_, hLd2⟩
              · rw [f5 (p ++ [d]), if_neg (fun hc => hmemd hc.1),
                  hKloc d _ hm]
                exact localAt_nil_dir a b cc
              · rw [f7 (p ++ [d]) (ne_append_cons p d [])]
                exact hLd1)
          (nodup_dirNames hndcs) hl0f f9
      have hgoal : (walkBottomUp p (FsTree.dir dm dc cs)).foldl (pruneTriple now) st
          = (dirNames cs).foldl (pruneDirStep now p)
              ((fileNames cs).foldl (pruneFileStep now p)
                ((walkBottomUpKids p cs).foldl (pruneTriple now) st)) := by
        simp only [walkBottomUp]
        rw [List.foldl_append, List.foldl_cons, List.foldl_nil]
        rfl
      rw [hgoal]
      refine ⟨d1, d2, d3, d4.trans (f4.trans k4), ?_, ?_, ?_, ?_, d9⟩
      · intro x
        by_cases hpx : underB p x = true
        · rcases underB_strict_split hpx with hx | ⟨n₀, a, hx⟩
          · have hx' : p = x := hx.symm
            subst hx'
            rw [d5 p, if_neg (fun hc => self_not_mem_child_map p _ hc.1),
              f5 p, if_neg (fun hc => self_not_mem_child_map p _ hc.1),
              hK5p p (fun n' u' hm hc => by
                rw [underB_singleton_self_false] at hc
                cases hc.1),
              if_neg (fun hc => hc.2.1 rfl)]
          · subst hx
            cases hcg : childGet cs n₀ with
            | none =>
              have hstx : localAt st.fs.repl (p ++ n₀ :: a) = none := by
                rw [hsnapl (n₀ :: a)]
                exact localAt_dir_cons_none dm dc a hcg
              have hnf : p ++ n₀ :: a ∉ (fileNames cs).map (fun f => p ++ [f]) := by
                intro hmem
                obtain ⟨f, hf, hfe⟩ := List.mem_map.mp hmem
                obtain ⟨h1, _⟩ := cons_path_eq_singleton hfe.symm
                obtain ⟨u', hm', _⟩ := mem_fileNames hf
                rw [← h1] at hm'
                rw [childGet_of_mem_nodup hndcs hm'] at hcg
                cases hcg
              have hndm : p ++ n₀ :: a ∉ (dirNames cs).map (fun d => p ++ [d]) := by
                intro hmem
                obtain ⟨d, hd, hde⟩ := List.mem_map.mp hmem
                obtain ⟨h1, _⟩ := cons_path_eq_singleton hde.symm
                obtain ⟨u', hm', _⟩ := mem_dirNames hd
                rw [← h1] at hm'
                rw [childGet_of_mem_nodup hndcs hm'] at hcg
                cases hcg
              rw [d5 _, if_neg (fun hc => hndm hc.1),
                f5 _, if_neg (fun hc => hnf hc.1),
                hK5p (p ++ n₀ :: a) (fun n' u' hm hc => by
                  obtain ⟨b, hb⟩ := underB_append_singleton_iff.mp hc.1
                  have h3 := append_cancel_left_path hb
                  injection h3 with h4 _
                  have hm' : (n₀, u') ∈ cs := by
                    rw [h4]
                    exact hm
                  rw [childGet_of_mem_nodup hndcs hm'] at hcg
                  cases hcg)]
              by_cases hcond : underB p (p ++ n₀ :: a) = true ∧
                  p ++ n₀ :: a ≠ p ∧ existsSB S (p ++ n₀ :: a) = false
              · rw [if_pos hcond]
                exact hstx
              · rw [if_neg hcond]
            | some u₀ =>
              have hm₀ : (n₀, u₀) ∈ cs := childGet_mem hcg
              cases a with
              | nil =>
                have hkx : localAt ((walkBottomUpKids p cs).foldl
                      (pruneTriple now) st).fs.repl (p ++ [n₀])
                    = localAt st.fs.repl (p ++ [n₀]) := by
                  rw [hK5p (p ++ [n₀]) (fun n' u' hm hc => by
                    have h4 := underB_singleton_singleton hc.1
                    by_cases hmn : n' = n₀
                    · subst hmn
                      exact hc.2 rfl
                    · exact hmn h4)]
                cases u₀ with
                | file fa fb fcc =>
                  have hmemfx : p ++ [n₀] ∈
                      (fileNames cs).map (fun f => p ++ [f]) :=
                    List.mem_map.mpr ⟨n₀, mem_fileNames_of hm₀ rfl, rfl⟩
                  have hndm : p ++ [n₀] ∉
                      (dirNames cs).map (fun d => p ++ [d]) := by
                    intro hmem
                    obtain ⟨d, hd, hde⟩ := List.mem_map.mp hmem
                    refine dirNames_fileNames_disjoint hndcs ?_
                      (mem_fileNames_of hm₀ rfl)
                    rw [← append_singleton_inj hde]
                    exact hd
                  rw [d5 _, if_neg (fun hc => hndm hc.1), f5 _]
                  by_cases hex : existsSB S (p ++ [n₀]) = false
                  · rw [if_pos ⟨hmemfx, hex⟩,
                      if_pos ⟨underB_append p [n₀], ne_append_cons p n₀ [], hex⟩]
                  · rw [if_neg (fun hc => hex hc.2), hkx,
                      if_neg (fun hc => hex hc.2.2)]
                | dir da db dcc =>
                  have hmemdx : p ++ [n₀] ∈
                      (dirNames cs).map (fun d => p ++ [d]) :=
                    List.mem_map.mpr ⟨n₀, mem_dirNames_of hm₀ rfl, rfl⟩
                  have hnf : p ++ [n₀] ∉
                      (fileNames cs).map (fun f => p ++ [f]) := by
                    intro hmem
                    obtain ⟨f, hf, hfe⟩ := List.mem_map.mp hmem
                    refine dirNames_fileNames_disjoint hndcs
                      (mem_dirNames_of hm₀ rfl) ?_
                    rw [← append_singleton_inj hfe]
                    exact hf
                  rw [d5 _]
                  by_cases hex : existsSB S (p ++ [n₀]) = false
                  · rw [if_pos ⟨hmemdx, hex⟩,
                      if_pos ⟨underB_append p [n₀], ne_append_cons p n₀ [], hex⟩]
                  · rw [if_neg (fun hc => hex hc.2),
                      f5 _, if_neg (fun hc => hnf hc.1), hkx,
                      if_neg (fun hc => hex hc.2.2)]
              | cons b a' =>
                have hnf : p ++ n₀ :: b :: a' ∉
                    (fileNames cs).map (fun f => p ++ [f]) := by
                  intro hmem
                  obtain ⟨f, _, hfe⟩ := List.mem_map.mp hmem
                  obtain ⟨_, h2⟩ := cons_path_eq_singleton hfe.symm
                  cases h2
                have hndm : p ++ n₀ :: b :: a' ∉
                    (dirNames cs).map (fun d => p ++ [d]) := by
                  intro hmem
                  obtain ⟨d, _, hde⟩ := List.mem_map.mp hmem
                  obtain ⟨_, h2⟩ := cons_path_eq_singleton hde.symm
                  cases h2
                have hwitU : underB (p ++ [n₀]) (p ++ n₀ :: b :: a') = true := by
                  have h := underB_append (p ++ [n₀]) (b :: a')
                  rw [List.append_assoc] at h
                  simpa using h
                have hwitNe : p ++ n₀ :: b :: a' ≠ p ++ [n₀] := by
                  intro h
                  obtain ⟨_, h2⟩ := cons_path_eq_singleton h
                  cases h2
                rw [d5 _, if_neg (fun hc => hndm hc.1),
                  f5 _, if_neg (fun hc => hnf hc.1), k5 _]
                by_cases hex : existsSB S (p ++ n₀ :: b :: a') = false
                · rw [if_pos ⟨⟨(n₀, u₀), hm₀, hwitU, hwitNe⟩, hex⟩,
                    if_pos ⟨underB_append p (n₀ :: b :: a'),
                      ne_append_cons p n₀ (b :: a'), hex⟩]
                · rw [if_neg (fun hc => hex hc.2),
                    if_neg (fun hc => hex hc.2.2)]
        · have hnf : x ∉ (fileNames cs).map (fun f => p ++ [f]) := by
            intro hmem
            obtain ⟨f, _, hfe⟩ := List.mem_map.mp hmem
            refine hpx ?_
            rw [← hfe]
            exact underB_append p [f]
          have hndm : x ∉ (dirNames cs).map (fun d => p ++ [d]) := by
            intro hmem
            obtain ⟨d, _, hde⟩ := List.mem_map.mp hmem
            refine hpx ?_
            rw [← hde]
            exact underB_append p [d]
          rw [d5 x, if_neg (fun hc => hndm hc.1),
            f5 x, if_neg (fun hc => hnf hc.1),
            hK5p x (fun n' u' hm hc =>
              hpx (underB_trans (underB_append p [n']) hc.1)),
            if_neg (fun hc => hpx hc.1)]
      · rw [d6, f6, k6, List.append_assoc, List.append_assoc]
        simp only [pruneEvts, List.append_assoc]
      · intro x hpx
        have hne_p : x ≠ p := by
          intro h
          rw [h] at hpx
          exact absurd (underB_refl p) (by rw [hpx]; exact Bool.false_ne_true)
        have hndm : x ∉ (dirNames cs).map (fun d => p ++ [d]) := by
          intro hmem
          obtain ⟨d, _, hde⟩ := List.mem_map.mp hmem
          rw [← hde, underB_append] at hpx
          cases hpx
        rw [d7 x hne_p hndm, f7 x hne_p,
          k7 x (fun n' u' hm => by
            cases h : underB (p ++ [n']) x with
            | false => rfl
            | true =>
              exfalso
              have h3 := underB_trans (underB_append p [n']) h
              rw [h3] at hpx
              cases hpx)]
      · intro _
        obtain ⟨l0d, hl0d, hmemd⟩ := d8
        refine ⟨l0d, hl0d, ?_⟩
        intro hexp
        rw [List.eq_nil_iff_forall_not_mem]
        intro nm hnm
        obtain ⟨h1, h2⟩ := (hmemd nm).mp hnm
        obtain ⟨h3, h4⟩ := (hmemf nm).mp h1
        obtain ⟨e', he', he1⟩ := List.mem_map.mp h3
        have hentry : (nm, e'.2) ∈ cs := by
          rw [← he1]
          exact he'
        have hexnm : existsSB S (p ++ [nm]) = false :=
          existsSB_under_false hexp [nm]
        cases hkind : isDirNode e'.2 with
        | true => exact h2 ⟨mem_dirNames_of hentry hkind, hexnm⟩
        | false => exact h4 ⟨mem_fileNames_of hentry hkind, hexnm⟩

theorem existsSB_nil (S : FsTree) : existsSB S [] = true := by
  unfold existsSB
  rw [treeLookup_nil]
  rfl

theorem repl_some_of_localAt {r : Option FsTree} {v : LocalNode}
    (h : localAt r [] = some v) : ∃ t, r = some t := by
  cases r with
  | none => cases h
  | some t => exact ⟨t, rfl⟩

theorem copyLocal_isSome_of_src {S : FsTree} {x : Path} {u : FsTree}
    (h : treeLookup S x = some u) (now : Int) (o : Option LocalNode) :
    (copyLocal S now o x).isSome = true := by
  unfold copyLocal
  rw [h]
  cases u with
  | dir _ _ _ => cases o <;> rfl
  | file mt _ _ =>
    cases o with
    | none => rfl
    | some v =>
      cases v with
      | dirL _ _ => rfl
      | fileL mt' _ _ =>
        dsimp only
        by_cases he : mt' = mt
        · rw [if_pos he]
          rfl
        · rw [if_neg he]
          rfl

/-- The full shape of one complete pass on a healthy, kind-compatible
state: the replica's stat view afterwards is exactly `copyLocal` of the
entry view on the source's paths, and nothing elsewhere. -/
theorem one_pass_localAt (S : FsTree) (now : Int) (st : PassSt)
    (hsrc : st.fs.src = S) (herr : st.errored = false)
    (hsink : st.sinkFails = reliableSink)
    (hSD : isDirNode S = true)
    (hw : wfB S = true) (hwf : wfP st.fs.repl)
    (hcomp : ∀ x, compatAt S st.fs.repl x) :
    (one_pass now st).fs.src = S ∧
    (one_pass now st).errored = false ∧
    (one_pass now st).sinkFails = reliableSink ∧
    (one_pass now st).rmdirFailed = st.rmdirFailed ∧
    (∀ x, localAt (one_pass now st).fs.repl x =
      if existsSB S x then copyLocal S now (localAt st.fs.repl x) x else none) ∧
    wfP (one_pass now st).fs.repl := by
  have hcf : copy_files_and_dirs now st = (walkTopDown [] S).foldl (copyTriple now) st := by
    unfold copy_files_and_dirs
    rw [hsrc]
  obtain ⟨c1, c2, c3, c4, c5, c6, c7, c8, c9⟩ :=
    copyWalk_spec_size (sizeOf S + 1) S now hw S (Nat.lt_succ_self _) [] st
      hsrc herr hsink (treeLookup_nil S) hSD (Or.inl rfl) hcomp hwf
  obtain ⟨dm, dc, cs, hSdir⟩ := (isDirO_iff (some S)).mp (by
    cases S with
    | file _ _ _ => simp [isDirNode] at hSD
    | dir _ _ _ => rfl)
  have hmidroot : localAt ((walkTopDown [] S).foldl (copyTriple now) st).fs.repl []
      = copyLocal S now (localAt st.fs.repl []) [] := by
    rw [c5 [], if_pos (underB_nil_left [])]
  have hmidroot2 : ∃ v, localAt ((walkTopDown [] S).foldl
      (copyTriple now) st).fs.repl [] = some v := by
    rw [hmidroot]
    have hlkS : treeLookup S [] = some (FsTree.dir dm dc cs) := by
      rw [treeLookup_nil]
      exact hSdir
    have hiso := copyLocal_isSome_of_src hlkS now (localAt st.fs.repl [])
    cases hco : copyLocal S now (localAt st.fs.repl []) [] with
    | none =>
      rw [hco] at hiso
      cases hiso
    | some v => exact ⟨v, rfl⟩
  obtain ⟨v, hv⟩ := hmidroot2
  obtain ⟨t₁, ht₁⟩ := repl_some_of_localAt hv
  have hrf : one_pass now st =
      (walkBottomUp [] t₁).foldl (pruneTriple now)
        ((walkTopDown [] S).foldl (copyTriple now) st) := by
    unfold one_pass remove_files_and_dirs
    rw [hcf, ht₁]
  obtain ⟨p1, p2, p3, p4, p5, p6, p7, p7b, p8⟩ :=
    pruneWalk_spec_size (sizeOf t₁ + 1) S now t₁ (Nat.lt_succ_self _) []
      ((walkTopDown [] S).foldl (copyTriple now) st)
      c1 c2 c3
      (fun x => by rw [List.nil_append, ht₁])
      (fun x => by rw [List.nil_append, ht₁]; rfl)
      c8
  rw [hrf]
  refine ⟨p1, p2, p3, p4.trans c4, ?_, p8⟩
  intro x
  rw [p5 x]
  by_cases hex : existsSB S x = true
  · rw [if_neg (fun hc => by rw [hex] at hc; cases hc.2.2), if_pos hex,
      c5 x, if_pos (underB_nil_left x)]
  · have hxne : x ≠ [] := by
      intro h
      subst h
      exact hex (existsSB_nil S)
    have hexf : existsSB S x = false := by
      cases h : existsSB S x with
      | true => exact absurd h hex
      | false => rfl
    rw [if_pos ⟨underB_nil_left x, hxne, hexf⟩, if_neg hex]

/-- C1 (corrected): convergence of one complete pass, under the
kind-compatibility precondition the code silently assumes.  For a static
source tree (a directory) and any kind-compatible, well-formed replica,
after `copy_files_and_dirs` followed by `remove_files_and_dirs` the set
of relative paths under the replica root equals the set of relative
paths under the source root, and every replica file carries its source
counterpart's modification timestamp.  (Without kind compatibility the
postcondition fails: see the counterexample.) -/
theorem C1_convergence_under_kind_compat (now : Int) (st : PassSt) (S : FsTree)
    (hsrc : st.fs.src = S) (herr : st.errored = false)
    (hsink : st.sinkFails = reliableSink)
    (hSD : isDirNode S = true) (hw : wfB S = true)
    (hwfr : wfO st.fs.repl = true)
    (hcomp : kindCompatO S st.fs.repl = true) :
    (∀ x, (localAt (one_pass now st).fs.repl x).isSome = existsSB S x) ∧
    (∀ x mt ct c, treeLookup S x = some (.file mt ct c) →
      ∃ ct' c', localAt (one_pass now st).fs.repl x = some (.fileL mt ct' c')) := by
  obtain ⟨h1, h2, h3, h4, h5, h6⟩ :=
    one_pass_localAt S now st hsrc herr hsink hSD hw (wfP_of_wfO hwfr)
      (compatAt_of_kindCompatO hcomp)
  constructor
  · intro x
    rw [h5 x]
    cases hex : existsSB S x with
    | true =>
      rw [if_pos rfl]
      have hu : ∃ u, treeLookup S x = some u := by
        unfold existsSB at hex
        cases hl : treeLookup S x with
        | none => rw [hl] at hex; cases hex
        | some u => exact ⟨u, rfl⟩
      obtain ⟨u, hu⟩ := hu
      exact copyLocal_isSome_of_src hu now (localAt st.fs.repl x)
    | false =>
      rw [if_neg (fun hc => by cases hc)]
      rfl
  · intro x mt ct c hf
    have hex : existsSB S x = true := by
      unfold existsSB
      rw [hf]
      rfl
    rw [h5 x, if_pos hex]
    have hnd : isDirL (localAt st.fs.repl x) = false := by
      rw [← isDirO_eq_isDirL]
      exact (compatAt_of_kindCompatO hcomp x).2 (by rw [hf]; rfl)
    unfold copyLocal
    rw [hf]
    cases hl : localAt st.fs.repl x with
    | none => exact ⟨now, c, rfl⟩
    | some v =>
      cases v with
      | dirL a b =>
        rw [hl] at hnd
        cases hnd
      | fileL mt' ct' c' =>
        dsimp only
        by_cases he : mt' = mt
        · rw [if_pos he]
          exact ⟨ct', c', by rw [he]⟩
        · rw [if_neg he]
          exact ⟨now, c, rfl⟩

/-- Witness: a two-entry source directory against a one-stale-file
replica; the pass converges and the file carries the source timestamp. -/
theorem C1_convergence_under_kind_compat_witness :
    (∀ x, (localAt (one_pass 9 (PassSt.init
        ⟨FsTree.dir 0 0 [("a", FsTree.file 5 1 "new"), ("d", FsTree.dir 2 2 [])],
         some (FsTree.dir 0 0 [("a", FsTree.file 3 1 "old"),
           ("gone", FsTree.file 4 4 "x")])⟩
        reliableSink)).fs.repl x).isSome =
      existsSB (FsTree.dir 0 0 [("a", FsTree.file 5 1 "new"),
        ("d", FsTree.dir 2 2 [])]) x) ∧
    (∀ x mt ct c, treeLookup (FsTree.dir 0 0 [("a", FsTree.file 5 1 "new"),
        ("d", FsTree.dir 2 2 [])]) x = some (.file mt ct c) →
      ∃ ct' c', localAt (one_pass 9 (PassSt.init
        ⟨FsTree.dir 0 0 [("a", FsTree.file 5 1 "new"), ("d", FsTree.dir 2 2 [])],
         some (FsTree.dir 0 0 [("a", FsTree.file 3 1 "old"),
           ("gone", FsTree.file 4 4 "x")])⟩
        reliableSink)).fs.repl x = some (.fileL mt ct' c')) :=
  C1_convergence_under_kind_compat 9 _ _ rfl rfl rfl rfl (by decide) (by decide)
    (by decide)

theorem foldl_noop {α β : Type} (f : β → α → β) (st : β) :
    ∀ (l : List α), (∀ a ∈ l, f st a = st) → l.foldl f st = st := by
  intro l
  induction l with
  | nil =>
    intro _
    rfl
  | cons a rest ih =>
    intro h
    rw [List.foldl_cons, h a (List.mem_cons_self _ _)]
    exact ih (fun a' hm => h a' (List.mem_cons_of_mem _ hm))

theorem lookupR_child {r : Option FsTree} {p : Path} {dm dc : Int}
    {cs : List (String × FsTree)} {n : String} {u : FsTree}
    (hp : lookupR r p = some (.dir dm dc cs)) (hc : childGet cs n = some u) :
    lookupR r (p ++ [n]) = some u := by
  rw [lookupR_append, hp]
  show treeLookup (FsTree.dir dm dc cs) (n :: []) = some u
  rw [treeLookup_dir_cons_some dm dc [] hc]
  exact treeLookup_nil u

theorem isSome_of_isDirL {o : Option LocalNode} (h : isDirL o = true) :
    o.isSome = true := by
  cases o with
  | none => cases h
  | some v => rfl

theorem existsSB_of_synced {S : FsTree} {r : Option FsTree} {x : Path}
    (hs : SyncedAt S r x) (h : (localAt r x).isSome = true) :
    existsSB S x = true := by
  unfold SyncedAt at hs
  unfold existsSB
  cases hl : treeLookup S x with
  | none =>
    rw [hl] at hs
    rw [hs] at h
    cases h
  | some u => rfl

theorem copyFileStep_noop (S : FsTree) (now : Int) (rel : Path) (f : String)
    (st : PassSt) (mt ct : Int) (c : String) (ct' : Int) (c' : String)
    (herr : st.errored = false)
    (hloc : localAt st.fs.repl (rel ++ [f]) = some (.fileL mt ct' c'))
    (hsrc : st.fs.src = S)
    (hf : treeLookup S (rel ++ [f]) = some (.file mt ct c)) :
    copyFileStep now rel st f = st := by
  unfold copyFileStep
  rw [if_neg (by rw [herr]; exact Bool.false_ne_true)]
  dsimp only
  have hex : st.fs.existsP .replica (rel ++ [f]) = true := by
    unfold SyncFs.existsP
    rw [SyncFs.lookup_replica, ← localAt_isSome, hloc]
    rfl
  rw [hex, if_neg (by simp)]
  have hsmt : st.fs.statMtime .source (rel ++ [f]) = some mt := by
    unfold SyncFs.statMtime
    rw [SyncFs.lookup_source, hsrc, hf]
  have hrmt : st.fs.statMtime .replica (rel ++ [f]) = some mt := by
    unfold SyncFs.statMtime
    rw [SyncFs.lookup_replica, (localAt_fileL_iff _ _ _ _ _).mp hloc]
  rw [hsmt, hrmt]
  dsimp only
  rw [if_neg (by simp)]

theorem copyDirEnsure_noop (now : Int) (rel : Path) (st : PassSt)
    (herr : st.errored = false)
    (hex : (lookupR st.fs.repl rel).isSome = true) :
    copyDirEnsure now rel st = st := by
  unfold copyDirEnsure
  rw [if_neg (by rw [herr]; exact Bool.false_ne_true),
    if_pos (by
      unfold SyncFs.existsP
      rw [SyncFs.lookup_replica]
      exact hex)]

theorem copyDirStep_noop (now : Int) (rel : Path) (st : PassSt) (d : String)
    (herr : st.errored = false)
    (hex : (lookupR st.fs.repl (rel ++ [d])).isSome = true) :
    copyDirStep now rel st d = st := by
  unfold copyDirStep
  rw [if_neg (by rw [herr]; exact Bool.false_ne_true)]
  dsimp only
  have hexP : st.fs.existsP .replica (rel ++ [d]) = true := by
    unfold SyncFs.existsP
    rw [SyncFs.lookup_replica]
    exact hex
  rw [hexP, if_neg (by simp)]

theorem pruneFileStep_noop (S : FsTree) (now : Int) (rel : Path) (f : String)
    (st : PassSt) (herr : st.errored = false) (hsrc : st.fs.src = S)
    (hex : existsSB S (rel ++ [f]) = true) :
    pruneFileStep now rel st f = st := by
  unfold pruneFileStep
  rw [if_neg (by rw [herr]; exact Bool.false_ne_true)]
  dsimp only
  rw [existsP_source_eq hsrc, hex, if_neg (by simp)]

theorem pruneDirStep_noop (S : FsTree) (now : Int) (rel : Path) (d : String)
    (st : PassSt) (ddm ddc : Int) (dcs : List (String × FsTree))
    (herr : st.errored = false) (hsrc : st.fs.src = S)
    (hd : lookupR st.fs.repl (rel ++ [d]) = some (.dir ddm ddc dcs))
    (hex : existsSB S (rel ++ [d]) = true) :
    pruneDirStep now rel st d = st := by
  unfold pruneDirStep
  rw [if_neg (by rw [herr]; exact Bool.false_ne_true)]
  dsimp only
  have hld : st.fs.listdir .replica (rel ++ [d]) = some (dcs.map (·.1)) := by
    rw [SyncFs.listdir_replica, hd]
  rw [hld]
  dsimp only
  rw [existsP_source_eq hsrc, hex, if_neg (by simp)]

/-- On a state already synchronized with the source, every triple of the
copy pass's walk is a no-op: the state (filesystem, events, log counter)
is literally unchanged. -/
theorem copyWalk_noop_size (S : FsTree) (now2 : Int) (st : PassSt)
    (hsrc : st.fs.src = S) (herr : st.errored = false) (hw : wfB S = true)
    (hsynced : ∀ x, SyncedAt S st.fs.repl x) :
    ∀ (N : Nat) (t : FsTree), sizeOf t < N → ∀ (p : Path),
    treeLookup S p = some t →
    (walkTopDown p t).foldl (copyTriple now2) st = st := by
  intro N
  induction N with
  | zero =>
    intro t ht
    exact absurd ht (Nat.not_lt_zero _)
  | succ N ihN =>
    intro t ht p hp
    cases t with
    | file _ _ _ => rfl
    | dir dm dc cs =>
      have hnd := nodup_children_of_wfB hw hp
      have hres := treeLookup_child hw hp
      have htr : copyTriple now2 st (p, dirNames cs, fileNames cs) = st := by
        unfold copyTriple
        dsimp only
        rw [copyDirEnsure_noop now2 p st herr (by
          rw [← localAt_isSome]
          refine isSome_of_isDirL ?_
          have hs := hsynced p
          unfold SyncedAt at hs
          rw [hp] at hs
          exact hs)]
        rw [foldl_noop (copyFileStep now2 p) st (fileNames cs) (fun f hf => by
          obtain ⟨u, hm, hknd⟩ := mem_fileNames hf
          obtain ⟨fmt, fct, fc, hfu⟩ : ∃ a b cc, u = FsTree.file a b cc := by
            cases u with
            | file a b cc => exact ⟨a, b, cc, rfl⟩
            | dir _ _ _ => simp [isDirNode] at hknd
          subst hfu
          have hfl := hres f _ hm
          have hs := hsynced (p ++ [f])
          unfold SyncedAt at hs
          rw [hfl] at hs
          obtain ⟨ct', c', hloc⟩ := hs
          exact copyFileStep_noop S now2 p f st fmt fct fc ct' c' herr hloc hsrc hfl)]
        refine foldl_noop (copyDirStep now2 p) st (dirNames cs) (fun d hd => ?_)
        obtain ⟨u, hm, hknd⟩ := mem_dirNames hd
        refine copyDirStep_noop now2 p st d herr ?_
        rw [← localAt_isSome]
        refine isSome_of_isDirL ?_
        have hs := hsynced (p ++ [d])
        unfold SyncedAt at hs
        rw [hres d _ hm] at hs
        cases u with
        | dir _ _ _ => exact hs
        | file _ _ _ => simp [isDirNode] at hknd
      simp only [walkTopDown]
      rw [List.foldl_cons, htr]
      have hkids : ∀ (l : List (String × FsTree)),
          (∀ n u, (n, u) ∈ l → sizeOf u < N) →
          (∀ n u, (n, u) ∈ l → treeLookup S (p ++ [n]) = some u) →
          (walkTopDownKids p l).foldl (copyTriple now2) st = st := by
        intro l
        induction l with
        | nil =>
          intro _ _
          rfl
        | cons e rest ihl =>
          obtain ⟨n, u⟩ := e
          intro hsz hresl
          simp only [walkTopDownKids]
          rw [List.foldl_append,
            ihN u (hsz n u (List.mem_cons_self _ _)) (p ++ [n])
              (hresl n u (List.mem_cons_self _ _))]
          exact ihl (fun n' u' hm => hsz n' u' (List.mem_cons_of_mem _ hm))
            (fun n' u' hm => hresl n' u' (List.mem_cons_of_mem _ hm))
      exact hkids cs
        (fun n u hm => by
          have := sizeOf_lt_of_mem_children hm dm dc
          omega)
        hres

/-- On a state whose replica paths all still exist in the source, every
triple of the prune pass's walk is a no-op. -/
theorem pruneWalk_noop_size (S : FsTree) (now2 : Int) (st : PassSt)
    (hsrc : st.fs.src = S) (herr : st.errored = false)
    (hwf : wfP st.fs.repl)
    (hsynced : ∀ x, SyncedAt S st.fs.repl x) :
    ∀ (N : Nat) (t : FsTree), sizeOf t < N → ∀ (p : Path),
    lookupR st.fs.repl p = some t →
    (walkBottomUp p t).foldl (pruneTriple now2) st = st := by
  intro N
  induction N with
  | zero =>
    intro t ht
    exact absurd ht (Nat.not_lt_zero _)
  | succ N ihN =>
    intro t ht p hp
    cases t with
    | file _ _ _ => rfl
    | dir dm dc cs =>
      have hls : listdirR st.fs.repl p = some (cs.map (·.1)) := by
        rw [listdirR_eq, hp]
      have hnd : (cs.map (·.1)).Nodup := hwf p _ hls
      have hres : ∀ n u, (n, u) ∈ cs → lookupR st.fs.repl (p ++ [n]) = some u :=
        fun n u hm => lookupR_child hp (childGet_of_mem_nodup hnd hm)
      have hexs : ∀ n u, (n, u) ∈ cs → existsSB S (p ++ [n]) = true := by
        intro n u hm
        refine existsSB_of_synced (hsynced (p ++ [n])) ?_
        rw [localAt_isSome, hres n u hm]
        rfl
      have htr : pruneTriple now2 st (p, dirNames cs, fileNames cs) = st := by
        unfold pruneTriple
        dsimp only
        rw [foldl_noop (pruneFileStep now2 p) st (fileNames cs) (fun f hf => by
          obtain ⟨u, hm, _⟩ := mem_fileNames hf
          exact pruneFileStep_noop S now2 p f st herr hsrc (hexs f u hm))]
        refine foldl_noop (pruneDirStep now2 p) st (dirNames cs) (fun d hd => ?_)
        obtain ⟨u, hm, hknd⟩ := mem_dirNames hd
        obtain ⟨a, b, cc, hdu⟩ : ∃ a b cc, u = FsTree.dir a b cc := by
          cases u with
          | dir a b cc => exact ⟨a, b, cc, rfl⟩
          | file _ _ _ => simp [isDirNode] at hknd
        subst hdu
        exact pruneDirStep_noop S now2 p d st a b cc herr hsrc
          (hres d _ hm) (hexs d _ hm)
      have hkids : ∀ (l : List (String × FsTree)),
          (∀ n u, (n, u) ∈ l → sizeOf u < N) →
          (∀ n u, (n, u) ∈ l → lookupR st.fs.repl (p ++ [n]) = some u) →
          (walkBottomUpKids p l).foldl (pruneTriple now2) st = st := by
        intro l
        induction l with
        | nil =>
          intro _ _
          rfl
        | cons e rest ihl =>
          obtain ⟨n, u⟩ := e
          intro hsz hresl
          simp only [walkBottomUpKids]
          rw [List.foldl_append,
            ihN u (hsz n u (List.mem_cons_self _ _)) (p ++ [n])
              (hresl n u (List.mem_cons_self _ _))]
          exact ihl (fun n' u' hm => hsz n' u' (List.mem_cons_of_mem _ hm))
            (fun n' u' hm => hresl n' u' (List.mem_cons_of_mem _ hm))
      simp only [walkBottomUp]
      rw [List.foldl_append,
        hkids cs
          (fun n u hm => by
            have := sizeOf_lt_of_mem_children hm dm dc
            omega)
          hres,
        List.foldl_cons, htr, List.foldl_nil]

/-- C2: idempotence.  A complete pass on a healthy, kind-compatible state
is a fixpoint: running another complete pass afterwards (at any later
timestamp) returns the state unchanged — no filesystem mutation, no
events, not even the log counter moves. -/
theorem C2_second_pass_is_identity (now now2 : Int) (st : PassSt) (S : FsTree)
    (hsrc : st.fs.src = S) (herr : st.errored = false)
    (hsink : st.sinkFails = reliableSink)
    (hSD : isDirNode S = true) (hw : wfB S = true)
    (hwfr : wfO st.fs.repl = true)
    (hcomp : kindCompatO S st.fs.repl = true) :
    one_pass now2 (one_pass now st) = one_pass now st := by
  obtain ⟨h1, h2, h3, h4, h5, h6⟩ :=
    one_pass_localAt S now st hsrc herr hsink hSD hw (wfP_of_wfO hwfr)
      (compatAt_of_kindCompatO hcomp)
  have hsynced : ∀ x, SyncedAt S (one_pass now st).fs.repl x := by
    intro x
    unfold SyncedAt
    cases hl : treeLookup S x with
    | none =>
      have hex : existsSB S x = true → False := by
        intro hc
        unfold existsSB at hc
        rw [hl] at hc
        cases hc
      rw [h5 x, if_neg hex]
    | some u =>
      have hex : existsSB S x = true := by
        unfold existsSB
        rw [hl]
        rfl
      rw [h5 x, if_pos hex]
      cases u with
      | dir a b cc =>
        refine isDirL_copyLocal (by rw [hl]; rfl) ?_
        rw [← isFileO_eq_isFileL]
        exact (compatAt_of_kindCompatO hcomp x).1 (by rw [hl]; rfl)
      | file mt fct fc =>
        have hnd : isDirL (localAt st.fs.repl x) = false := by
          rw [← isDirO_eq_isDirL]
          exact (compatAt_of_kindCompatO hcomp x).2 (by rw [hl]; rfl)
        unfold copyLocal
        rw [hl]
        cases hlo : localAt st.fs.repl x with
        | none => exact ⟨now, fc, rfl⟩
        | some v =>
          cases v with
          | dirL a b =>
            rw [hlo] at hnd
            cases hnd
          | fileL mt' ct' c' =>
            dsimp only
            by_cases he : mt' = mt
            · rw [if_pos he]
              exact ⟨ct', c', by rw [he]⟩
            · rw [if_neg he]
              exact ⟨now, fc, rfl⟩
  have hcopy2 : copy_files_and_dirs now2 (one_pass now st) = one_pass now st := by
    unfold copy_files_and_dirs
    rw [h1]
    exact copyWalk_noop_size S now2 _ h1 h2 hw hsynced (sizeOf S + 1) S
      (Nat.lt_succ_self _) [] (treeLookup_nil S)
  show remove_files_and_dirs now2 (copy_files_and_dirs now2 (one_pass now st))
      = one_pass now st
  rw [hcopy2]
  unfold remove_files_and_dirs
  cases hr : (one_pass now st).fs.repl with
  | none => rfl
  | some t1 =>
    exact pruneWalk_noop_size S now2 _ h1 h2 h6 hsynced (sizeOf t1 + 1) t1
      (Nat.lt_succ_self _) []
      (by rw [hr, lookupR_some]; exact treeLookup_nil t1)

/-- Witness: a concrete source/replica pair; the second pass returns the
post-first-pass state unchanged. -/
theorem C2_second_pass_is_identity_witness :
    one_pass 4 (one_pass 3 (PassSt.init
      ⟨FsTree.dir 0 0 [("a", FsTree.file 5 1 "new"), ("d", FsTree.dir 2 2 [])],
       some (FsTree.dir 0 0 [("stale", FsTree.dir 7 7 [("x", FsTree.file 1 1 "g")])])⟩
      reliableSink))
    = one_pass 3 (PassSt.init
      ⟨FsTree.dir 0 0 [("a", FsTree.file 5 1 "new"), ("d", FsTree.dir 2 2 [])],
       some (FsTree.dir 0 0 [("stale", FsTree.dir 7 7 [("x", FsTree.file 1 1 "g")])])⟩
      reliableSink) :=
  C2_second_pass_is_identity 3 4 _ _ rfl rfl rfl rfl (by decide) (by decide)
    (by decide)

/-! Per-path characterization of the log lines of the two passes. -/

theorem treeLookup_child_none {S : FsTree} {p : Path} {dm dc : Int}
    {cs : List (String × FsTree)} (hp : treeLookup S p = some (.dir dm dc cs))
    {n : String} (hc : childGet cs n = none) :
    treeLookup S (p ++ [n]) = none := by
  rw [treeLookup_append, hp]
  show treeLookup (FsTree.dir dm dc cs) (n :: []) = none
  rw [treeLookup_dir_cons, hc]

theorem treeLookup_under_none {S : FsTree} {q : Path}
    (h : treeLookup S q = none) (a : Path) : treeLookup S (q ++ a) = none := by
  rw [treeLookup_append, h]
  rfl

theorem treeLookup_under_file {S : FsTree} {q : Path} {mt ct : Int} {c : String}
    (h : treeLookup S q = some (.file mt ct c)) (n : String) (a : Path) :
    treeLookup S (q ++ n :: a) = none := by
  rw [treeLookup_append, h]
  rfl

theorem mem_copyFileEvts {ro : Path → Option LocalNode} {p : Path} :
    ∀ {l : List (String × FsTree)} {e : Event}, e ∈ copyFileEvts ro p l →
    ∃ n, n ∈ fileNames l ∧ e.path = p ++ [n] := by
  intro l
  induction l with
  | nil =>
    intro e he
    cases he
  | cons ent rest ih =>
    obtain ⟨n, u⟩ := ent
    intro e he
    cases u with
    | dir a b cc =>
      simp only [copyFileEvts] at he
      obtain ⟨m, hm1, hm2⟩ := ih he
      refine ⟨m, ?_, hm2⟩
      rw [fileNames_cons]
      rw [if_pos (by rfl)]
      exact hm1
    | file mt ct c =>
      have hblk : ∀ e' : Event, e' ∈ (match ro (p ++ [n]) with
          | none => ([⟨.created_file, .source, p ++ [n], ct⟩] : List Event)
          | some (.fileL mt' _ _) =>
            if mt ≠ mt' then [⟨.modified_file, .source, p ++ [n], mt⟩] else []
          | some (.dirL _ _) => ([] : List Event)) → e'.path = p ++ [n] := by
        intro e'
        cases hro : ro (p ++ [n]) with
        | none =>
          dsimp only
          intro he'
          simp only [List.mem_singleton] at he'
          rw [he']
        | some v =>
          cases v with
          | fileL mt' ct' c' =>
            dsimp only
            by_cases hmt : mt ≠ mt'
            · rw [if_pos hmt]
              intro he'
              simp only [List.mem_singleton] at he'
              rw [he']
            · rw [if_neg hmt]
              intro he'
              cases he'
          | dirL a' b' =>
            dsimp only
            intro he'
            cases he'
      simp only [copyFileEvts] at he
      rcases List.mem_append.mp he with h1 | h2
      · exact ⟨n, mem_fileNames_of (List.mem_cons_self _ _) rfl, hblk e h1⟩
      · obtain ⟨m, hm1, hm2⟩ := ih h2
        refine ⟨m, ?_, hm2⟩
        rw [fileNames_cons, if_neg (by simp [isDirNode])]
        exact List.mem_cons_of_mem _ hm1

theorem mem_copyDirEvts {ro : Path → Option LocalNode} {now : Int} {p : Path} :
    ∀ {l : List (String × FsTree)} {e : Event}, e ∈ copyDirEvts ro now p l →
    ∃ n, n ∈ dirNames l ∧ e.path = p ++ [n] := by
  intro l
  induction l with
  | nil =>
    intro e he
    cases he
  | cons ent rest ih =>
    obtain ⟨n, u⟩ := ent
    intro e he
    cases u with
    | file mt ct c =>
      simp only [copyDirEvts] at he
      obtain ⟨m, hm1, hm2⟩ := ih he
      refine ⟨m, ?_, hm2⟩
      rw [dirNames_cons, if_neg (by simp [isDirNode])]
      exact hm1
    | dir a b cc =>
      have hblk : ∀ e' : Event, e' ∈ (match ro (p ++ [n]) with
          | none => ([⟨.created_dir, .replica, p ++ [n], now⟩] : List Event)
          | some _ => ([] : List Event)) → e'.path = p ++ [n] := by
        intro e'
        cases hro : ro (p ++ [n]) with
        | none =>
          dsimp only
          intro he'
          simp only [List.mem_singleton] at he'
          rw [he']
        | some v =>
          dsimp only
          intro he'
          cases he'
      simp only [copyDirEvts] at he
      rcases List.mem_append.mp he with h1 | h2
      · exact ⟨n, mem_dirNames_of (List.mem_cons_self _ _) rfl, hblk e h1⟩
      · obtain ⟨m, hm1, hm2⟩ := ih h2
        refine ⟨m, ?_, hm2⟩
        rw [dirNames_cons, if_pos (by rfl)]
        exact List.mem_cons_of_mem _ hm1

theorem copyEvts_paths_size (ro : Path → Option LocalNode) (now : Int) :
    ∀ (N : Nat) (t : FsTree), sizeOf t < N → ∀ (p : Path) (e : Event),
    e ∈ copyEvts ro now p t → underB p e.path = true ∧ e.path ≠ p := by
  intro N
  induction N with
  | zero =>
    intro t ht
    exact absurd ht (Nat.not_lt_zero _)
  | succ N ihN =>
    intro t ht p e he
    cases t with
    | file _ _ _ => cases he
    | dir dm dc cs =>
      simp only [copyEvts] at he
      rcases List.mem_append.mp he with h12 | h3
      · rcases List.mem_append.mp h12 with h1 | h2
        · obtain ⟨m, _, hm2⟩ := mem_copyFileEvts h1
          rw [hm2]
          exact ⟨underB_append p [m], ne_append_cons p m []⟩
        · obtain ⟨m, _, hm2⟩ := mem_copyDirEvts h2
          rw [hm2]
          exact ⟨underB_append p [m], ne_append_cons p m []⟩
      · have hkids : ∀ (l : List (String × FsTree)),
            (∀ n u, (n, u) ∈ l → sizeOf u < N) →
            e ∈ copyEvtsKids ro now p l →
            ∃ n a, e.path = p ++ n :: a := by
          intro l
          induction l with
          | nil =>
            intro _ hek
            cases hek
          | cons ent2 rest2 ihl =>
            obtain ⟨n, u⟩ := ent2
            intro hsz hek
            simp only [copyEvtsKids] at hek
            rcases List.mem_append.mp hek with hk1 | hk2
            · have hprop := ihN u (hsz n u (List.mem_cons_self _ _)) (p ++ [n]) e hk1
              obtain ⟨a, ha⟩ := underB_append_singleton_iff.mp hprop.1
              exact ⟨n, a, ha⟩
            · exact ihl (fun n' u' hm => hsz n' u' (List.mem_cons_of_mem _ hm)) hk2
        obtain ⟨n, a, ha⟩ := hkids cs
          (fun n u hm => by
            have := sizeOf_lt_of_mem_children hm dm dc
            omega)
          h3
        rw [ha]
        exact ⟨underB_append p (n :: a), ne_append_cons p n a⟩

theorem copyEvts_paths {ro : Path → Option LocalNode} {now : Int} {p : Path}
    {t : FsTree} {e : Event} (he : e ∈ copyEvts ro now p t) :
    underB p e.path = true ∧ e.path ≠ p :=
  copyEvts_paths_size ro now (sizeOf t + 1) t (Nat.lt_succ_self _) p e he

theorem copyEvtsKids_paths {ro : Path → Option LocalNode} {now : Int} :
    ∀ {l : List (String × FsTree)} {p : Path} {e : Event},
    e ∈ copyEvtsKids ro now p l →
    ∃ n u, (n, u) ∈ l ∧ underB (p ++ [n]) e.path = true ∧ e.path ≠ p ++ [n] := by
  intro l
  induction l with
  | nil =>
    intro p e he
    cases he
  | cons ent rest ih =>
    obtain ⟨n, u⟩ := ent
    intro p e he
    simp only [copyEvtsKids] at he
    rcases List.mem_append.mp he with h1 | h2
    · have hprop := copyEvts_paths h1
      exact ⟨n, u, List.mem_cons_self _ _, hprop.1, hprop.2⟩
    · obtain ⟨m, u', hm, hub, hne⟩ := ih h2
      exact ⟨m, u', List.mem_cons_of_mem _ hm, hub, hne⟩

theorem filter_eq_nil_of {α : Type} (q : α → Bool) :
    ∀ (l : List α), (∀ a ∈ l, q a = false) → l.filter q = [] := by
  intro l
  induction l with
  | nil =>
    intro _
    rfl
  | cons a rest ih =>
    intro h
    rw [List.filter_cons,
      if_neg (by rw [h a (List.mem_cons_self _ _)]; exact Bool.false_ne_true)]
    exact ih (fun a' hm => h a' (List.mem_cons_of_mem _ hm))

theorem filter_eq_self_of {α : Type} (q : α → Bool) :
    ∀ (l : List α), (∀ a ∈ l, q a = true) → l.filter q = l := by
  intro l
  induction l with
  | nil =>
    intro _
    rfl
  | cons a rest ih =>
    intro h
    rw [List.filter_cons, if_pos (h a (List.mem_cons_self _ _))]
    rw [ih (fun a' hm => h a' (List.mem_cons_of_mem _ hm))]

theorem copyFileEvts_filter_nil {ro : Path → Option LocalNode} {p : Path}
    {l : List (String × FsTree)} {x : Path}
    (h : ∀ m, m ∈ fileNames l → p ++ [m] ≠ x) :
    (copyFileEvts ro p l).filter (fun e => decide (e.path = x)) = [] := by
  refine filter_eq_nil_of _ _ (fun e he => ?_)
  obtain ⟨m, hm1, hm2⟩ := mem_copyFileEvts he
  rw [hm2]
  exact decide_eq_false (h m hm1)

theorem copyDirEvts_filter_nil {ro : Path → Option LocalNode} {now : Int}
    {p : Path} {l : List (String × FsTree)} {x : Path}
    (h : ∀ m, m ∈ dirNames l → p ++ [m] ≠ x) :
    (copyDirEvts ro now p l).filter (fun e => decide (e.path = x)) = [] := by
  refine filter_eq_nil_of _ _ (fun e he => ?_)
  obtain ⟨m, hm1, hm2⟩ := mem_copyDirEvts he
  rw [hm2]
  exact decide_eq_false (h m hm1)

theorem copyEvtsKids_filter_nil {ro : Path → Option LocalNode} {now : Int}
    {p : Path} {l : List (String × FsTree)} {x : Path}
    (h : ∀ n (u : FsTree), (n, u) ∈ l → underB (p ++ [n]) x = true →
      x ≠ p ++ [n] → False) :
    (copyEvtsKids ro now p l).filter (fun e => decide (e.path = x)) = [] := by
  refine filter_eq_nil_of _ _ (fun e he => ?_)
  obtain ⟨n, u, hm, hub, hne⟩ := copyEvtsKids_paths he
  by_cases hx : e.path = x
  · rw [hx] at hub hne
    exact (h n u hm hub hne).elim
  · exact decide_eq_false hx

theorem copyFileEvts_filter_eq {ro : Path → Option LocalNode} {p : Path}
    {mt ct : Int} {c : String} {n₀ : String} :
    ∀ {l : List (String × FsTree)}, (fileNames l).Nodup →
    (n₀, FsTree.file mt ct c) ∈ l →
    (copyFileEvts ro p l).filter (fun e => decide (e.path = p ++ [n₀])) =
      (match ro (p ++ [n₀]) with
       | none => ([⟨.created_file, .source, p ++ [n₀], ct⟩] : List Event)
       | some (.fileL mt' _ _) =>
         if mt ≠ mt' then [⟨.modified_file, .source, p ++ [n₀], mt⟩] else []
       | some (.dirL _ _) => ([] : List Event)) := by
  intro l
  induction l with
  | nil =>
    intro _ hm
    cases hm
  | cons ent rest ih =>
    obtain ⟨n, u⟩ := ent
    intro hnd hm
    cases u with
    | dir a b cc =>
      have hm' : (n₀, FsTree.file mt ct c) ∈ rest := by
        rcases List.mem_cons.mp hm with heq | hr
        · injection heq with h1 h2
          cases h2
        · exact hr
      have hnd' : (fileNames rest).Nodup := by
        rw [fileNames_cons, if_pos (by rfl)] at hnd
        exact hnd
      simp only [copyFileEvts]
      exact ih hnd' hm'
    | file mt₁ ct₁ c₁ =>
      have hnd2 := hnd
      rw [fileNames_cons, if_neg (by simp [isDirNode])] at hnd2
      have hnotin : n ∉ fileNames rest := (List.nodup_cons.mp hnd2).1
      have hnd' : (fileNames rest).Nodup := (List.nodup_cons.mp hnd2).2
      simp only [copyFileEvts, List.filter_append]
      by_cases hn : n = n₀
      · subst hn
        have hme : (n, FsTree.file mt ct c) = (n, FsTree.file mt₁ ct₁ c₁) := by
          rcases List.mem_cons.mp hm with heq | hr
          · exact heq
          · exact absurd (mem_fileNames_of hr rfl) hnotin
        injection hme with h1 h2
        injection h2 with h3 h4 h5
        subst h3
        subst h4
        subst h5
        have hrest : (copyFileEvts ro p rest).filter
            (fun e => decide (e.path = p ++ [n])) = [] := by
          refine copyFileEvts_filter_nil (fun m hmem heq => ?_)
          rw [append_singleton_inj heq] at hmem
          exact hnotin hmem
        rw [hrest, List.append_nil]
        refine filter_eq_self_of _ _ (fun e he => ?_)
        revert he
        cases hro : ro (p ++ [n]) with
        | none =>
          dsimp only
          intro he
          simp only [List.mem_singleton] at he
          rw [he]
          exact decide_eq_true rfl
        | some v =>
          cases v with
          | fileL mt' ct' c' =>
            dsimp only
            by_cases hmt : mt ≠ mt'
            · rw [if_pos hmt]
              intro he
              simp only [List.mem_singleton] at he
              rw [he]
              exact decide_eq_true rfl
            · rw [if_neg hmt]
              intro he
              cases he
          | dirL a' b' =>
            dsimp only
            intro he
            cases he
      · have hm' : (n₀, FsTree.file mt ct c) ∈ rest := by
          rcases List.mem_cons.mp hm with heq | hr
          · injection heq with h1 h2
            exact absurd h1.symm hn
          · exact hr
        have hhead : (List.filter (fun e => decide (e.path = p ++ [n₀]))
            (match ro (p ++ [n]) with
             | none => ([⟨.created_file, .source, p ++ [n], ct₁⟩] : List Event)
             | some (.fileL mt' _ _) =>
               if mt₁ ≠ mt' then [⟨.modified_file, .source, p ++ [n], mt₁⟩] else []
             | some (.dirL _ _) => ([] : List Event))) = [] := by
          refine filter_eq_nil_of _ _ (fun e he => ?_)
          have hpth : e.path = p ++ [n] := by
            revert he
            cases hro : ro (p ++ [n]) with
            | none =>
              dsimp only
              intro he
              simp only [List.mem_singleton] at he
              rw [he]
            | some v =>
              cases v with
              | fileL mt' ct' c' =>
                dsimp only
                by_cases hmt : mt₁ ≠ mt'
                · rw [if_pos hmt]
                  intro he
                  simp only [List.mem_singleton] at he
                  rw [he]
                · rw [if_neg hmt]
                  intro he
                  cases he
              | dirL a' b' =>
                dsimp only
                intro he
                cases he
          rw [hpth]
          exact decide_eq_false (fun hc => hn (append_singleton_inj hc))
        rw [hhead, List.nil_append]
        exact ih hnd' hm'

theorem copyDirEvts_filter_eq {ro : Path → Option LocalNode} {now : Int}
    {p : Path} {da db : Int} {dcc : List (String × FsTree)} {n₀ : String} :
    ∀ {l : List (String × FsTree)}, (dirNames l).Nodup →
    (n₀, FsTree.dir da db dcc) ∈ l →
    (copyDirEvts ro now p l).filter (fun e => decide (e.path = p ++ [n₀])) =
      (match ro (p ++ [n₀]) with
       | none => ([⟨.created_dir, .replica, p ++ [n₀], now⟩] : List Event)
       | some _ => ([] : List Event)) := by
  intro l
  induction l with
  | nil =>
    intro _ hm
    cases hm
  | cons ent rest ih =>
    obtain ⟨n, u⟩ := ent
    intro hnd hm
    cases u with
    | file a b cc =>
      have hm' : (n₀, FsTree.dir da db dcc) ∈ rest := by
        rcases List.mem_cons.mp hm with heq | hr
        · injection heq with h1 h2
          cases h2
        · exact hr
      have hnd' : (dirNames rest).Nodup := by
        rw [dirNames_cons, if_neg (by simp [isDirNode])] at hnd
        exact hnd
      simp only [copyDirEvts]
      exact ih hnd' hm'
    | dir a₁ b₁ cc₁ =>
      have hnd2 := hnd
      rw [dirNames_cons, if_pos (by rfl)] at hnd2
      have hnotin : n ∉ dirNames rest := (List.nodup_cons.mp hnd2).1
      have hnd' : (dirNames rest).Nodup := (List.nodup_cons.mp hnd2).2
      simp only [copyDirEvts, List.filter_append]
      by_cases hn : n = n₀
      · subst hn
        have hrest : (copyDirEvts ro now p rest).filter
            (fun e => decide (e.path = p ++ [n])) = [] := by
          refine copyDirEvts_filter_nil (fun m hmem heq => ?_)
          rw [append_singleton_inj heq] at hmem
          exact hnotin hmem
        rw [hrest, List.append_nil]
        refine filter_eq_self_of _ _ (fun e he => ?_)
        revert he
        cases hro : ro (p ++ [n]) with
        | none =>
          dsimp only
          intro he
          simp only [List.mem_singleton] at he
          rw [he]
          exact decide_eq_true rfl
        | some v =>
          dsimp only
          intro he
          cases he
      · have hm' : (n₀, FsTree.dir da db dcc) ∈ rest := by
          rcases List.mem_cons.mp hm with heq | hr
          · injection heq with h1 h2
            exact absurd h1.symm hn
          · exact hr
        have hhead : (List.filter (fun e => decide (e.path = p ++ [n₀]))
            (match ro (p ++ [n]) with
             | none => ([⟨.created_dir, .replica, p ++ [n], now⟩] : List Event)
             | some _ => ([] : List Event))) = [] := by
          refine filter_eq_nil_of _ _ (fun e he => ?_)
          have hpth : e.path = p ++ [n] := by
            revert he
            cases hro : ro (p ++ [n]) with
            | none =>
              dsimp only
              intro he
              simp only [List.mem_singleton] at he
              rw [he]
            | some v =>
              dsimp only
              intro he
              cases he
          rw [hpth]
          exact decide_eq_false (fun hc => hn (append_singleton_inj hc))
        rw [hhead, List.nil_append]
        exact ih hnd' hm'

/-- The log lines of a copy-pass walk that concern one fixed path strictly
below the walk root are exactly the per-path characterization
`copyEvtAt`: one created line for a missing file, one modified line for a
file with a differing timestamp, one created line for a missing
directory, nothing otherwise. -/
theorem copyEvts_filter_size {S : FsTree} (hw : wfB S = true)
    (ro : Path → Option LocalNode) (now : Int) :
    ∀ (N : Nat) (t : FsTree), sizeOf t < N → ∀ (p : Path),
    treeLookup S p = some t → isDirNode t = true →
    ∀ (n₀ : String) (a : Path),
    (copyEvts ro now p t).filter (fun e => decide (e.path = p ++ n₀ :: a)) =
      copyEvtAt S ro now (p ++ n₀ :: a) := by
  intro N
  induction N with
  | zero =>
    intro t ht
    exact absurd ht (Nat.not_lt_zero _)
  | succ N ihN =>
    intro t ht p hp hdir n₀ a
    cases t with
    | file _ _ _ => simp [isDirNode] at hdir
    | dir dm dc cs =>
      have hnd := nodup_children_of_wfB hw hp
      have hxunder : underB (p ++ [n₀]) (p ++ n₀ :: a) = true :=
        underB_append_singleton_iff.mpr ⟨a, rfl⟩
      simp only [copyEvts, List.filter_append]
      cases hcg : childGet cs n₀ with
      | none =>
        have hno : ∀ m (u : FsTree), (m, u) ∈ cs → m ≠ n₀ := by
          intro m u hm heq
          rw [heq] at hm
          rw [childGet_of_mem_nodup hnd hm] at hcg
          cases hcg
        have hf : (copyFileEvts ro p cs).filter
            (fun e => decide (e.path = p ++ n₀ :: a)) = [] := by
          refine copyFileEvts_filter_nil (fun m hmem heq => ?_)
          obtain ⟨u, hm, _⟩ := mem_fileNames hmem
          have h2 := append_cancel_left_path heq
          injection h2 with h3 h4
          exact hno m u hm h3
        have hd : (copyDirEvts ro now p cs).filter
            (fun e => decide (e.path = p ++ n₀ :: a)) = [] := by
          refine copyDirEvts_filter_nil (fun m hmem heq => ?_)
          obtain ⟨u, hm, _⟩ := mem_dirNames hmem
          have h2 := append_cancel_left_path heq
          injection h2 with h3 h4
          exact hno m u hm h3
        have hk : (copyEvtsKids ro now p cs).filter
            (fun e => decide (e.path = p ++ n₀ :: a)) = [] := by
          refine copyEvtsKids_filter_nil (fun m u hm hub hne => ?_)
          exact regions_disjoint (hno m u hm) hub hxunder
        rw [hf, hd, hk]
        have hlook : treeLookup S (p ++ n₀ :: a) = none := by
          rw [append_cons_eq p n₀ a]
          exact treeLookup_under_none (treeLookup_child_none hp hcg) a
        unfold copyEvtAt
        rw [hlook]
        rfl
      | some u =>
        have hmemu : (n₀, u) ∈ cs := childGet_mem hcg
        have hlooku : treeLookup S (p ++ [n₀]) = some u :=
          treeLookup_child hw hp n₀ u hmemu
        cases a with
        | nil =>
          have hk : (copyEvtsKids ro now p cs).filter
              (fun e => decide (e.path = p ++ [n₀])) = [] := by
            refine copyEvtsKids_filter_nil (fun m w hm hub hne => ?_)
            have hmn : m = n₀ := underB_singleton_singleton hub
            rw [hmn] at hne
            exact hne rfl
          cases u with
          | file fmt fct fc =>
            have hd : (copyDirEvts ro now p cs).filter
                (fun e => decide (e.path = p ++ [n₀])) = [] := by
              refine copyDirEvts_filter_nil (fun m hmem heq => ?_)
              obtain ⟨w, hm, hwdir⟩ := mem_dirNames hmem
              have h3 : m = n₀ := append_singleton_inj heq
              rw [h3] at hm
              rw [childGet_of_mem_nodup hnd hm] at hcg
              injection hcg with h4
              rw [h4] at hwdir
              simp [isDirNode] at hwdir
            rw [copyFileEvts_filter_eq (nodup_fileNames hnd) hmemu, hd, hk,
              List.append_nil, List.append_nil]
            unfold copyEvtAt
            rw [hlooku]
          | dir da db dcc =>
            have hf : (copyFileEvts ro p cs).filter
                (fun e => decide (e.path = p ++ [n₀])) = [] := by
              refine copyFileEvts_filter_nil (fun m hmem heq => ?_)
              obtain ⟨w, hm, hwfile⟩ := mem_fileNames hmem
              have h3 : m = n₀ := append_singleton_inj heq
              rw [h3] at hm
              rw [childGet_of_mem_nodup hnd hm] at hcg
              injection hcg with h4
              rw [h4] at hwfile
              simp [isDirNode] at hwfile
            rw [hf, copyDirEvts_filter_eq (nodup_dirNames hnd) hmemu, hk,
              List.append_nil, List.nil_append]
            unfold copyEvtAt
            rw [hlooku]
        | cons h₁ a' =>
          have hf : (copyFileEvts ro p cs).filter
              (fun e => decide (e.path = p ++ n₀ :: h₁ :: a')) = [] := by
            refine copyFileEvts_filter_nil (fun m hmem heq => ?_)
            have h2 := append_cancel_left_path heq
            injection h2 with h3 h4
            cases h4
          have hd : (copyDirEvts ro now p cs).filter
              (fun e => decide (e.path = p ++ n₀ :: h₁ :: a')) = [] := by
            refine copyDirEvts_filter_nil (fun m hmem heq => ?_)
            have h2 := append_cancel_left_path heq
            injection h2 with h3 h4
            cases h4
          have hkids : ∀ (l : List (String × FsTree)), (l.map (·.1)).Nodup →
              (n₀, u) ∈ l →
              (copyEvtsKids ro now p l).filter
                (fun e => decide (e.path = p ++ n₀ :: h₁ :: a')) =
              (copyEvts ro now (p ++ [n₀]) u).filter
                (fun e => decide (e.path = p ++ n₀ :: h₁ :: a')) := by
            intro l
            induction l with
            | nil =>
              intro _ hmem
              cases hmem
            | cons ent rest ihl =>
              obtain ⟨m, w⟩ := ent
              intro hndl hmem
              have hmn : m ∉ rest.map (·.1) := (List.nodup_cons.mp hndl).1
              have hndl' := (List.nodup_cons.mp hndl).2
              simp only [copyEvtsKids, List.filter_append]
              rcases List.mem_cons.mp hmem with heq | hmem'
              · injection heq with h1 h2
                subst h1
                subst h2
                have hrest : (copyEvtsKids ro now p rest).filter
                    (fun e => decide (e.path = p ++ n₀ :: h₁ :: a')) = [] := by
                  refine copyEvtsKids_filter_nil (fun m₂ w₂ hm₂ hub hne => ?_)
                  have hm₂n : m₂ ≠ n₀ := by
                    intro hq
                    rw [hq] at hm₂
                    exact hmn (List.mem_map.mpr ⟨(n₀, w₂), hm₂, rfl⟩)
                  exact regions_disjoint hm₂n hub
                    (underB_append_singleton_iff.mpr ⟨h₁ :: a', rfl⟩)
                rw [hrest, List.append_nil]
              · have hm_ne : m ≠ n₀ := by
                  intro hq
                  rw [hq] at hmn
                  exact hmn (List.mem_map.mpr ⟨(n₀, u), hmem', rfl⟩)
                have hhead : (copyEvts ro now (p ++ [m]) w).filter
                    (fun e => decide (e.path = p ++ n₀ :: h₁ :: a')) = [] := by
                  refine filter_eq_nil_of _ _ (fun e he => ?_)
                  by_cases hx : e.path = p ++ n₀ :: h₁ :: a'
                  · have hub := (copyEvts_paths he).1
                    rw [hx] at hub
                    exact (regions_disjoint hm_ne hub
                      (underB_append_singleton_iff.mpr ⟨h₁ :: a', rfl⟩)).elim
                  · exact decide_eq_false hx
                rw [hhead, List.nil_append]
                exact ihl hndl' hmem'
          rw [hf, hd, List.nil_append, List.nil_append, hkids cs hnd hmemu]
          cases u with
          | file fmt fct fc =>
            have hlookx : treeLookup S (p ++ n₀ :: h₁ :: a') = none := by
              rw [append_cons_eq p n₀ (h₁ :: a')]
              exact treeLookup_under_file hlooku h₁ a'
            unfold copyEvtAt
            rw [hlookx]
            rfl
          | dir da db dcc =>
            rw [append_cons_eq p n₀ (h₁ :: a')]
            exact ihN (FsTree.dir da db dcc)
              (by
                have := sizeOf_lt_of_mem_children hmemu dm dc
                omega)
              (p ++ [n₀]) hlooku rfl h₁ a'

theorem copyEvts_filter {S : FsTree} (hw : wfB S = true)
    (ro : Path → Option LocalNode) (now : Int) {t : FsTree} {p : Path}
    (hp : treeLookup S p = some t) (hdir : isDirNode t = true)
    (n₀ : String) (a : Path) :
    (copyEvts ro now p t).filter (fun e => decide (e.path = p ++ n₀ :: a)) =
      copyEvtAt S ro now (p ++ n₀ :: a) :=
  copyEvts_filter_size hw ro now (sizeOf t + 1) t (Nat.lt_succ_self _) p hp hdir n₀ a

theorem underB_deep_singleton_false (p : Path) (n₀ b₁ : String) (b₂ : Path)
    (m : String) : underB (p ++ n₀ :: b₁ :: b₂) (p ++ [m]) = false := by
  cases h : underB (p ++ n₀ :: b₁ :: b₂) (p ++ [m]) with
  | false => rfl
  | true =>
    obtain ⟨r', hr⟩ := (underB_iff _ _).mp h
    rw [List.append_assoc] at hr
    have h2 := append_cancel_left_path hr
    simp only [List.cons_append] at h2
    injection h2 with h3 h4
    cases h4

theorem mem_pruneFileEvts {es : Path → Bool} {now : Int} {p : Path} :
    ∀ {l : List (String × FsTree)} {e : Event}, e ∈ pruneFileEvts es now p l →
    ∃ n, n ∈ fileNames l ∧ e = ⟨.deleted_file, .source, p ++ [n], now⟩ ∧
      es (p ++ [n]) = false := by
  intro l
  induction l with
  | nil =>
    intro e he
    cases he
  | cons ent rest ih
  =>
    obtain ⟨n, u⟩ := ent
    intro e he
    cases u with
    | dir a b cc =>
      simp only [pruneFileEvts] at he
      obtain ⟨m, hm1, hm2, hm3⟩ := ih he
      refine ⟨m, ?_, hm2, hm3⟩
      rw [fileNames_cons, if_pos (by rfl)]
      exact hm1
    | file mt ct c =>
      simp only [pruneFileEvts] at he
      rcases List.mem_append.mp he with h1 | h2
      · by_cases hes : es (p ++ [n]) = true
        · rw [if_pos hes] at h1
          cases h1
        · rw [if_neg hes] at h1
          simp only [List.mem_singleton] at h1
          exact ⟨n, mem_fileNames_of (List.mem_cons_self _ _) rfl, h1,
            Bool.eq_false_iff.mpr hes⟩
      · obtain ⟨m, hm1, hm2, hm3⟩ := ih h2
        refine ⟨m, ?_, hm2, hm3⟩
        rw [fileNames_cons, if_neg (by simp [isDirNode])]
        exact List.mem_cons_of_mem _ hm1

theorem mem_pruneDirEvts {es : Path → Bool} {now : Int} {p : Path} :
    ∀ {l : List (String × FsTree)} {e : Event}, e ∈ pruneDirEvts es now p l →
    ∃ n, n ∈ dirNames l ∧ e = ⟨.deleted_dir, .replica, p ++ [n], now⟩ ∧
      es (p ++ [n]) = false := by
  intro l
  induction l with
  | nil =>
    intro e he
    cases he
  | cons ent rest ih =>
    obtain ⟨n, u⟩ := ent
    intro e he
    cases u with
    | file mt ct c =>
      simp only [pruneDirEvts] at he
      obtain ⟨m, hm1, hm2, hm3⟩ := ih he
      refine ⟨m, ?_, hm2, hm3⟩
      rw [dirNames_cons, if_neg (by simp [isDirNode])]
      exact hm1
    | dir a b cc =>
      simp only [pruneDirEvts] at he
      rcases List.mem_append.mp he with h1 | h2
      · by_cases hes : es (p ++ [n]) = true
        · rw [if_pos hes] at h1
          cases h1
        · rw [if_neg hes] at h1
          simp only [List.mem_singleton] at h1
          exact ⟨n, mem_dirNames_of (List.mem_cons_self _ _) rfl, h1,
            Bool.eq_false_iff.mpr hes⟩
      · obtain ⟨m, hm1, hm2, hm3⟩ := ih h2
        refine ⟨m, ?_, hm2, hm3⟩
        rw [dirNames_cons, if_pos (by rfl)]
        exact List.mem_cons_of_mem _ hm1

theorem pruneEvts_paths_size (es : Path → Bool) (now : Int) :
    ∀ (N : Nat) (t : FsTree), sizeOf t < N → ∀ (p : Path) (e : Event),
    e ∈ pruneEvts es now p t →
    underB p e.path = true ∧ e.path ≠ p ∧ es e.path = false := by
  intro N
  induction N with
  | zero =>
    intro t ht
    exact absurd ht (Nat.not_lt_zero _)
  | succ N ihN =>
    intro t ht p e he
    cases t with
    | file _ _ _ => cases he
    | dir dm dc cs =>
      simp only [pruneEvts] at he
      rcases List.mem_append.mp he with h12 | hdir
      rcases List.mem_append.mp h12 with hk | hfile
      · have hkids : ∀ (l : List (String × FsTree)),
            (∀ n u, (n, u) ∈ l → sizeOf u < N) →
            e ∈ pruneEvtsKids es now p l →
            (∃ n a, e.path = p ++ n :: a) ∧ es e.path = false := by
          intro l
          induction l with
          | nil =>
            intro _ hek
            cases hek
          | cons ent2 rest2 ihl =>
            obtain ⟨n, u⟩ := ent2
            intro hsz hek
            simp only [pruneEvtsKids] at hek
            rcases List.mem_append.mp hek with hk1 | hk2
            · have hprop := ihN u (hsz n u (List.mem_cons_self _ _)) (p ++ [n]) e hk1
              obtain ⟨a, ha⟩ := underB_append_singleton_iff.mp hprop.1
              exact ⟨⟨n, a, ha⟩, hprop.2.2⟩
            · exact ihl (fun n' u' hm => hsz n' u' (List.mem_cons_of_mem _ hm)) hk2
        obtain ⟨⟨n, a, ha⟩, hesf⟩ := hkids cs
          (fun n u hm => by
            have := sizeOf_lt_of_mem_children hm dm dc
            omega)
          hk
        refine ⟨?_, ?_, hesf⟩
        · rw [ha]
          exact underB_append p (n :: a)
        · rw [ha]
          exact ne_append_cons p n a
      · obtain ⟨m, _, hm2, hm3⟩ := mem_pruneFileEvts hfile
        subst hm2
        exact ⟨underB_append p [m], ne_append_cons p m [], hm3⟩
      · obtain ⟨m, _, hm2, hm3⟩ := mem_pruneDirEvts hdir
        subst hm2
        exact ⟨underB_append p [m], ne_append_cons p m [], hm3⟩

theorem pruneEvts_paths {es : Path → Bool} {now : Int} {p : Path}
    {t : FsTree} {e : Event} (he : e ∈ pruneEvts es now p t) :
    underB p e.path = true ∧ e.path ≠ p ∧ es e.path = false :=
  pruneEvts_paths_size es now (sizeOf t + 1) t (Nat.lt_succ_self _) p e he

theorem pruneEvtsKids_paths {es : Path → Bool} {now : Int} :
    ∀ {l : List (String × FsTree)} {p : Path} {e : Event},
    e ∈ pruneEvtsKids es now p l →
    ∃ n u, (n, u) ∈ l ∧ underB (p ++ [n]) e.path = true := by
  intro l
  induction l with
  | nil =>
    intro p e he
    cases he
  | cons ent rest ih =>
    obtain ⟨n, u⟩ := ent
    intro p e he
    simp only [pruneEvtsKids] at he
    rcases List.mem_append.mp he with h1 | h2
    · exact ⟨n, u, List.mem_cons_self _ _, (pruneEvts_paths h1).1⟩
    · obtain ⟨m, u', hm, hub⟩ := ih h2
      exact ⟨m, u', List.mem_cons_of_mem _ hm, hub⟩

theorem pruneDirEvts_filter_base {es : Path → Bool} {now : Int} {p : Path}
    {n₀ : String} {da db : Int} {dcc : List (String × FsTree)} :
    ∀ {l : List (String × FsTree)}, (dirNames l).Nodup →
    (n₀, FsTree.dir da db dcc) ∈ l →
    (pruneDirEvts es now p l).filter (fun e => underB (p ++ [n₀]) e.path) =
      (if es (p ++ [n₀]) then []
       else [⟨.deleted_dir, .replica, p ++ [n₀], now⟩]) := by
  intro l
  induction l with
  | nil =>
    intro _ hm
    cases hm
  | cons ent rest ih =>
    obtain ⟨n, u⟩ := ent
    intro hnd hm
    cases u with
    | file a b cc =>
      have hm' : (n₀, FsTree.dir da db dcc) ∈ rest := by
        rcases List.mem_cons.mp hm with heq | hr
        · injection heq with h1 h2
          cases h2
        · exact hr
      have hnd' : (dirNames rest).Nodup := by
        rw [dirNames_cons, if_neg (by simp [isDirNode])] at hnd
        exact hnd
      simp only [pruneDirEvts]
      exact ih hnd' hm'
    | dir a₁ b₁ cc₁ =>
      have hnd2 := hnd
      rw [dirNames_cons, if_pos (by rfl)] at hnd2
      have hnotin : n ∉ dirNames rest := (List.nodup_cons.mp hnd2).1
      have hnd' : (dirNames rest).Nodup := (List.nodup_cons.mp hnd2).2
      simp only [pruneDirEvts, List.filter_append]
      by_cases hn : n = n₀
      · subst hn
        have hrest : (pruneDirEvts es now p rest).filter
            (fun e => underB (p ++ [n]) e.path) = [] := by
          refine filter_eq_nil_of _ _ (fun e he => ?_)
          obtain ⟨m, hm1, hm2, _⟩ := mem_pruneDirEvts he
          subst hm2
          refine Bool.eq_false_iff.mpr (fun htr => ?_)
          rw [underB_singleton_singleton htr] at hnotin
          exact hnotin hm1
        have hhead : (List.filter (fun e => underB (p ++ [n]) e.path)
            (if es (p ++ [n]) then ([] : List Event)
             else [⟨.deleted_dir, .replica, p ++ [n], now⟩])) =
            (if es (p ++ [n]) then ([] : List Event)
             else [⟨.deleted_dir, .replica, p ++ [n], now⟩]) := by
          by_cases hes : es (p ++ [n]) = true
          · rw [if_pos hes]
            rfl
          · rw [if_neg hes]
            simp [List.filter, underB_refl]
        rw [hrest, hhead, List.append_nil]
      · have hm' : (n₀, FsTree.dir da db dcc) ∈ rest := by
          rcases List.mem_cons.mp hm with heq | hr
          · injection heq with h1 h2
            exact absurd h1.symm hn
          · exact hr
        have hpred : underB (p ++ [n₀]) (p ++ [n]) = false :=
          Bool.eq_false_iff.mpr (fun htr => hn (underB_singleton_singleton htr).symm)
        have hhead : (List.filter (fun e => underB (p ++ [n₀]) e.path)
            (if es (p ++ [n]) then ([] : List Event)
             else [⟨.deleted_dir, .replica, p ++ [n], now⟩])) = [] := by
          by_cases hes : es (p ++ [n]) = true
          · rw [if_pos hes]
            rfl
          · rw [if_neg hes]
            simp [List.filter, hpred]
        rw [hhead, List.nil_append]
        exact ih hnd' hm'

/-- Restriction of the prune-pass log lines to a subtree region: the lines
of a prune walk over a replica tree whose paths fall inside the region of
a directory strictly below the walk root are exactly the lines of the walk
over that directory's subtree, followed by the directory's own deletion
line (present here because the source-side counterpart is absent). -/
theorem pruneEvts_filter_region {es : Path → Bool} {now : Int}
    {r : Option FsTree} (hwf : wfP r) :
    ∀ (rest : Path), rest ≠ [] → ∀ (p : Path) (t : FsTree),
    lookupR r p = some t →
    ∀ (u : FsTree), treeLookup t rest = some u → isDirNode u = true →
    es (p ++ rest) = false →
    (pruneEvts es now p t).filter (fun e => underB (p ++ rest) e.path) =
      pruneEvts es now (p ++ rest) u ++
        [⟨.deleted_dir, .replica, p ++ rest, now⟩] := by
  intro rest
  induction rest with
  | nil =>
    intro h
    exact absurd rfl h
  | cons n₀ b ih =>
    intro _ p t hpt u hlu hud hes
    cases t with
    | file mt ct c => simp [treeLookup] at hlu
    | dir dm dc cs =>
      have hw : ∃ w, childGet cs n₀ = some w ∧ treeLookup w b = some u := by
        rw [treeLookup_dir_cons] at hlu
        revert hlu
        cases hc : childGet cs n₀ with
        | none =>
          dsimp only
          intro hlu
          exact Option.noConfusion hlu
        | some w =>
          dsimp only
          intro hlu
          exact ⟨w, rfl, hlu⟩
      obtain ⟨w, hc, hwb⟩ := hw
      have hmemw : (n₀, w) ∈ cs := childGet_mem hc
      have hnd : (cs.map (·.1)).Nodup := by
        refine hwf p _ ?_
        rw [listdirR_eq, hpt]
      have hqx : underB (p ++ [n₀]) (p ++ n₀ :: b) = true :=
        underB_append_singleton_iff.mpr ⟨b, rfl⟩
      have hkids : ∀ (l : List (String × FsTree)), (l.map (·.1)).Nodup →
          (n₀, w) ∈ l →
          (pruneEvtsKids es now p l).filter
            (fun e => underB (p ++ n₀ :: b) e.path) =
          (pruneEvts es now (p ++ [n₀]) w).filter
            (fun e => underB (p ++ n₀ :: b) e.path) := by
        intro l
        induction l with
        | nil =>
          intro _ hmem
          cases hmem
        | cons ent rest2 ihl =>
          obtain ⟨m, v⟩ := ent
          intro hndl hmem
          have hmn : m ∉ rest2.map (·.1) := (List.nodup_cons.mp hndl).1
          have hndl' := (List.nodup_cons.mp hndl).2
          simp only [pruneEvtsKids, List.filter_append]
          rcases List.mem_cons.mp hmem with heq | hmem'
          · injection heq with h1 h2
            subst h1
            subst h2
            have hrest : (pruneEvtsKids es now p rest2).filter
                (fun e => underB (p ++ n₀ :: b) e.path) = [] := by
              refine filter_eq_nil_of _ _ (fun e he => ?_)
              obtain ⟨m₂, w₂, hm₂, hub⟩ := pruneEvtsKids_paths he
              have hm₂n : m₂ ≠ n₀ := fun hq => by
                rw [hq] at hm₂
                exact hmn (List.mem_map.mpr ⟨(n₀, w₂), hm₂, rfl⟩)
              refine Bool.eq_false_iff.mpr (fun htr => ?_)
              exact regions_disjoint hm₂n hub (underB_trans hqx htr)
            rw [hrest, List.append_nil]
          · have hm_ne : m ≠ n₀ := fun hq => by
              rw [hq] at hmn
              exact hmn (List.mem_map.mpr ⟨(n₀, w), hmem', rfl⟩)
            have hhead : (pruneEvts es now (p ++ [m]) v).filter
                (fun e => underB (p ++ n₀ :: b) e.path) = [] := by
              refine filter_eq_nil_of _ _ (fun e he => ?_)
              have hub := (pruneEvts_paths he).1
              refine Bool.eq_false_iff.mpr (fun htr => ?_)
              exact regions_disjoint hm_ne hub (underB_trans hqx htr)
            rw [hhead, List.nil_append]
            exact ihl hndl' hmem'
      have hfile : (pruneFileEvts es now p cs).filter
          (fun e => underB (p ++ n₀ :: b) e.path) = [] := by
        refine filter_eq_nil_of _ _ (fun e he => ?_)
        obtain ⟨m, hm1, hm2, _⟩ := mem_pruneFileEvts he
        subst hm2
        cases b with
        | nil =>
          refine Bool.eq_false_iff.mpr (fun htr => ?_)
          have hmn₀ : n₀ = m := underB_singleton_singleton htr
          rw [← hmn₀] at hm1
          obtain ⟨v, hv, hvf⟩ := mem_fileNames hm1
          rw [childGet_of_mem_nodup hnd hv] at hc
          injection hc with h4
          rw [h4] at hvf
          rw [treeLookup_nil] at hwb
          injection hwb with h5
          rw [h5] at hvf
          rw [hvf] at hud
          cases hud
        | cons b₁ b₂ =>
          exact underB_deep_singleton_false p n₀ b₁ b₂ m
      cases b with
      | nil =>
        rw [treeLookup_nil] at hwb
        injection hwb with h5
        subst h5
        obtain ⟨da, db, dcc, hwshape⟩ : ∃ a b cc, w = FsTree.dir a b cc := by
          cases w with
          | dir a b cc => exact ⟨a, b, cc, rfl⟩
          | file _ _ _ => simp [isDirNode] at hud
        subst hwshape
        have hdir : (pruneDirEvts es now p cs).filter
            (fun e => underB (p ++ [n₀]) e.path) =
            (if es (p ++ [n₀]) then []
             else [⟨.deleted_dir, .replica, p ++ [n₀], now⟩]) :=
          pruneDirEvts_filter_base (nodup_dirNames hnd) hmemw
        have hself : (pruneEvts es now (p ++ [n₀]) (FsTree.dir da db dcc)).filter
            (fun e => underB (p ++ [n₀]) e.path) =
            pruneEvts es now (p ++ [n₀]) (FsTree.dir da db dcc) := by
          refine filter_eq_self_of _ _ (fun e he => ?_)
          exact (pruneEvts_paths he).1
        simp only [pruneEvts, List.filter_append]
        rw [hkids cs hnd hmemw, hself, hfile, hdir,
          if_neg (by rw [hes]; exact Bool.false_ne_true), List.append_nil]
        rfl
      | cons b₁ b₂ =>
        have hdir : (pruneDirEvts es now p cs).filter
            (fun e => underB (p ++ n₀ :: b₁ :: b₂) e.path) = [] := by
          refine filter_eq_nil_of _ _ (fun e he => ?_)
          obtain ⟨m, _, hm2, _⟩ := mem_pruneDirEvts he
          subst hm2
          exact underB_deep_singleton_false p n₀ b₁ b₂ m
        have hrec := ih (List.cons_ne_nil _ _) (p ++ [n₀]) w
          (lookupR_child hpt hc) u hwb hud
          (by rw [← append_cons_eq p n₀ (b₁ :: b₂)]; exact hes)
        simp only [pruneEvts, List.filter_append]
        rw [hkids cs hnd hmemw, hfile, hdir, List.append_nil, List.append_nil]
        rw [append_cons_eq p n₀ (b₁ :: b₂)]
        exact hrec

/-- The log lines of one complete pass on a healthy state: the copy-pass
lines computed against the entry replica view, then the prune-pass lines
computed over the post-copy replica tree with the static source-existence
test. -/
theorem one_pass_events (S : FsTree) (now : Int) (st : PassSt)
    (hsrc : st.fs.src = S) (herr : st.errored = false)
    (hsink : st.sinkFails = reliableSink) (hSD : isDirNode S = true)
    (hw : wfB S = true) (hwf : wfP st.fs.repl)
    (hcomp : ∀ x, compatAt S st.fs.repl x) :
    ∃ t₁ : FsTree,
      (copy_files_and_dirs now st).fs.repl = some t₁ ∧
      (∀ x, localAt (some t₁) x = copyLocal S now (localAt st.fs.repl x) x) ∧
      wfP (some t₁) ∧
      (one_pass now st).events =
        st.events ++ copyEvts (localAt st.fs.repl) now [] S
          ++ pruneEvts (existsSB S) now [] t₁ := by
  have hcf : copy_files_and_dirs now st =
      (walkTopDown [] S).foldl (copyTriple now) st := by
    unfold copy_files_and_dirs
    rw [hsrc]
  obtain ⟨c1, c2, c3, c4, c5, c6, c7, c8, c9⟩ :=
    copyWalk_spec_size (sizeOf S + 1) S now hw S (Nat.lt_succ_self _) [] st
      hsrc herr hsink (treeLookup_nil S) hSD (Or.inl rfl) hcomp hwf
  obtain ⟨dm, dc, cs, hSdir⟩ := (isDirO_iff (some S)).mp (by
    cases S with
    | file _ _ _ => simp [isDirNode] at hSD
    | dir _ _ _ => rfl)
  have hmidroot : localAt ((walkTopDown [] S).foldl (copyTriple now) st).fs.repl []
      = copyLocal S now (localAt st.fs.repl []) [] := by
    rw [c5 [], if_pos (underB_nil_left [])]
  have hmidroot2 : ∃ v, localAt ((walkTopDown [] S).foldl
      (copyTriple now) st).fs.repl [] = some v := by
    rw [hmidroot]
    have hlkS : treeLookup S [] = some (FsTree.dir dm dc cs) := by
      rw [treeLookup_nil]
      exact hSdir
    have hiso := copyLocal_isSome_of_src hlkS now (localAt st.fs.repl [])
    cases hco : copyLocal S now (localAt st.fs.repl []) [] with
    | none =>
      rw [hco] at hiso
      cases hiso
    | some v => exact ⟨v, rfl⟩
  obtain ⟨v, hv⟩ := hmidroot2
  obtain ⟨t₁, ht₁⟩ := repl_some_of_localAt hv
  have hrf : one_pass now st =
      (walkBottomUp [] t₁).foldl (pruneTriple now)
        ((walkTopDown [] S).foldl (copyTriple now) st) := by
    unfold one_pass remove_files_and_dirs
    rw [hcf, ht₁]
  obtain ⟨p1, p2, p3, p4, p5, p6, p7, p7b, p8⟩ :=
    pruneWalk_spec_size (sizeOf t₁ + 1) S now t₁ (Nat.lt_succ_self _) []
      ((walkTopDown [] S).foldl (copyTriple now) st)
      c1 c2 c3
      (fun x => by rw [List.nil_append, ht₁])
      (fun x => by rw [List.nil_append, ht₁]; rfl)
      c8
  refine ⟨t₁, by rw [hcf]; exact ht₁, ?_, by rw [← ht₁]; exact c8, ?_⟩
  · intro x
    rw [← ht₁, c5 x, if_pos (underB_nil_left x)]
  · rw [hrf, p6, c6]

/-- C3 (corrected): a non-root directory of the source that is absent from
the replica is created by the pass and reported with exactly one
`Folder ... was created` line at its path — but the replica root itself,
when absent at the start of the pass, is created by the `os.makedirs` call
at lines 66-67 silently: the pass emits no line whose path is the root,
so not every directory the pass creates is reported. -/
theorem C3_created_dirs_logged_except_root (now : Int) (st : PassSt) (S : FsTree)
    (hsrc : st.fs.src = S) (herr : st.errored = false)
    (hsink : st.sinkFails = reliableSink) (hSD : isDirNode S = true)
    (hw : wfB S = true) (hwfr : wfO st.fs.repl = true)
    (hcomp : kindCompatO S st.fs.repl = true) (hev : st.events = []) :
    (∀ (n₀ : String) (a : Path) (dm dc : Int) (dcs : List (String × FsTree)),
      treeLookup S (n₀ :: a) = some (.dir dm dc dcs) →
      localAt st.fs.repl (n₀ :: a) = none →
      (one_pass now st).events.filter (fun e => decide (e.path = n₀ :: a)) =
        [⟨.created_dir, .replica, n₀ :: a, now⟩] ∧
      isDirL (localAt (one_pass now st).fs.repl (n₀ :: a)) = true) ∧
    (localAt st.fs.repl [] = none →
      (localAt (one_pass now st).fs.repl []).isSome = true ∧
      (one_pass now st).events.filter (fun e => decide (e.path = ([] : Path))) = []) := by
  obtain ⟨t₁, ht₁, hloc1, hwf1, hevts⟩ :=
    one_pass_events S now st hsrc herr hsink hSD hw (wfP_of_wfO hwfr)
      (compatAt_of_kindCompatO hcomp)
  obtain ⟨g1, g2, g3, g4, g5, g6⟩ :=
    one_pass_localAt S now st hsrc herr hsink hSD hw (wfP_of_wfO hwfr)
      (compatAt_of_kindCompatO hcomp)
  constructor
  · intro n₀ a dm dc dcs hx hnone
    have hex : existsSB S (n₀ :: a) = true := by
      unfold existsSB
      rw [hx]
      rfl
    constructor
    · have hc := copyEvts_filter hw (localAt st.fs.repl) now
        (treeLookup_nil S) hSD n₀ a
      simp only [List.nil_append] at hc
      have hval : copyEvtAt S (localAt st.fs.repl) now (n₀ :: a) =
          [⟨.created_dir, .replica, n₀ :: a, now⟩] := by
        unfold copyEvtAt
        rw [hx]
        dsimp only
        rw [hnone]
      have hp : (pruneEvts (existsSB S) now [] t₁).filter
          (fun e => decide (e.path = n₀ :: a)) = [] := by
        refine filter_eq_nil_of _ _ (fun e he => ?_)
        have hesf := (pruneEvts_paths he).2.2
        refine decide_eq_false (fun hc2 => ?_)
        rw [hc2, hex] at hesf
        cases hesf
      rw [hevts, hev]
      simp only [List.nil_append, List.filter_append]
      rw [hc, hval, hp, List.append_nil]
    · rw [g5 (n₀ :: a), if_pos hex]
      refine isDirL_copyLocal (by rw [hx]; rfl) ?_
      rw [hnone]
      rfl
  · intro hnone
    constructor
    · rw [g5 [], if_pos (existsSB_nil S)]
      refine isSome_of_isDirL ?_
      refine isDirL_copyLocal ?_ (by rw [hnone]; rfl)
      rw [treeLookup_nil]
      cases S with
      | file _ _ _ => simp [isDirNode] at hSD
      | dir _ _ _ => rfl
    · have hcnil : (copyEvts (localAt st.fs.repl) now [] S).filter
          (fun e => decide (e.path = ([] : Path))) = [] := by
        refine filter_eq_nil_of _ _ (fun e he => ?_)
        exact decide_eq_false (copyEvts_paths he).2
      have hpnil : (pruneEvts (existsSB S) now [] t₁).filter
          (fun e => decide (e.path = ([] : Path))) = [] := by
        refine filter_eq_nil_of _ _ (fun e he => ?_)
        exact decide_eq_false (pruneEvts_paths he).2.1
      rw [hevts, hev]
      simp only [List.nil_append, List.filter_append]
      rw [hcnil, hpnil, List.append_nil]

/-- Witness for C3: a source with one directory entry, an absent replica;
the pass logs exactly one created line for the non-root directory and
creates the root silently. -/
theorem C3_created_dirs_logged_except_root_witness :
    ((one_pass 5 (PassSt.init ⟨FsTree.dir 0 0 [("d", FsTree.dir 2 3 [])], none⟩
        reliableSink)).events.filter (fun e => decide (e.path = ["d"])) =
      [⟨.created_dir, .replica, ["d"], 5⟩] ∧
     isDirL (localAt (one_pass 5 (PassSt.init
        ⟨FsTree.dir 0 0 [("d", FsTree.dir 2 3 [])], none⟩
        reliableSink)).fs.repl ["d"]) = true) ∧
    ((localAt (one_pass 5 (PassSt.init
        ⟨FsTree.dir 0 0 [("d", FsTree.dir 2 3 [])], none⟩
        reliableSink)).fs.repl []).isSome = true ∧
     (one_pass 5 (PassSt.init ⟨FsTree.dir 0 0 [("d", FsTree.dir 2 3 [])], none⟩
        reliableSink)).events.filter (fun e => decide (e.path = ([] : Path))) = []) := by
  have h := C3_created_dirs_logged_except_root 5
    (PassSt.init ⟨FsTree.dir 0 0 [("d", FsTree.dir 2 3 [])], none⟩ reliableSink)
    (FsTree.dir 0 0 [("d", FsTree.dir 2 3 [])])
    rfl rfl rfl rfl (by decide) (by decide) (by decide) rfl
  exact ⟨h.1 "d" [] 2 3 [] (by decide) (by decide), h.2 (by decide)⟩

/-- C4: change detection for an existing replica file is
modification-timestamp equality only.  If the timestamps differ the file
is overwritten (content and timestamp taken from the source, even when the
contents were already equal) and exactly one `Modified` line is emitted at
its path; if the timestamps are equal the replica file is left untouched
(even when the contents differ) and no line mentions its path. -/
theorem C4_mtime_only_change_detection (now : Int) (st : PassSt) (S : FsTree)
    (hsrc : st.fs.src = S) (herr : st.errored = false)
    (hsink : st.sinkFails = reliableSink) (hSD : isDirNode S = true)
    (hw : wfB S = true) (hwfr : wfO st.fs.repl = true)
    (hcomp : kindCompatO S st.fs.repl = true) (hev : st.events = [])
    (n₀ : String) (a : Path) (mt ct : Int) (c : String)
    (mt' ct' : Int) (c' : String)
    (hx : treeLookup S (n₀ :: a) = some (.file mt ct c))
    (hr : localAt st.fs.repl (n₀ :: a) = some (.fileL mt' ct' c')) :
    localAt (one_pass now st).fs.repl (n₀ :: a) =
      (if mt' = mt then some (.fileL mt' ct' c') else some (.fileL mt now c)) ∧
    (one_pass now st).events.filter (fun e => decide (e.path = n₀ :: a)) =
      (if mt ≠ mt' then [⟨.modified_file, .source, n₀ :: a, mt⟩] else []) := by
  obtain ⟨t₁, ht₁, hloc1, hwf1, hevts⟩ :=
    one_pass_events S now st hsrc herr hsink hSD hw (wfP_of_wfO hwfr)
      (compatAt_of_kindCompatO hcomp)
  obtain ⟨g1, g2, g3, g4, g5, g6⟩ :=
    one_pass_localAt S now st hsrc herr hsink hSD hw (wfP_of_wfO hwfr)
      (compatAt_of_kindCompatO hcomp)
  have hex : existsSB S (n₀ :: a) = true := by
    unfold existsSB
    rw [hx]
    rfl
  constructor
  · rw [g5 (n₀ :: a), if_pos hex]
    unfold copyLocal
    rw [hx]
    dsimp only
    rw [hr]
  · have hc := copyEvts_filter hw (localAt st.fs.repl) now
      (treeLookup_nil S) hSD n₀ a
    simp only [List.nil_append] at hc
    have hval : copyEvtAt S (localAt st.fs.repl) now (n₀ :: a) =
        (if mt ≠ mt' then [⟨.modified_file, .source, n₀ :: a, mt⟩] else []) := by
      unfold copyEvtAt
      rw [hx]
      dsimp only
      rw [hr]
    have hp : (pruneEvts (existsSB S) now [] t₁).filter
        (fun e => decide (e.path = n₀ :: a)) = [] := by
      refine filter_eq_nil_of _ _ (fun e he => ?_)
      have hesf := (pruneEvts_paths he).2.2
      refine decide_eq_false (fun hc2 => ?_)
      rw [hc2, hex] at hesf
      cases hesf
    rw [hevts, hev]
    simp only [List.nil_append, List.filter_append]
    rw [hc, hval, hp, List.append_nil]

/-- Witness for C4: the file `f` (source mtime 5, replica mtime 3, equal
contents) is overwritten with one modified line; its sibling `g` (equal
mtimes, different contents) is untouched with no line. -/
theorem C4_mtime_only_change_detection_witness :
    (localAt (one_pass 9 (PassSt.init
        ⟨FsTree.dir 0 0 [("f", FsTree.file 5 1 "same"), ("g", FsTree.file 2 2 "new")],
         some (FsTree.dir 0 0 [("f", FsTree.file 3 4 "same"),
           ("g", FsTree.file 2 9 "old")])⟩
        reliableSink)).fs.repl ["f"] =
      (if (3 : Int) = 5 then some (.fileL 3 4 "same") else some (.fileL 5 9 "same")) ∧
     (one_pass 9 (PassSt.init
        ⟨FsTree.dir 0 0 [("f", FsTree.file 5 1 "same"), ("g", FsTree.file 2 2 "new")],
         some (FsTree.dir 0 0 [("f", FsTree.file 3 4 "same"),
           ("g", FsTree.file 2 9 "old")])⟩
        reliableSink)).events.filter (fun e => decide (e.path = ["f"])) =
      (if (5 : Int) ≠ 3 then [⟨.modified_file, .source, ["f"], 5⟩] else [])) ∧
    (localAt (one_pass 9 (PassSt.init
        ⟨FsTree.dir 0 0 [("f", FsTree.file 5 1 "same"), ("g", FsTree.file 2 2 "new")],
         some (FsTree.dir 0 0 [("f", FsTree.file 3 4 "same"),
           ("g", FsTree.file 2 9 "old")])⟩
        reliableSink)).fs.repl ["g"] =
      (if (2 : Int) = 2 then some (.fileL 2 9 "old") else some (.fileL 2 9 "new")) ∧
     (one_pass 9 (PassSt.init
        ⟨FsTree.dir 0 0 [("f", FsTree.file 5 1 "same"), ("g", FsTree.file 2 2 "new")],
         some (FsTree.dir 0 0 [("f", FsTree.file 3 4 "same"),
           ("g", FsTree.file 2 9 "old")])⟩
        reliableSink)).events.filter (fun e => decide (e.path = ["g"])) =
      (if (2 : Int) ≠ 2 then [⟨.modified_file, .source, ["g"], 2⟩] else [])) := by
  constructor
  · exact C4_mtime_only_change_detection 9
      (PassSt.init
        ⟨FsTree.dir 0 0 [("f", FsTree.file 5 1 "same"), ("g", FsTree.file 2 2 "new")],
         some (FsTree.dir 0 0 [("f", FsTree.file 3 4 "same"),
           ("g", FsTree.file 2 9 "old")])⟩
        reliableSink)
      (FsTree.dir 0 0 [("f", FsTree.file 5 1 "same"), ("g", FsTree.file 2 2 "new")])
      rfl rfl rfl rfl (by decide) (by decide) (by decide) rfl
      "f" [] 5 1 "same" 3 4 "same" (by decide) (by decide)
  · exact C4_mtime_only_change_detection 9
      (PassSt.init
        ⟨FsTree.dir 0 0 [("f", FsTree.file 5 1 "same"), ("g", FsTree.file 2 2 "new")],
         some (FsTree.dir 0 0 [("f", FsTree.file 3 4 "same"),
           ("g", FsTree.file 2 9 "old")])⟩
        reliableSink)
      (FsTree.dir 0 0 [("f", FsTree.file 5 1 "same"), ("g", FsTree.file 2 2 "new")])
      rfl rfl rfl rfl (by decide) (by decide) (by decide) rfl
      "g" [] 2 2 "new" 2 9 "old" (by decide) (by decide)

/-- C5: deletion cascade in one prune pass.  For a replica directory
containing exactly one file, with no source counterpart, a single run of
`remove_files_and_dirs` deletes the file, then removes the directory
itself, and the lines it emits inside that subtree's region are exactly
two deletion lines, file first, directory second. -/
theorem C5_deletion_cascade (now : Int) (st : PassSt) (S : FsTree)
    (q : Path) (fn : String) (dm dc fmt fct : Int) (fc : String)
    (hsrc : st.fs.src = S) (herr : st.errored = false)
    (hsink : st.sinkFails = reliableSink)
    (hwfr : wfO st.fs.repl = true) (hev : st.events = [])
    (hqne : q ≠ [])
    (hqd : lookupR st.fs.repl q = some (.dir dm dc [(fn, .file fmt fct fc)]))
    (hmiss : existsSB S q = false) :
    localAt (remove_files_and_dirs now st).fs.repl q = none ∧
    localAt (remove_files_and_dirs now st).fs.repl (q ++ [fn]) = none ∧
    (remove_files_and_dirs now st).events.filter (fun e => underB q e.path) =
      [⟨.deleted_file, .source, q ++ [fn], now⟩,
       ⟨.deleted_dir, .replica, q, now⟩] := by
  obtain ⟨t₁, hrep⟩ : ∃ t₁, st.fs.repl = some t₁ := by
    cases hr : st.fs.repl with
    | none =>
      rw [hr] at hqd
      cases hqd
    | some t₁ => exact ⟨t₁, rfl⟩
  have hrw : remove_files_and_dirs now st =
      (walkBottomUp [] t₁).foldl (pruneTriple now) st := by
    unfold remove_files_and_dirs
    rw [hrep]
  obtain ⟨p1, p2, p3, p4, p5, p6, p7, p7b, p8⟩ :=
    pruneWalk_spec_size (sizeOf t₁ + 1) S now t₁ (Nat.lt_succ_self _) [] st
      hsrc herr hsink
      (fun x => by rw [List.nil_append, hrep])
      (fun x => by rw [List.nil_append, hrep]; rfl)
      (wfP_of_wfO hwfr)
  rw [hrw]
  refine ⟨?_, ?_, ?_⟩
  · rw [p5 q, if_pos ⟨underB_nil_left q, hqne, hmiss⟩]
  · rw [p5 (q ++ [fn]),
      if_pos ⟨underB_nil_left _, by simp, existsSB_under_false hmiss [fn]⟩]
  · have hqd1 : treeLookup t₁ q = some (.dir dm dc [(fn, .file fmt fct fc)]) := by
      rw [hrep, lookupR_some] at hqd
      exact hqd
    have hl0 : lookupR st.fs.repl [] = some t₁ := by
      rw [hrep, lookupR_some]
      exact treeLookup_nil t₁
    have hreg := @pruneEvts_filter_region (existsSB S) now st.fs.repl
      (wfP_of_wfO hwfr) q hqne [] t₁ hl0
      (FsTree.dir dm dc [(fn, FsTree.file fmt fct fc)]) hqd1 rfl hmiss
    simp only [List.nil_append] at hreg
    rw [p6, hev]
    simp only [List.nil_append]
    rw [hreg]
    have heval : pruneEvts (existsSB S) now q
        (FsTree.dir dm dc [(fn, FsTree.file fmt fct fc)]) =
        [⟨.deleted_file, .source, q ++ [fn], now⟩] := by
      simp [pruneEvts, pruneEvtsKids, pruneFileEvts, pruneDirEvts,
        existsSB_under_false hmiss [fn]]
    rw [heval]
    rfl

/-- Witness for C5: the replica holds the extra subtree `gone/x.txt`, the
source lacks it; the prune pass drops both and logs the two deletion
lines in order. -/
theorem C5_deletion_cascade_witness :
    localAt (remove_files_and_dirs 7 (PassSt.init
      ⟨FsTree.dir 0 0 [],
       some (FsTree.dir 0 0 [("gone", FsTree.dir 1 1 [("x.txt", FsTree.file 2 2 "d")])])⟩
      reliableSink)).fs.repl ["gone"] = none ∧
    localAt (remove_files_and_dirs 7 (PassSt.init
      ⟨FsTree.dir 0 0 [],
       some (FsTree.dir 0 0 [("gone", FsTree.dir 1 1 [("x.txt", FsTree.file 2 2 "d")])])⟩
      reliableSink)).fs.repl (["gone"] ++ ["x.txt"]) = none ∧
    (remove_files_and_dirs 7 (PassSt.init
      ⟨FsTree.dir 0 0 [],
       some (FsTree.dir 0 0 [("gone", FsTree.dir 1 1 [("x.txt", FsTree.file 2 2 "d")])])⟩
      reliableSink)).events.filter (fun e => underB ["gone"] e.path) =
      [⟨.deleted_file, .source, ["gone"] ++ ["x.txt"], 7⟩,
       ⟨.deleted_dir, .replica, ["gone"], 7⟩] :=
  C5_deletion_cascade 7
    (PassSt.init
      ⟨FsTree.dir 0 0 [],
       some (FsTree.dir 0 0 [("gone", FsTree.dir 1 1 [("x.txt", FsTree.file 2 2 "d")])])⟩
      reliableSink)
    (FsTree.dir 0 0 []) ["gone"] "x.txt" 1 1 2 2 "d"
    rfl rfl rfl (by decide) rfl (by decide) (by decide) (by decide)

/-! Lemmas for the unreachability of the `os.rmdir` failure branch. -/

theorem treeRmdir_of_emptyDir :
    ∀ (p : Path) (t : FsTree) (dm dc : Int), p ≠ [] →
      treeLookup t p = some (.dir dm dc []) → ∃ t', treeRmdir t p = some t' := by
  intro p
  induction p with
  | nil => intro t dm dc h; exact absurd rfl h
  | cons n p ih =>
    intro t dm dc _ hl
    cases t with
    | file _ _ _ => simp [treeLookup] at hl
    | dir a b cs =>
      simp only [treeLookup] at hl
      cases hc : childGet cs n with
      | none => simp [hc] at hl
      | some u =>
        simp only [hc] at hl
        cases p with
        | nil =>
          simp [treeLookup] at hl
          subst hl
          simp only [treeRmdir, hc]
          exact ⟨_, rfl⟩
        | cons m ps =>
          obtain ⟨t', ht'⟩ := ih u dm dc (by simp) hl
          simp only [treeRmdir, hc, ht', Option.map_some']
          exact ⟨_, rfl⟩

theorem rmdir_succeeds_of_listdir_empty {fs : SyncFs} {p : Path} {l : List String}
    (hp : p ≠ []) (hl : fs.listdir .replica p = some l) (he : l.isEmpty = true) :
    ∃ fs', fs.rmdir .replica p = some fs' := by
  unfold SyncFs.listdir at hl
  cases hlk : fs.lookup .replica p with
  | none => rw [hlk] at hl; simp at hl
  | some u =>
    rw [hlk] at hl
    cases u with
    | file _ _ _ => simp at hl
    | dir dm dc cs =>
      simp at hl
      have hcs : cs = [] := by
        rw [List.isEmpty_iff] at he
        subst hl
        exact List.map_eq_nil_iff.mp he
      subst hcs
      unfold SyncFs.lookup at hlk
      cases hr : fs.repl with
      | none => rw [hr] at hlk; simp [lookupR] at hlk
      | some t =>
        rw [hr] at hlk
        simp only [lookupR] at hlk
        obtain ⟨t', ht'⟩ := treeRmdir_of_emptyDir p t dm dc hp hlk
        simp only [SyncFs.rmdir, hr, ht', Option.map_some']
        exact ⟨_, rfl⟩

theorem foldl_preserves {α β : Type} (proj : PassSt → β) (g : PassSt → α → PassSt)
    (hg : ∀ st a, proj (g st a) = proj st) :
    ∀ (l : List α) (st : PassSt), proj (l.foldl g st) = proj st := by
  intro l
  induction l with
  | nil => intro st; rfl
  | cons a l ih => intro st; rw [List.foldl_cons, ih, hg]

theorem copyDirEnsure_rmdirFailed (now : Int) (rel : Path) (st : PassSt) :
    (copyDirEnsure now rel st).rmdirFailed = st.rmdirFailed := by
  unfold copyDirEnsure
  split
  · rfl
  split
  · rfl
  · split <;> rfl

theorem copyFileStep_rmdirFailed (now : Int) (rel : Path) (st : PassSt) (f : String) :
    (copyFileStep now rel st f).rmdirFailed = st.rmdirFailed := by
  unfold copyFileStep
  split
  · rfl
  dsimp only
  split
  · split
    · rfl
    · split
      · rfl
      · rw [log_and_print_rmdirFailed]
  · split
    · split
      · split
        · rfl
        · split
          · rfl
          · rw [log_and_print_rmdirFailed]
      · rfl
    · rfl

theorem copyDirStep_rmdirFailed (now : Int) (rel : Path) (st : PassSt) (d : String) :
    (copyDirStep now rel st d).rmdirFailed = st.rmdirFailed := by
  unfold copyDirStep
  split
  · rfl
  dsimp only
  split
  · split
    · rfl
    · split
      · rfl
      · rw [log_and_print_rmdirFailed]
  · rfl

theorem pruneFileStep_rmdirFailed (now : Int) (rel : Path) (st : PassSt) (f : String) :
    (pruneFileStep now rel st f).rmdirFailed = st.rmdirFailed := by
  unfold pruneFileStep
  split
  · rfl
  dsimp only
  split
  · split
    · rfl
    · rw [log_and_print_rmdirFailed]
  · rfl

theorem pruneDirStep_rmdirFailed (now : Int) (rel : Path) (st : PassSt) (d : String) :
    (pruneDirStep now rel st d).rmdirFailed = st.rmdirFailed := by
  unfold pruneDirStep
  split
  · rfl
  dsimp only
  split
  · rfl
  next l hl =>
    split
    · next hg =>
      rw [Bool.and_eq_true] at hg
      split
      · next hn =>
        exfalso
        obtain ⟨fs', hfs'⟩ :=
          rmdir_succeeds_of_listdir_empty (by simp) hl hg.1
        rw [hfs'] at hn
        cases hn
      · rw [log_and_print_rmdirFailed]
    · rfl

theorem copyTriple_rmdirFailed (now : Int) (st : PassSt) (tr : Triple) :
    (copyTriple now st tr).rmdirFailed = st.rmdirFailed := by
  unfold copyTriple
  rw [foldl_preserves _ _ (copyDirStep_rmdirFailed now tr.1),
    foldl_preserves _ _ (copyFileStep_rmdirFailed now tr.1),
    copyDirEnsure_rmdirFailed]

theorem pruneTriple_rmdirFailed (now : Int) (st : PassSt) (tr : Triple) :
    (pruneTriple now st tr).rmdirFailed = st.rmdirFailed := by
  unfold pruneTriple
  rw [foldl_preserves _ _ (pruneDirStep_rmdirFailed now tr.1),
    foldl_preserves _ _ (pruneFileStep_rmdirFailed now tr.1)]

theorem copy_files_and_dirs_rmdirFailed (now : Int) (st : PassSt) :
    (copy_files_and_dirs now st).rmdirFailed = st.rmdirFailed := by
  unfold copy_files_and_dirs
  exact foldl_preserves _ _ (copyTriple_rmdirFailed now) _ st

theorem remove_files_and_dirs_rmdirFailed (now : Int) (st : PassSt) :
    (remove_files_and_dirs now st).rmdirFailed = st.rmdirFailed := by
  unfold remove_files_and_dirs
  exact foldl_preserves _ _ (pruneTriple_rmdirFailed now) _ st

/-- C6: the Pruner never removes a non-empty replica directory.  The
removal branch of `remove_files_and_dirs` runs only when `os.listdir`
just found the directory empty (and the source counterpart is absent), so
the `os.rmdir` failure branch — which would fire exactly on a non-empty
(or missing) directory — is unreachable: for every filesystem and every
sink, a full prune pass (and a full pass) ends with `rmdirFailed = false`,
and a directory still containing entries is left in place. -/
theorem C6_rmdir_error_unreachable (now : Int) (fs : SyncFs) (sink : Nat → Bool) :
    (remove_files_and_dirs now (PassSt.init fs sink)).rmdirFailed = false ∧
    (one_pass now (PassSt.init fs sink)).rmdirFailed = false := by
  constructor
  · rw [remove_files_and_dirs_rmdirFailed]; rfl
  · unfold one_pass
    rw [remove_files_and_dirs_rmdirFailed, copy_files_and_dirs_rmdirFailed]
    rfl

/-- C8: neither pass ever mutates the source tree: all creations,
overwrites and removals of `copy_files_and_dirs` and
`remove_files_and_dirs` are performed against paths joined under
`folder_replica`, so after a full pass the source component of the
filesystem is unchanged — for every starting state, even erroring ones. -/
theorem C8_source_never_mutated (now : Int) (st : PassSt) :
    (one_pass now st).fs.src = st.fs.src ∧
    (copy_files_and_dirs now st).fs.src = st.fs.src ∧
    (remove_files_and_dirs now st).fs.src = st.fs.src := by
  refine ⟨?_, copy_files_and_dirs_src now st, remove_files_and_dirs_src now st⟩
  unfold one_pass
  rw [remove_files_and_dirs_src, copy_files_and_dirs_src]

/-! Argument parsing. -/

theorem getting_args_exits (argv : List String)
    (h : argv.length < 5 ∨ ∃ a3, argv[3]? = some a3 ∧ pyInt a3 = none) :
    ∃ m, getting_args argv = .exited m 0 := by
  unfold getting_args
  cases h1 : argv[1]? with
  | none => exact ⟨usage_message, by simp [h1]⟩
  | some a1 =>
    cases h2 : argv[2]? with
    | none => exact ⟨usage_message, by simp [h1, h2]⟩
    | some a2 =>
      cases h3 : argv[3]? with
      | none => exact ⟨usage_message, by simp [h1, h2, h3]⟩
      | some a3 =>
        cases hpy : pyInt a3 with
        | none => exact ⟨integer_message, by simp [h1, h2, h3, hpy]⟩
        | some n =>
          cases h4 : argv[4]? with
          | none => exact ⟨usage_message, by simp [h1, h2, h3, hpy, h4]⟩
          | some a4 =>
            exfalso
            rcases h with hlen | ⟨b3, hb3, hbpy⟩
            · rw [List.getElem?_eq_none (by omega)] at h4
              cases h4
            · rw [h3] at hb3
              injection hb3 with hb
              rw [← hb] at hbpy
              rw [hpy] at hbpy
              cases hbpy

theorem sync_folders_config_of_exited {argv : List String} {m : String} {c : Nat}
    (h : getting_args argv = .exited m c) : sync_folders_config argv = none := by
  unfold sync_folders_config
  rw [h]

/-- C9 (amended): for every malformed invocation — fewer than four
command-line arguments, or a third argument that `int` rejects — the
program prints a usage (or integer) message and exits before any
synchronization pass runs, but `sys.exit()` is called with no argument,
so the exit status is 0, not non-zero. -/
theorem C9_malformed_invocation_exits_before_core (argv : List String)
    (h : argv.length < 5 ∨ ∃ a3, argv[3]? = some a3 ∧ pyInt a3 = none) :
    ∃ m, getting_args argv = .exited m 0 ∧ sync_folders_config argv = none := by
  obtain ⟨m, hm⟩ := getting_args_exits argv h
  exact ⟨m, hm, sync_folders_config_of_exited hm⟩

/-- C9 witness: the malformed invocation with no arguments at all. -/
theorem C9_malformed_invocation_exits_before_core_witness :
    ((["synchronizer.py"] : List String).length < 5 ∨
      ∃ a3, (["synchronizer.py"] : List String)[3]? = some a3 ∧ pyInt a3 = none) ∧
    ∃ m, getting_args ["synchronizer.py"] = .exited m 0 ∧
      sync_folders_config ["synchronizer.py"] = none :=
  ⟨Or.inl (by decide),
    C9_malformed_invocation_exits_before_core ["synchronizer.py"] (Or.inl (by decide))⟩

/-- C9 counterexample to the claim as stated: on the malformed invocation
with no user arguments, the program exits with status 0 — there is no
non-zero exit status, contrary to the claim. -/
theorem C9_exit_status_is_zero_cex :
    getting_args ["synchronizer.py"] = .exited usage_message 0 ∧
    (∀ m c, getting_args ["synchronizer.py"] = .exited m c → c = 0) := by
  constructor
  · decide
  · intro m c h
    rw [show getting_args ["synchronizer.py"] = .exited usage_message 0 from by decide] at h
    injection h with h1 h2
    exact h2.symm

/-- C10: argument parsing does not enforce positivity of the sync
interval: whenever the third argument parses as an integer — zero and
negative values included — `getting_args` succeeds and the sync loop is
entered with exactly that value as the sleep interval. -/
theorem C10_interval_positivity_not_checked (a0 a1 a2 s a4 : String) (n : Int)
    (h : pyInt s = some n) :
    getting_args [a0, a1, a2, s, a4] = .ok a1 a2 n (a4 ++ ".log") ∧
    sync_folders_config [a0, a1, a2, s, a4] = some (a1, a2, n, a4 ++ ".log") := by
  have hg : getting_args [a0, a1, a2, s, a4] = .ok a1 a2 n (a4 ++ ".log") := by
    unfold getting_args
    simp [h]
  refine ⟨hg, ?_⟩
  unfold sync_folders_config
  rw [hg]

/-- C10 witness: the negative interval `-7` is passed through unchanged. -/
theorem C10_interval_positivity_not_checked_witness :
    pyInt "-7" = some (-7) ∧
    getting_args ["synchronizer.py", "src", "rep", "-7", "L"] =
      .ok "src" "rep" (-7) ("L" ++ ".log") ∧
    sync_folders_config ["synchronizer.py", "src", "rep", "-7", "L"] =
      some ("src", "rep", -7, "L" ++ ".log") :=
  ⟨by decide,
    C10_interval_positivity_not_checked "synchronizer.py" "src" "rep" "-7" "L" (-7) (by decide)⟩

/-- C7: a failure of the event sink aborts the pass, contrary to the
claim.  `log_and_print` opens and writes the log file with no handler, so
the exception propagates into `copy_files_and_dirs`.  Concretely: with a
source holding `a.txt` and `b.txt`, an absent replica, and a sink whose
appends fail, the pass copies `a.txt`, then dies logging its creation
event: the pass ends errored, no event is recorded, and `b.txt` is never
copied — the synchronization work of the pass is lost, not just the one
event. -/
theorem C7_log_failure_aborts_pass :
    (one_pass 9 (PassSt.init
      ⟨.dir 0 0 [("a.txt", .file 1 1 "a"), ("b.txt", .file 2 2 "b")], none⟩
      failingSink)).errored = true ∧
    (one_pass 9 (PassSt.init
      ⟨.dir 0 0 [("a.txt", .file 1 1 "a"), ("b.txt", .file 2 2 "b")], none⟩
      failingSink)).events = [] ∧
    lookupR (one_pass 9 (PassSt.init
      ⟨.dir 0 0 [("a.txt", .file 1 1 "a"), ("b.txt", .file 2 2 "b")], none⟩
      failingSink)).fs.repl ["a.txt"] = some (.file 1 9 "a") ∧
    lookupR (one_pass 9 (PassSt.init
      ⟨.dir 0 0 [("a.txt", .file 1 1 "a"), ("b.txt", .file 2 2 "b")], none⟩
      failingSink)).fs.repl ["b.txt"] = none := by
  decide

/-- C1 counterexample: for the source tree holding the file `a` (mtime 1)
and the replica tree holding an empty directory `a` with the same mtime,
one full pass completes without error and without events, yet leaves the
directory in the replica: the relative path `a` is a file of the source
but resolves to a directory — not a file with a matching timestamp — in
the replica.  (The timestamp-equality check at line 84 compares the
`os.stat` mtimes of the file and the directory, finds them equal and
skips the copy; the Pruner then keeps the directory because
`os.path.exists(source/a)` is true.) -/
theorem C1_convergence_cex :
    let st := one_pass 9 (PassSt.init
      ⟨.dir 0 0 [("a", .file 1 1 "x")], some (.dir 0 0 [("a", .dir 1 5 [])])⟩ reliableSink)
    st.errored = false ∧ st.events = [] ∧
    treeLookup (FsTree.dir 0 0 [("a", .file 1 1 "x")]) ["a"] = some (.file 1 1 "x") ∧
    lookupR st.fs.repl ["a"] = some (.dir 1 5 []) ∧
    ∀ mt ct c, lookupR st.fs.repl ["a"] ≠ some (.file mt ct c) := by
  refine ⟨by decide, by decide, by decide, by decide, ?_⟩
  intro mt ct c h
  rw [show lookupR (one_pass 9 (PassSt.init
      ⟨.dir 0 0 [("a", .file 1 1 "x")], some (.dir 0 0 [("a", .dir 1 5 [])])⟩
      reliableSink)).fs.repl ["a"] = some (.dir 1 5 []) from by decide] at h
  injection h with h'
  cases h'

/-- C3 counterexample: with an empty source tree and an absent replica
root, the copy pass creates the replica root directory (line 67) but
emits no `Created` event at all — contradicting the claim that every
directory the Reconciler creates, the replica root included, is reported
with exactly one `Created` event. -/
theorem C3_created_dir_events_cex :
    let st := copy_files_and_dirs 7 (PassSt.init ⟨.dir 0 0 [], none⟩ reliableSink)
    st.fs.repl = some (.dir 7 7 []) ∧ st.events = [] ∧ st.errored = false := by
  decide

end FolderSync
